import Mathlib

/-!
# CTC forward-backward (`src/cpp/ctc.cpp`, `src/cpp/utils.hpp`)

A shallow embedding of the CTC loss of the `crnn` repository and proofs about it.

* The source is generic in its scalar type (`template <class T>`).  The embedding is
  generic in the same way: `Scalar α` lists the primitive operations of `T` the source
  uses (`+`, `-`, unary `-`, `==`, `<`, `>=`, `std::exp`, `std::log`, the literals and the
  two `std::numeric_limits` constants).
* Tensors are index-to-value maps together with their sizes; a write through `.at(...)`
  is a point update.  A read at an index outside the sizes is undefined in the source;
  here it returns whatever the map holds there.
* `for` loops are folds over the list of the loop variable's values, in the order of
  the source.  The `omp parallel for` over the sequences is taken in index order.
* Sizes and loop variables are naturals, labels are integers as in the source; a label
  indexes a tensor through `Int.toNat`. Subtractions such as `inputLength - 1` are
  truncated: the source reads row `0` and row `inputLength - 1` of the lattices
  unconditionally, and the theorems about a sequence assume `inputLength ≥ 1`.
* `XReal` is the exact instance: the reals with `-∞`, `+∞` and `nan`, with the IEEE
  rules for the special values and no rounding. `exactArith M` takes the largest
  finite value `M` as a parameter; the theorems that need it assume `1 < M`, or
  `0 < M`, and nothing else.
-/

namespace CTC

/-! ## Scalars -/

/-- Primitive operations of the scalar type `T` of the templates. -/
structure Scalar (α : Type) where
  /-- the literal `0` / `0.0` -/
  zero : α
  /-- the literal `1.0` -/
  one : α
  add : α → α → α
  sub : α → α → α
  neg : α → α
  /-- `std::exp` -/
  exp : α → α
  /-- `std::log` -/
  log : α → α
  /-- `operator==` -/
  eq : α → α → Bool
  /-- `operator<` -/
  lt : α → α → Bool
  /-- `operator>=` -/
  ge : α → α → Bool
  /-- `std::numeric_limits<T>::max()` -/
  maxVal : α
  /-- `std::numeric_limits<T>::infinity()` -/
  infinity : α

/-! ## Tensors -/

/-- A one-dimensional tensor (also used for `std::vector`). -/
structure Tensor1 (α : Type) where
  size0 : Nat
  val : Nat → α

/-- A two-dimensional tensor. -/
structure Tensor2 (α : Type) where
  size0 : Nat
  size1 : Nat
  val : Nat → Nat → α

/-- A three-dimensional tensor. -/
structure Tensor3 (α : Type) where
  size0 : Nat
  size1 : Nat
  size2 : Nat
  val : Nat → Nat → Nat → α

/-- `Tensor<T> x({n}); x.fill(v)` -/
def Tensor1.filled {α : Type} (n : Nat) (v : α) : Tensor1 α :=
  { size0 := n, val := fun _ => v }

/-- `x.at(i) = v` -/
def Tensor1.set {α : Type} (x : Tensor1 α) (i : Nat) (v : α) : Tensor1 α :=
  { x with val := fun i' => if i' = i then v else x.val i' }

/-- `Tensor<T> x({n, m}); x.fill(v)` -/
def Tensor2.filled {α : Type} (n m : Nat) (v : α) : Tensor2 α :=
  { size0 := n, size1 := m, val := fun _ _ => v }

/-- `x.at({i, j}) = v` -/
def Tensor2.set {α : Type} (x : Tensor2 α) (i j : Nat) (v : α) : Tensor2 α :=
  { x with val := fun i' j' => if i' = i ∧ j' = j then v else x.val i' j' }

/-- `x.resizeAs(y); x.fill(v)` -/
def Tensor3.resizeAsFill {α : Type} (_x y : Tensor3 α) (v : α) : Tensor3 α :=
  { size0 := y.size0, size1 := y.size1, size2 := y.size2, val := fun _ _ _ => v }

/-- `x.at({i, j, k}) = v` -/
def Tensor3.set {α : Type} (x : Tensor3 α) (i j k : Nat) (v : α) : Tensor3 α :=
  { x with val := fun i' j' k' => if i' = i ∧ j' = j ∧ k' = k then v else x.val i' j' k' }

/-! ## `utils.hpp` -/

/-- The loop of `zeroPadArrayLength`: `fuel` is `maxLength - i`, so `fuel = 0` is the
exit `i < maxLength` false, where `length` still holds `maxLength`. -/
def zeroPadArrayLength.loop (data : Nat → Int) (maxLength : Nat) : Nat → Nat → Nat
  | 0, _ => maxLength
  | fuel + 1, i => if data i = 0 then i else zeroPadArrayLength.loop data maxLength fuel (i + 1)

/-- `zeroPadArrayLength(data, maxLength)` -/
def zeroPadArrayLength (data : Nat → Int) (maxLength : Nat) : Nat :=
  zeroPadArrayLength.loop data maxLength maxLength 0

namespace LogMath

variable {α : Type}

/-- `expMax = numeric_limits<T>::max()` -/
def expMax (A : Scalar α) : α := A.maxVal

/-- `expLimit = std::log(expMax)` -/
def expLimit (A : Scalar α) : α := A.log (expMax A)

/-- `logInfinity = numeric_limits<T>::infinity()` -/
def logInfinity (A : Scalar α) : α := A.infinity

/-- `logZero = -logInfinity` -/
def logZero (A : Scalar α) : α := A.neg (logInfinity A)

/-- `logOne = 0.0` -/
def logOne (A : Scalar α) : α := A.zero

/-- `LogMath::safeExp` -/
def safeExp (A : Scalar α) (logX : α) : α :=
  if A.eq logX (logZero A) then A.zero
  else if A.ge logX (expLimit A) then expMax A
  else A.exp logX

/-- `LogMath::logAdd` -/
def logAdd (A : Scalar α) (logX logY : α) : α :=
  if A.eq logX (logZero A) then logY
  else if A.eq logY (logZero A) then logX
  else
    let p : α × α := if A.lt logX logY then (logY, logX) else (logX, logY)
    A.add p.1 (A.log (A.add A.one (safeExp A (A.sub p.2 p.1))))

/-- `LogMath::logMul` -/
def logMul (A : Scalar α) (logX logY : α) : α :=
  if A.eq logX (logZero A) || A.eq logY (logZero A) then logZero A
  else A.add logX logY

/-- `LogMath::logDiv` -/
def logDiv (A : Scalar α) (logX logY : α) : α :=
  if A.eq logX (logZero A) then logZero A
  else if A.eq logY (logZero A) then logInfinity A
  else A.sub logX logY

end LogMath

/-! ## `ctc.cpp`: `forwardBackward` -/

section ForwardBackward

variable {α : Type}

/-- `const int blankLabel = 0;` -/
def blankLabel : Int := 0

/-- Body of the inner loop of the forward pass (lines 59-74): the value `fv` for
segment `s`, from the previous row `prefFvars = fvars[t-1]` and the scores
`currLogActs = input_i[t]`. -/
def forwardCell (A : Scalar α) (currLogActs prefFvars : Nat → α) (targetData_i : Nat → Int)
    (s : Nat) : α :=
  if s % 2 = 1 then
    let labelIndex := s / 2
    let label := targetData_i labelIndex
    let fv := LogMath.logAdd A (prefFvars s) (prefFvars (s - 1))
    let fv := if s > 1 ∧ label ≠ targetData_i (labelIndex - 1)
      then LogMath.logAdd A fv (prefFvars (s - 2)) else fv
    LogMath.logMul A fv (currLogActs label.toNat)
  else
    let fv := prefFvars s
    let fv := if s > 0 then LogMath.logAdd A fv (prefFvars (s - 1)) else fv
    LogMath.logMul A fv (currLogActs 0)

/-- `sBegin = std::max(0, nSegment - (2 * (inputLength - t)))`; on naturals the
truncated subtraction is that maximum (`t ≤ inputLength` in both loops). -/
def sBegin (inputLength nSegment t : Nat) : Nat :=
  max 0 (nSegment - 2 * (inputLength - t))

/-- `sEnd = std::min(nSegment, 2 * (t + 1))` -/
def sEnd (nSegment t : Nat) : Nat :=
  min nSegment (2 * (t + 1))

/-- One iteration of the `t` loop of the forward pass (lines 54-76). -/
def forwardStep (A : Scalar α) (input_i : Nat → Nat → α) (targetData_i : Nat → Int)
    (inputLength nSegment : Nat) (fvars : Tensor2 α) (t : Nat) : Tensor2 α :=
  (List.range' (sBegin inputLength nSegment t)
      (sEnd nSegment t - sBegin inputLength nSegment t)).foldl
    (fun fvars s =>
      fvars.set t s (forwardCell A (input_i t) (fvars.val (t - 1)) targetData_i s))
    fvars

/-- The forward variables (lines 47-77). -/
def forwardVars (A : Scalar α) (input_i : Nat → Nat → α) (targetData_i : Nat → Int)
    (inputLength nSegment : Nat) : Tensor2 α :=
  let fvars := Tensor2.filled inputLength nSegment (LogMath.logZero A)
  let fvars := fvars.set 0 0 (input_i 0 0)
  let fvars := if nSegment > 1 then fvars.set 0 1 (input_i 0 (targetData_i 0).toNat) else fvars
  (List.range' 1 (inputLength - 1)).foldl
    (forwardStep A input_i targetData_i inputLength nSegment) fvars

/-- The log-likelihood (lines 80-83). -/
def logLikelihood (A : Scalar α) (fvars : Tensor2 α) (inputLength nSegment : Nat) : α :=
  let logProb := fvars.val (inputLength - 1) (nSegment - 1)
  if nSegment > 1 then LogMath.logAdd A logProb (fvars.val (inputLength - 1) (nSegment - 2))
  else logProb

/-- Body of the inner loop of the backward pass (lines 100-122): the value `bv` for
segment `s`, from `prevBvars = bvars[t+1]` and `prevLogActs = input_i[t+1]`. -/
def backwardCell (A : Scalar α) (prevLogActs prevBvars : Nat → α) (targetData_i : Nat → Int)
    (nSegment s : Nat) : α :=
  if s % 2 = 1 then
    let labelIndex := s / 2
    let label := targetData_i labelIndex
    let bv := LogMath.logAdd A
      (LogMath.logMul A (prevBvars s) (prevLogActs label.toNat))
      (LogMath.logMul A (prevBvars (s + 1)) (prevLogActs blankLabel.toNat))
    if s + 2 < nSegment then
      let prevLabel := targetData_i (labelIndex + 1)
      if label ≠ prevLabel then
        LogMath.logAdd A bv (LogMath.logMul A (prevBvars (s + 2)) (prevLogActs prevLabel.toNat))
      else bv
    else bv
  else
    let labelIndex := s / 2
    let label := targetData_i labelIndex
    let bv := LogMath.logMul A (prevBvars s) (prevLogActs blankLabel.toNat)
    if s + 1 < nSegment then
      LogMath.logAdd A bv (LogMath.logMul A (prevBvars (s + 1)) (prevLogActs label.toNat))
    else bv

/-- One iteration of the `t` loop of the backward pass (lines 95-124). -/
def backwardStep (A : Scalar α) (input_i : Nat → Nat → α) (targetData_i : Nat → Int)
    (inputLength nSegment : Nat) (bvars : Tensor2 α) (t : Nat) : Tensor2 α :=
  (List.range' (sBegin inputLength nSegment t)
      (sEnd nSegment t - sBegin inputLength nSegment t)).foldl
    (fun bvars s =>
      bvars.set t s
        (backwardCell A (input_i (t + 1)) (bvars.val (t + 1)) targetData_i nSegment s))
    bvars

/-- The backward variables (lines 88-125); `t` runs from `inputLength-2` down to `0`. -/
def backwardVars (A : Scalar α) (input_i : Nat → Nat → α) (targetData_i : Nat → Int)
    (inputLength nSegment : Nat) : Tensor2 α :=
  let bvars := Tensor2.filled inputLength nSegment (LogMath.logZero A)
  let bvars := bvars.set (inputLength - 1) (nSegment - 1) (LogMath.logOne A)
  let bvars := if nSegment > 1
    then bvars.set (inputLength - 1) (nSegment - 2) (LogMath.logOne A) else bvars
  (List.range (inputLength - 1)).reverse.foldl
    (backwardStep A input_i targetData_i inputLength nSegment) bvars

/-- The vector `logDeDy` after the loop over the segments (lines 131-136). -/
def logDeDy (A : Scalar α) (currLogFv currLogBv : Nat → α) (targetData_i : Nat → Int)
    (nClasses nSegment : Nat) : Tensor1 α :=
  (List.range nSegment).foldl
    (fun logDeDy s =>
      let k : Int := if s % 2 = 1 then targetData_i (s / 2) else blankLabel
      logDeDy.set k.toNat
        (LogMath.logAdd A (logDeDy.val k.toNat)
          (LogMath.logMul A (currLogFv s) (currLogBv s))))
    (Tensor1.filled nClasses (LogMath.logZero A))

/-- One iteration of the `t` loop of the gradient computation (lines 129-140). -/
def gradStep (A : Scalar α) (fvars bvars : Tensor2 α) (targetData_i : Nat → Int)
    (nClasses nSegment : Nat) (logProb : α) (i : Nat) (gradInput : Tensor3 α) (t : Nat) :
    Tensor3 α :=
  let logDeDy := logDeDy A (fvars.val t) (bvars.val t) targetData_i nClasses nSegment
  (List.range nClasses).foldl
    (fun gradInput k =>
      gradInput.set i t k
        (A.neg (LogMath.safeExp A (LogMath.logDiv A (logDeDy.val k) logProb))))
    gradInput

/-- The outputs of `forwardBackward`: the tensor it returns and the tensor it writes. -/
structure Outputs (α : Type) where
  losses : Tensor1 α
  gradInput : Tensor3 α

/-- Body of the loop over the sequences (lines 41-142). -/
def sequenceStep (A : Scalar α) (input : Tensor3 α) (targets : Tensor2 Int)
    (forwardOnly : Bool) (st : Outputs α) (i : Nat) : Outputs α :=
  let inputLength := input.size1
  let nClasses := input.size2
  let maxTargetlength := targets.size1
  let input_i := input.val i
  let targetData_i := targets.val i
  let targetLength := zeroPadArrayLength targetData_i maxTargetlength
  let nSegment := 2 * targetLength + 1
  let fvars := forwardVars A input_i targetData_i inputLength nSegment
  let logProb := logLikelihood A fvars inputLength nSegment
  let losses := st.losses.set i (A.neg logProb)
  if !forwardOnly then
    let bvars := backwardVars A input_i targetData_i inputLength nSegment
    let gradInput := (List.range inputLength).foldl
      (gradStep A fvars bvars targetData_i nClasses nSegment logProb i) st.gradInput
    { losses := losses, gradInput := gradInput }
  else
    { losses := losses, gradInput := st.gradInput }

/-- `forwardBackward(input, targets, forwardOnly, gradInput)` (lines 21-148). -/
def forwardBackward (A : Scalar α) (input : Tensor3 α) (targets : Tensor2 Int)
    (forwardOnly : Bool) (gradInput : Tensor3 α) : Outputs α :=
  let nFrame := input.size0
  let gradInput :=
    if !forwardOnly then gradInput.resizeAsFill input (LogMath.logZero A) else gradInput
  let losses := Tensor1.filled nFrame A.zero
  (List.range nFrame).foldl (sequenceStep A input targets forwardOnly)
    { losses := losses, gradInput := gradInput }

end ForwardBackward

/-! ## `ctc.cpp`: `naiveDecoding` -/

/-- The vector `predVec` after the loop over `t` (lines 165-172). -/
def naiveDecoding.predVec (rawPredData_i : Nat → Int) (inputLength : Nat) : List Int :=
  (List.range inputLength).foldl
    (fun predVec t =>
      if rawPredData_i t ≠ 0 ∧ ¬ (t > 0 ∧ rawPredData_i t = rawPredData_i (t - 1))
      then predVec ++ [rawPredData_i t] else predVec)
    []

/-- Body of the loop over the sequences (lines 165-175). -/
def naiveDecoding.sequenceStep (rawPred : Tensor2 Int) (pred : Tensor2 Int) (i : Nat) :
    Tensor2 Int :=
  let predVec := naiveDecoding.predVec (rawPred.val i) rawPred.size1
  (List.range predVec.length).foldl (fun pred j => pred.set i j (predVec.getD j 0)) pred

/-- `naiveDecoding`, from the tensor `rawPred` of per-timestep arg-max classes on
(lines 161-180); the arg-max itself is `thpp`'s `max(2)`. Returns `(pred, rawPred)`. -/
def naiveDecoding (rawPred : Tensor2 Int) : Tensor2 Int × Tensor2 Int :=
  let nFrame := rawPred.size0
  let inputLength := rawPred.size1
  let pred := Tensor2.filled nFrame inputLength (0 : Int)
  ((List.range nFrame).foldl (naiveDecoding.sequenceStep rawPred) pred, rawPred)

/-! ## Exact arithmetic -/

/-- The reals with the IEEE special values: the exact counterpart of `float`/`double`. -/
inductive XReal where
  | ninf : XReal
  | fin : ℝ → XReal
  | pinf : XReal
  | nan : XReal

namespace XReal

/-- Addition: exact on finite values, IEEE on the special ones (`∞ + -∞ = nan`). -/
noncomputable def add : XReal → XReal → XReal
  | fin x, fin y => fin (x + y)
  | fin _, ninf => ninf
  | fin _, pinf => pinf
  | ninf, fin _ => ninf
  | ninf, ninf => ninf
  | pinf, fin _ => pinf
  | pinf, pinf => pinf
  | ninf, pinf => nan
  | pinf, ninf => nan
  | nan, _ => nan
  | _, nan => nan

/-- Unary minus. -/
noncomputable def neg : XReal → XReal
  | fin x => fin (-x)
  | ninf => pinf
  | pinf => ninf
  | nan => nan

/-- Subtraction, `a - b = a + (-b)`. -/
noncomputable def sub (a b : XReal) : XReal := add a (neg b)

/-- The exponential: `exp(-∞) = 0`, `exp(∞) = ∞`. -/
noncomputable def exp : XReal → XReal
  | fin x => fin (Real.exp x)
  | ninf => fin 0
  | pinf => pinf
  | nan => nan

/-- The logarithm: `log 0 = -∞`, `nan` on negative arguments. -/
noncomputable def log : XReal → XReal
  | fin x => if x < 0 then nan else if x = 0 then ninf else fin (Real.log x)
  | ninf => nan
  | pinf => pinf
  | nan => nan

/-- Comparison `==`: false as soon as one side is `nan`. -/
noncomputable def eq : XReal → XReal → Bool
  | fin x, fin y => decide (x = y)
  | ninf, ninf => true
  | pinf, pinf => true
  | _, _ => false

/-- Comparison `<`: false as soon as one side is `nan`. -/
noncomputable def lt : XReal → XReal → Bool
  | fin x, fin y => decide (x < y)
  | ninf, fin _ => true
  | ninf, pinf => true
  | fin _, pinf => true
  | _, _ => false

/-- Comparison `>=`: false as soon as one side is `nan`. -/
noncomputable def ge : XReal → XReal → Bool
  | fin x, fin y => decide (y ≤ x)
  | fin _, ninf => true
  | pinf, ninf => true
  | pinf, fin _ => true
  | ninf, ninf => true
  | pinf, pinf => true
  | _, _ => false

end XReal

/-- Exact arithmetic, with `M` the largest finite value `numeric_limits<T>::max()`. -/
noncomputable def exactArith (M : ℝ) : Scalar XReal where
  zero := XReal.fin 0
  one := XReal.fin 1
  add := XReal.add
  sub := XReal.sub
  neg := XReal.neg
  exp := XReal.exp
  log := XReal.log
  eq := XReal.eq
  lt := XReal.lt
  ge := XReal.ge
  maxVal := XReal.fin M
  infinity := XReal.pinf

/-! ## The specification's notions -/

section SpecDefs

/-- The predictions `naiveDecoding` is to keep, in the words of the specification: the
`raw[t]` with `raw[t] ≠ 0` and (`t = 0` or `raw[t] ≠ raw[t-1]`), in order. -/
def keptPredictions (raw : Nat → Int) (T : Nat) : List Int :=
  ((List.range T).filter (fun t => decide (raw t ≠ 0 ∧ (t = 0 ∨ raw t ≠ raw (t - 1))))).map raw

/-- The first `T` entries of a row, as a list. -/
def rowList (row : Nat → Int) (T : Nat) : List Int := (List.range T).map row

/-- Merge consecutive equal entries of a path. -/
def mergeRepeats : List Nat → List Nat
  | [] => []
  | [a] => [a]
  | a :: b :: r => if a = b then mergeRepeats (b :: r) else a :: mergeRepeats (b :: r)

/-- The collapse of a path: merge consecutive equal entries, then delete the blanks. -/
def collapse (p : List Nat) : List Nat := (mergeRepeats p).filter (fun k => decide (k ≠ 0))

/-- Every path of length `T` over the classes `0, ..., K-1`. -/
def allPaths (K : Nat) : Nat → List (List Nat)
  | 0 => [[]]
  | T + 1 => (allPaths K T).flatMap (fun p => (List.range K).map (fun k => p ++ [k]))

/-- The effective target labels `l_1, ..., l_L` of a padded row. -/
def targetLabels (targetData_i : Nat → Int) (maxTargetlength : Nat) : List Int :=
  (List.range (zeroPadArrayLength targetData_i maxTargetlength)).map targetData_i

/-- The valid alignments of a target row: the paths of length `T` over the classes
`0, ..., K-1` whose collapse is exactly the effective target labels. -/
def alignments (K T : Nat) (targetData_i : Nat → Int) (maxTargetlength : Nat) :
    List (List Nat) :=
  (allPaths K T).filter
    (fun p => decide ((collapse p).map Int.ofNat = targetLabels targetData_i maxTargetlength))

/-- The weight of a path: the product over `t` of `exp (x t (p t))`. -/
noncomputable def pathWeight (x : Nat → Nat → ℝ) (p : List Nat) : ℝ :=
  ((List.range p.length).map (fun t => Real.exp (x t (p.getD t 0)))).prod

/-- Sum of `f` over a list. -/
def lsum {β : Type} (l : List β) (f : β → ℝ) : ℝ := (l.map f).sum

/-- The scores `x` with the score of class `k` at time `t` replaced by `v`. -/
def setScore (x : Nat → Nat → ℝ) (t k : Nat) (v : ℝ) : Nat → Nat → ℝ :=
  fun t' k' => if t' = t ∧ k' = k then v else x t' k'

end SpecDefs

/-! ## Sample inputs -/

section Samples

/-- A batch of one sequence of two timesteps over two classes, every score `0`. -/
noncomputable def sampleInput : Tensor3 XReal :=
  { size0 := 1, size1 := 2, size2 := 2, val := fun _ _ _ => XReal.fin 0 }

/-- The target row `[1, 0]`: the label `1`, padded to width two. -/
def sampleTargets : Tensor2 Int :=
  { size0 := 1, size1 := 2, val := fun _ j => if j = 0 then 1 else 0 }

/-- A batch of one sequence of one timestep over two classes, every score `0`. -/
noncomputable def toyInput : Tensor3 XReal :=
  { size0 := 1, size1 := 1, size2 := 2, val := fun _ _ _ => XReal.fin 0 }

/-- The target row `[1]`. -/
def toyTargets : Tensor2 Int :=
  { size0 := 1, size1 := 1, val := fun _ _ => 1 }

/-- The target row `[1, 1]`: two labels, one more than `toyInput` has timesteps. -/
def longTargets : Tensor2 Int :=
  { size0 := 1, size1 := 2, val := fun _ _ => 1 }

/-- A batch of two sequences of two timesteps over two classes: every score of the
first is `0`, every score of the second is `1`. -/
noncomputable def pairInput : Tensor3 XReal :=
  { size0 := 2, size1 := 2, size2 := 2,
    val := fun i _ _ => if i = 0 then XReal.fin 0 else XReal.fin 1 }

/-- The target rows `[1, 0]` and `[1, 1]`. -/
def pairTargets : Tensor2 Int :=
  { size0 := 2, size1 := 2, val := fun i j => if i = 0 then (if j = 0 then 1 else 0) else 1 }

/-- The batch that holds sequence `i` of a batch alone. -/
def Tensor3.single {α : Type} (x : Tensor3 α) (i : Nat) : Tensor3 α :=
  { size0 := 1, size1 := x.size1, size2 := x.size2, val := fun _ => x.val i }

/-- The targets that hold row `i` alone. -/
def Tensor2.single {α : Type} (x : Tensor2 α) (i : Nat) : Tensor2 α :=
  { size0 := 1, size1 := x.size1, val := fun _ => x.val i }

end Samples

/-! ## The loops in closed form -/

section LoopDefs

variable {α : Type}

/-- Row `0` of `fvars` after the initialisation (lines 48-52). -/
def fwdRow0 (A : Scalar α) (input_i : Nat → Nat → α) (targetData_i : Nat → Int)
    (nSegment : Nat) : Nat → α :=
  fun s =>
    if s = 1 ∧ nSegment > 1 then input_i 0 (targetData_i 0).toNat
    else if s = 0 then input_i 0 0
    else LogMath.logZero A

/-- Row `t` of `fvars` as a recursion on `t`: the cells of the band hold the value of
`forwardCell` on the previous row, the others `logZero`. -/
def fwdRows (A : Scalar α) (input_i : Nat → Nat → α) (targetData_i : Nat → Int)
    (inputLength nSegment : Nat) : Nat → Nat → α
  | 0 => fwdRow0 A input_i targetData_i nSegment
  | t + 1 => fun s =>
    if sBegin inputLength nSegment (t + 1) ≤ s ∧ s < sEnd nSegment (t + 1) then
      forwardCell A (input_i (t + 1))
        (fwdRows A input_i targetData_i inputLength nSegment t) targetData_i s
    else LogMath.logZero A

/-- Row `inputLength - 1` of `bvars` after the initialisation (lines 89-93). -/
def bwdRowLast (A : Scalar α) (nSegment : Nat) : Nat → α :=
  fun s =>
    if s = nSegment - 2 ∧ nSegment > 1 then LogMath.logOne A
    else if s = nSegment - 1 then LogMath.logOne A
    else LogMath.logZero A

/-- Row `inputLength - 1 - d` of `bvars` as a recursion on `d`: the cells of the band
hold the value of `backwardCell` on the next row, the others `logZero`. -/
def bwdRows (A : Scalar α) (input_i : Nat → Nat → α) (targetData_i : Nat → Int)
    (inputLength nSegment : Nat) : Nat → Nat → α
  | 0 => bwdRowLast A nSegment
  | d + 1 => fun s =>
    if sBegin inputLength nSegment (inputLength - 2 - d) ≤ s ∧
        s < sEnd nSegment (inputLength - 2 - d) then
      backwardCell A (input_i (inputLength - 2 - d + 1))
        (bwdRows A input_i targetData_i inputLength nSegment d) targetData_i nSegment s
    else LogMath.logZero A

/-- The log-likelihood `logProb` of one sequence (lines 42-83). -/
def seqLogProb (A : Scalar α) (input_i : Nat → Nat → α) (targetData_i : Nat → Int)
    (inputLength maxTargetlength : Nat) : α :=
  logLikelihood A
    (forwardVars A input_i targetData_i inputLength
      (2 * zeroPadArrayLength targetData_i maxTargetlength + 1))
    inputLength (2 * zeroPadArrayLength targetData_i maxTargetlength + 1)

/-- The value written to `gradInput[i][t][k]` for one sequence (lines 86-141). -/
def seqGrad (A : Scalar α) (input_i : Nat → Nat → α) (targetData_i : Nat → Int)
    (inputLength nClasses maxTargetlength : Nat) (t k : Nat) : α :=
  A.neg (LogMath.safeExp A (LogMath.logDiv A
    ((logDeDy A
      ((forwardVars A input_i targetData_i inputLength
        (2 * zeroPadArrayLength targetData_i maxTargetlength + 1)).val t)
      ((backwardVars A input_i targetData_i inputLength
        (2 * zeroPadArrayLength targetData_i maxTargetlength + 1)).val t)
      targetData_i nClasses (2 * zeroPadArrayLength targetData_i maxTargetlength + 1)).val k)
    (seqLogProb A input_i targetData_i inputLength maxTargetlength)))

end LoopDefs

/-! ## Path sums and the lattice as an automaton -/

section PathDefs

/-- The log-domain value of a probability `p ≥ 0`: `logZero` for `0`, `log p` otherwise. -/
noncomputable def Lg (p : ℝ) : XReal := if p = 0 then XReal.ninf else XReal.fin (Real.log p)

/-- The labels of a target row as naturals. -/
def natLabels (targetData_i : Nat → Int) : Nat → Nat := fun j => (targetData_i j).toNat

/-- The weights `exp (x t k)` of the scores `x`. -/
noncomputable def expScores (x : Nat → Nat → ℝ) : Nat → Nat → ℝ := fun t k => Real.exp (x t k)

/-- The first `L` labels as a list. -/
def labelList (lab : Nat → Nat) (L : Nat) : List Nat := (List.range L).map lab

/-- The class of segment `s`: the blank for even `s`, label `s / 2` for odd `s`. -/
def segClass (lab : Nat → Nat) (s : Nat) : Nat := if s % 2 = 1 then lab (s / 2) else 0

/-- The segment reached from segment `s` on emitting class `k`, if any: the lattice of
the forward and backward recurrences, read as an automaton over paths. -/
def step (lab : Nat → Nat) (L : Nat) (s k : Nat) : Option Nat :=
  if s % 2 = 0 then
    if k = 0 then some s
    else if s / 2 < L ∧ k = lab (s / 2) then some (s + 1)
    else none
  else
    if k = 0 then some (s + 1)
    else if k = lab (s / 2) then some s
    else if s / 2 + 1 < L ∧ k = lab (s / 2 + 1) then some (s + 2)
    else none

/-- The segment reached on emitting a path, from a segment or from failure. -/
def run (lab : Nat → Nat) (L : Nat) (σ : Option Nat) (p : List Nat) : Option Nat :=
  p.foldl (fun σ k => σ.bind (fun s => step lab L s k)) σ

/-- The final segments: the last blank and the last label. -/
def accepts (L : Nat) (σ : Option Nat) : Bool :=
  match σ with
  | some s => decide (s = 2 * L ∨ s + 1 = 2 * L)
  | none => false

/-- The transitions of the lattice: segment `s` is reached from `s'` in one step. -/
def edge (lab : Nat → Nat) (L s' s : Nat) : Prop :=
  s ≤ 2 * L ∧ (s = s' ∨ s = s' + 1 ∨ (s = s' + 2 ∧ s % 2 = 1 ∧ lab (s / 2) ≠ lab (s / 2 - 1)))

instance (lab : Nat → Nat) (L s' s : Nat) : Decidable (edge lab L s' s) := by
  unfold edge
  infer_instance

/-- The weight of a path that starts at time `t0`: the product of `y t (p t)`. -/
def wFrom (y : Nat → Nat → ℝ) : Nat → List Nat → ℝ
  | _, [] => 1
  | t0, k :: q => y t0 k * wFrom y (t0 + 1) q

/-- Total weight of the paths of length `n` that lead from segment `0` to segment `s`. -/
def alphaC (y : Nat → Nat → ℝ) (lab : Nat → Nat) (L K n s : Nat) : ℝ :=
  lsum (allPaths K n) (fun p => if run lab L (some 0) p = some s then wFrom y 0 p else 0)

/-- Total weight of the paths of length `m`, emitted from time `t0` on, that lead from
segment `s` to a final segment. -/
def betaC (y : Nat → Nat → ℝ) (lab : Nat → Nat) (L K t0 m s : Nat) : ℝ :=
  lsum (allPaths K m) (fun q => if accepts L (run lab L (some s) q) then wFrom y t0 q else 0)

/-- The sum of `a` over the segments from which `s` is reached in one step. -/
def predSum (lab : Nat → Nat) (a : Nat → ℝ) (s : Nat) : ℝ :=
  a s + (if 1 ≤ s then a (s - 1) else 0) +
    (if s % 2 = 1 ∧ 1 < s ∧ lab (s / 2) ≠ lab (s / 2 - 1) then a (s - 2) else 0)

/-- The sum of `b s' * y' (class of s')` over the segments `s'` reached from `s` in one
step. -/
def succSum (lab : Nat → Nat) (L : Nat) (b : Nat → ℝ) (y' : Nat → ℝ) (s : Nat) : ℝ :=
  b s * y' (segClass lab s) +
    (if s + 1 ≤ 2 * L then b (s + 1) * y' (segClass lab (s + 1)) else 0) +
    (if s % 2 = 1 ∧ s + 2 ≤ 2 * L ∧ lab (s / 2 + 1) ≠ lab (s / 2)
      then b (s + 2) * y' (segClass lab (s + 2)) else 0)

/-- The forward variable the source holds at `(t, s)`, as a probability: the path sum
within the band (and in row `0`), zero below the band. -/
noncomputable def fwdVal (x : Nat → Nat → ℝ) (targetData_i : Nat → Int) (L K inputLength : Nat)
    (t s : Nat) : ℝ :=
  if t = 0 ∨ sBegin inputLength (2 * L + 1) t ≤ s
  then alphaC (expScores x) (natLabels targetData_i) L K (t + 1) s else 0

/-- The backward variable the source holds at `(t, s)`, as a probability: the path sum
within the band (and in the last row), zero above the band. -/
noncomputable def bwdVal (x : Nat → Nat → ℝ) (targetData_i : Nat → Int) (L K inputLength : Nat)
    (t s : Nat) : ℝ :=
  if t + 1 = inputLength ∨ s < sEnd (2 * L + 1) t
  then betaC (expScores x) (natLabels targetData_i) L K (t + 1) (inputLength - 1 - t) s else 0

/-- What the segment reached on a path says about the path: its collapse is the list of
the labels passed, and its last class is that of the segment. -/
def RunInv (lab : Nat → Nat) (L : Nat) (p : List Nat) : Option Nat → Prop
  | some s =>
    collapse p = (labelList lab L).take ((s + 1) / 2) ∧ s ≤ 2 * L ∧
      (s % 2 = 1 → p.getLast? = some (lab (s / 2))) ∧
      (s % 2 = 0 → p.getLast? = none ∨ p.getLast? = some 0)
  | none => collapse p ≠ (labelList lab L).take (collapse p).length

end PathDefs

section LogDomainDefs

/-- The value `min(exp(a), expMax)` on the extended reals, with `exp(-∞) = 0` and
`exp(+∞) = +∞`. -/
noncomputable def minExp (M : ℝ) : XReal → ℝ
  | XReal.ninf => min 0 M
  | XReal.fin x => min (Real.exp x) M
  | XReal.pinf => M
  | XReal.nan => 0

end LogDomainDefs

section MoreSamples

/-- A three-class sequence of one timestep, all scores `0`. -/
noncomputable def wideInput : Tensor3 XReal :=
  { size0 := 1, size1 := 1, size2 := 3, val := fun _ _ _ => XReal.fin 0 }

/-- Two target rows `[1]` and `[1]`: one row more than `toyInput` has sequences. -/
def surplusTargets : Tensor2 Int :=
  { size0 := 2, size1 := 1, val := fun _ _ => 1 }

/-- A batch of one sequence of two timesteps over three classes, every score `0`. -/
noncomputable def duoInput : Tensor3 XReal :=
  { size0 := 1, size1 := 2, size2 := 3, val := fun _ _ _ => XReal.fin 0 }

/-- The target row `[1, 2]`. -/
def duoTargets : Tensor2 Int :=
  { size0 := 1, size1 := 2, val := fun _ j => if j = 0 then 1 else 2 }

/-- Two target rows `[1]` and `[5]`, with `5` also past the width: the first row agrees
with `toyTargets` within the width, everything else differs. -/
def raggedTargets : Tensor2 Int :=
  { size0 := 2, size1 := 1, val := fun i j => if i = 0 ∧ j = 0 then 1 else 5 }

end MoreSamples

section SegmentDefs

/-- The class of segment `s` of the lattice of a target row (line 133):
`(s % 2 == 1) ? targetData_i[s/2] : blankLabel`. -/
def segLabel (targetData_i : Nat → Int) (s : Nat) : Int :=
  if s % 2 = 1 then targetData_i (s / 2) else blankLabel

end SegmentDefs

/-! ## The reads of the target row -/

section ReadDefs

/-- The positions of `targetData_i` the body of the inner loop of the forward pass reads
at segment `s` (lines 60-64): `labelIndex` when `s` is odd, then `labelIndex-1` when
`s > 1`; none when `s` is even. -/
def forwardCell.reads (s : Nat) : List Nat :=
  if s % 2 = 1 then s / 2 :: (if s > 1 then [s / 2 - 1] else []) else []

/-- The positions of `targetData_i` the forward pass reads (lines 47-77), in order:
`targetData_i[0]` when `nSegment > 1`, then those of the loop. -/
def forwardVars.reads (inputLength nSegment : Nat) : List Nat :=
  (if nSegment > 1 then [0] else []) ++
    (List.range' 1 (inputLength - 1)).flatMap (fun t =>
      (List.range' (sBegin inputLength nSegment t)
        (sEnd nSegment t - sBegin inputLength nSegment t)).flatMap forwardCell.reads)

/-- The positions of `targetData_i` the body of the inner loop of the backward pass reads
at segment `s` (lines 101-121): when `s` is odd `labelIndex`, then `labelIndex+1` when
`s < nSegment-2`; when `s` is even `labelIndex`, read before the test `s < nSegment-1`. -/
def backwardCell.reads (nSegment s : Nat) : List Nat :=
  if s % 2 = 1 then s / 2 :: (if s + 2 < nSegment then [s / 2 + 1] else []) else [s / 2]

/-- The positions of `targetData_i` the backward pass reads (lines 88-125), in order. -/
def backwardVars.reads (inputLength nSegment : Nat) : List Nat :=
  (List.range (inputLength - 1)).reverse.flatMap (fun t =>
    (List.range' (sBegin inputLength nSegment t)
      (sEnd nSegment t - sBegin inputLength nSegment t)).flatMap (backwardCell.reads nSegment))

/-- The positions of `targetData_i` the loop that fills `logDeDy` reads (lines 132-136):
`s/2` at every odd `s`. -/
def logDeDy.reads (nSegment : Nat) : List Nat :=
  (List.range nSegment).flatMap (fun s => if s % 2 = 1 then [s / 2] else [])

/-- The positions of `targetData_i` the gradient computation reads (lines 128-141). -/
def gradient.reads (inputLength nSegment : Nat) : List Nat :=
  (List.range inputLength).flatMap (fun _ => logDeDy.reads nSegment)

end ReadDefs

/-! ## Sums over the segments and over the classes -/

section SumDefs

/-- The log-sum over the segments `s < nSegment` of `logMul (fvars[t][s]) (bvars[t][s])`,
accumulated with `logAdd` from `logZero`. -/
def segmentLogSum {α : Type} (A : Scalar α) (currLogFv currLogBv : Nat → α) (nSegment : Nat) :
    α :=
  (List.range nSegment).foldl
    (fun acc s => LogMath.logAdd A acc (LogMath.logMul A (currLogFv s) (currLogBv s)))
    (LogMath.logZero A)

/-- The sum of the entries `k < nClasses` of a row, accumulated from zero. -/
def sumClasses {α : Type} (A : Scalar α) (row : Nat → α) (nClasses : Nat) : α :=
  (List.range nClasses).foldl (fun acc k => A.add acc (row k)) A.zero

end SumDefs

/-! ## Loops as closed forms -/

section Generic

variable {α : Type}

theorem zeroPadArrayLength.loop_spec (data : Nat → Int) (maxLength : Nat) :
    ∀ (fuel i : Nat), i + fuel = maxLength → (∀ j < i, data j ≠ 0) →
      zeroPadArrayLength.loop data maxLength fuel i ≤ maxLength ∧
      (∀ j < zeroPadArrayLength.loop data maxLength fuel i, data j ≠ 0) ∧
      (zeroPadArrayLength.loop data maxLength fuel i = maxLength ∨
        data (zeroPadArrayLength.loop data maxLength fuel i) = 0) := by
  intro fuel
  induction fuel with
  | zero =>
    intro i hi hj
    have e : zeroPadArrayLength.loop data maxLength 0 i = maxLength := rfl
    rw [e]
    refine ⟨le_refl _, ?_, Or.inl rfl⟩
    intro j hj'
    exact hj j (by omega)
  | succ fuel ih =>
    intro i hi hj
    have e : zeroPadArrayLength.loop data maxLength (fuel + 1) i =
        if data i = 0 then i else zeroPadArrayLength.loop data maxLength fuel (i + 1) := rfl
    rw [e]
    split_ifs with h0
    · exact ⟨by omega, hj, Or.inr h0⟩
    · apply ih (i + 1) (by omega)
      intro j hj'
      rcases Nat.lt_succ_iff_lt_or_eq.mp hj' with h | h
      · exact hj j h
      · rw [h]; exact h0

theorem predVec_eq_kept (raw : Nat → Int) (T : Nat) :
    naiveDecoding.predVec raw T = keptPredictions raw T := by
  induction T with
  | zero => rfl
  | succ n ih =>
    unfold naiveDecoding.predVec keptPredictions at *
    rw [List.range_succ, List.foldl_append, ih, List.filter_append, List.map_append]
    simp only [List.foldl_cons, List.foldl_nil, List.filter_cons, List.filter_nil]
    by_cases h : raw n ≠ 0 ∧ (n = 0 ∨ raw n ≠ raw (n - 1))
    · have h' : raw n ≠ 0 ∧ ¬ (n > 0 ∧ raw n = raw (n - 1)) := by
        refine ⟨h.1, ?_⟩
        rintro ⟨h1, h2⟩
        rcases h.2 with h3 | h3
        · omega
        · exact h3 h2
      rw [if_pos h', if_pos (by simpa using h)]
      rfl
    · have h' : ¬ (raw n ≠ 0 ∧ ¬ (n > 0 ∧ raw n = raw (n - 1))) := by
        rintro ⟨h1, h2⟩
        apply h
        refine ⟨h1, ?_⟩
        by_cases h0 : n = 0
        · exact Or.inl h0
        · right
          intro h3
          exact h2 ⟨by omega, h3⟩
      rw [if_neg h', if_neg (by simpa using h)]
      simp

theorem keptPredictions_length_le (raw : Nat → Int) (T : Nat) :
    (keptPredictions raw T).length ≤ T := by
  unfold keptPredictions
  rw [List.length_map]
  calc ((List.range T).filter _).length ≤ (List.range T).length := List.length_filter_le _ _
    _ = T := List.length_range T

theorem tensor1_set_val {α : Type} (x : Tensor1 α) (i : Nat) (v : α) (i' : Nat) :
    (x.set i v).val i' = if i' = i then v else x.val i' := rfl

theorem tensor2_set_val {α : Type} (x : Tensor2 α) (i j : Nat) (v : α) (i' j' : Nat) :
    (x.set i j v).val i' j' = if i' = i ∧ j' = j then v else x.val i' j' := rfl

theorem tensor3_set_val {α : Type} (x : Tensor3 α) (i j k : Nat) (v : α) (i' j' k' : Nat) :
    (x.set i j k v).val i' j' k' = if i' = i ∧ j' = j ∧ k' = k then v else x.val i' j' k' :=
  rfl

/-- Writing `v j` to the cells `(i, j)`, `j < n`, of a two-dimensional tensor. -/
theorem foldl_set_row (i : Nat) (v : Nat → Int) (n : Nat) (x : Tensor2 Int) :
    ((List.range n).foldl (fun pred j => pred.set i j (v j)) x).val =
      fun i' j' => if i' = i ∧ j' < n then v j' else x.val i' j' := by
  induction n with
  | zero => simp
  | succ n ih =>
    rw [List.range_succ, List.foldl_append, List.foldl_cons, List.foldl_nil]
    funext i' j'
    simp only [tensor2_set_val, ih]
    by_cases h1 : i' = i <;> by_cases h2 : j' = n <;> by_cases h3 : j' < n <;>
      simp [h1, h2, h3] <;> omega

theorem naive_sequenceStep_val (rawPred pred : Tensor2 Int) (i : Nat) :
    (naiveDecoding.sequenceStep rawPred pred i).val =
      fun i' j' =>
        if i' = i ∧ j' < (keptPredictions (rawPred.val i) rawPred.size1).length
        then (keptPredictions (rawPred.val i) rawPred.size1).getD j' 0 else pred.val i' j' := by
  unfold naiveDecoding.sequenceStep
  simp only [predVec_eq_kept]
  exact foldl_set_row i _ _ pred

theorem naive_fold_val (rawPred pred : Tensor2 Int) (n : Nat) :
    ((List.range n).foldl (naiveDecoding.sequenceStep rawPred) pred).val =
      fun i' j' =>
        if i' < n ∧ j' < (keptPredictions (rawPred.val i') rawPred.size1).length
        then (keptPredictions (rawPred.val i') rawPred.size1).getD j' 0 else pred.val i' j' := by
  induction n with
  | zero => simp
  | succ n ih =>
    rw [List.range_succ, List.foldl_append, List.foldl_cons, List.foldl_nil,
      naive_sequenceStep_val, ih]
    funext i' j'
    by_cases h1 : i' = n
    · subst h1; simp
    · by_cases h2 : i' < n
      · simp [h1, h2, Nat.lt_succ_of_lt h2]
      · have : ¬ i' < n + 1 := by omega
        simp [h1, h2, this]

theorem rowList_eq_append (row : Nat → Int) (l : List Int) (T : Nat) (hl : l.length ≤ T)
    (h : ∀ j, row j = if j < l.length then l.getD j 0 else 0) :
    rowList row T = l ++ List.replicate (T - l.length) 0 := by
  apply List.ext_getElem
  · simp [rowList]; omega
  · intro j h1 h2
    simp only [rowList, List.getElem_map, List.getElem_range, h j]
    by_cases hj : j < l.length
    · rw [if_pos hj, List.getElem_append_left hj]
      simp [List.getD_eq_getElem?_getD, List.getElem?_eq_getElem hj]
    · rw [if_neg hj, List.getElem_append_right (by omega)]
      simp

/-- A loop that writes the cells `b ≤ s < b + n` of row `t`, reading row `r ≠ t`. -/
theorem foldl_range'_set_val (x : Tensor2 α) (t r b n : Nat) (hr : r ≠ t)
    (g : (Nat → α) → Nat → α) :
    ((List.range' b n).foldl (fun y s => y.set t s (g (y.val r) s)) x).val =
      fun t' s' => if t' = t ∧ b ≤ s' ∧ s' < b + n then g (x.val r) s' else x.val t' s' := by
  induction n with
  | zero =>
    funext t' s'
    have : ¬ (t' = t ∧ b ≤ s' ∧ s' < b + 0) := by omega
    rw [if_neg this]
    rfl
  | succ n ih =>
    rw [List.range'_concat, List.foldl_append, List.foldl_cons, List.foldl_nil]
    funext t' s'
    rw [tensor2_set_val, ih]
    have hrow : (fun s' => if r = t ∧ b ≤ s' ∧ s' < b + n then g (x.val r) s' else x.val r s')
        = x.val r := by
      funext s'
      rw [if_neg (fun h => hr h.1)]
    simp only [hrow, Nat.one_mul]
    by_cases h1 : t' = t
    · by_cases h2 : s' = b + n
      · subst h1 h2
        simp
      · by_cases h3 : b ≤ s' ∧ s' < b + n
        · have : b ≤ s' ∧ s' < b + (n + 1) := by omega
          simp [h1, h2, h3, this]
        · have : ¬ (b ≤ s' ∧ s' < b + (n + 1)) := by omega
          simp [h1, h2, h3, this]
    · simp [h1]

theorem forwardStep_val (A : Scalar α) (input_i : Nat → Nat → α) (targetData_i : Nat → Int)
    (inputLength nSegment : Nat) (x : Tensor2 α) (t : Nat) (ht : 1 ≤ t) :
    (forwardStep A input_i targetData_i inputLength nSegment x t).val =
      fun t' s' =>
        if t' = t ∧ sBegin inputLength nSegment t ≤ s' ∧ s' < sEnd nSegment t
        then forwardCell A (input_i t) (x.val (t - 1)) targetData_i s' else x.val t' s' := by
  unfold forwardStep
  rw [foldl_range'_set_val x t (t - 1) _ _ (by omega)
    (fun row s => forwardCell A (input_i t) row targetData_i s)]
  funext t' s'
  by_cases h : sBegin inputLength nSegment t ≤ sEnd nSegment t
  · rw [Nat.add_sub_cancel' h]
  · have h1 : ¬ (t' = t ∧ sBegin inputLength nSegment t ≤ s' ∧
        s' < sBegin inputLength nSegment t +
          (sEnd nSegment t - sBegin inputLength nSegment t)) := by omega
    have h2 : ¬ (t' = t ∧ sBegin inputLength nSegment t ≤ s' ∧ s' < sEnd nSegment t) := by
      omega
    rw [if_neg h1, if_neg h2]

theorem forwardLoop_val (A : Scalar α) (input_i : Nat → Nat → α) (targetData_i : Nat → Int)
    (inputLength nSegment : Nat) (x : Tensor2 α)
    (hx : x.val 0 = fwdRow0 A input_i targetData_i nSegment)
    (hx1 : ∀ t s, 1 ≤ t → x.val t s = LogMath.logZero A) (n : Nat) :
    ((List.range' 1 n).foldl
        (forwardStep A input_i targetData_i inputLength nSegment) x).val =
      fun t s =>
        if t ≤ n then fwdRows A input_i targetData_i inputLength nSegment t s
        else x.val t s := by
  induction n with
  | zero =>
    funext t s
    by_cases h : t = 0
    · subst h; simp [hx, fwdRows]
    · have : ¬ t ≤ 0 := by omega
      simp [this]
  | succ n ih =>
    rw [List.range'_concat, List.foldl_append, List.foldl_cons, List.foldl_nil,
      forwardStep_val _ _ _ _ _ _ _ (by omega), ih]
    funext t s
    have e : 1 + 1 * n = n + 1 := by omega
    rw [e]
    simp only [Nat.add_sub_cancel, le_refl, if_true]
    by_cases h1 : t = n + 1
    · subst h1
      have h0 : ¬ n + 1 ≤ n := by omega
      simp only [true_and, le_refl, if_true, if_neg h0, hx1 (n + 1) s (by omega)]
      rfl
    · by_cases h2 : t ≤ n
      · have : t ≤ n + 1 := by omega
        simp [h1, h2, this]
      · have : ¬ t ≤ n + 1 := by omega
        simp [h1, h2, this]

theorem forwardVars_val (A : Scalar α) (input_i : Nat → Nat → α) (targetData_i : Nat → Int)
    (inputLength nSegment : Nat) (hT : 1 ≤ inputLength) (t s : Nat) :
    (forwardVars A input_i targetData_i inputLength nSegment).val t s =
      if t < inputLength then fwdRows A input_i targetData_i inputLength nSegment t s
      else LogMath.logZero A := by
  unfold forwardVars
  simp only []
  rw [forwardLoop_val]
  · beta_reduce
    by_cases h : t < inputLength
    · have : t ≤ inputLength - 1 := by omega
      rw [if_pos this, if_pos h]
    · have : ¬ t ≤ inputLength - 1 := by omega
      rw [if_neg this, if_neg h]
      have ht : t ≠ 0 := by omega
      split_ifs <;> simp [tensor2_set_val, Tensor2.filled, ht]
  · funext s
    unfold fwdRow0
    split_ifs with h1 h2 h3 h4 h5 <;> simp_all [tensor2_set_val, Tensor2.filled]
  · intro t s ht
    have ht : t ≠ 0 := by omega
    split_ifs <;> simp [tensor2_set_val, Tensor2.filled, ht]

theorem backwardStep_val (A : Scalar α) (input_i : Nat → Nat → α)
    (targetData_i : Nat → Int) (inputLength nSegment : Nat) (x : Tensor2 α) (t : Nat) :
    (backwardStep A input_i targetData_i inputLength nSegment x t).val =
      fun t' s' =>
        if t' = t ∧ sBegin inputLength nSegment t ≤ s' ∧ s' < sEnd nSegment t
        then backwardCell A (input_i (t + 1)) (x.val (t + 1)) targetData_i nSegment s'
        else x.val t' s' := by
  unfold backwardStep
  rw [foldl_range'_set_val x t (t + 1) _ _ (by omega)
    (fun row s => backwardCell A (input_i (t + 1)) row targetData_i nSegment s)]
  funext t' s'
  by_cases h : sBegin inputLength nSegment t ≤ sEnd nSegment t
  · rw [Nat.add_sub_cancel' h]
  · have h1 : ¬ (t' = t ∧ sBegin inputLength nSegment t ≤ s' ∧
        s' < sBegin inputLength nSegment t +
          (sEnd nSegment t - sBegin inputLength nSegment t)) := by omega
    have h2 : ¬ (t' = t ∧ sBegin inputLength nSegment t ≤ s' ∧ s' < sEnd nSegment t) := by
      omega
    rw [if_neg h1, if_neg h2]

theorem backwardLoop_val (A : Scalar α) (input_i : Nat → Nat → α)
    (targetData_i : Nat → Int) (inputLength nSegment : Nat) (m : Nat) :
    ∀ (x : Tensor2 α), m + 1 ≤ inputLength →
      (∀ t, m ≤ t → t < inputLength →
        x.val t = bwdRows A input_i targetData_i inputLength nSegment (inputLength - 1 - t)) →
      (∀ t s, ¬ (m ≤ t ∧ t < inputLength) → x.val t s = LogMath.logZero A) →
      ((List.range m).reverse.foldl
          (backwardStep A input_i targetData_i inputLength nSegment) x).val =
        fun t s =>
          if t < inputLength
          then bwdRows A input_i targetData_i inputLength nSegment (inputLength - 1 - t) s
          else LogMath.logZero A := by
  induction m with
  | zero =>
    intro x _ h1 h2
    funext t s
    rw [List.range_zero, List.reverse_nil, List.foldl_nil]
    by_cases h : t < inputLength
    · rw [if_pos h, h1 t (by omega) h]
    · rw [if_neg h, h2 t s (by omega)]
  | succ m ih =>
    intro x hm h1 h2
    rw [List.range_succ, List.reverse_append, List.reverse_singleton, List.singleton_append,
      List.foldl_cons]
    apply ih _ (by omega)
    · intro t ht htT
      rw [backwardStep_val]
      funext s
      by_cases htm : t = m
      · subst htm
        have e : inputLength - 1 - t = (inputLength - 2 - t) + 1 := by omega
        have e2 : inputLength - 2 - (inputLength - 2 - t) = t := by omega
        rw [e, bwdRows, e2, h1 (t + 1) (by omega) (by omega)]
        have e3 : inputLength - 1 - (t + 1) = inputLength - 2 - t := by omega
        rw [e3]
        simp only [true_and]
        split_ifs
        · rfl
        · exact h2 t s (by omega)
      · have : ¬ (t = m ∧ sBegin inputLength nSegment m ≤ s ∧ s < sEnd nSegment m) :=
          fun h => htm h.1
        simp only [if_neg this]
        rw [h1 t (by omega) htT]
    · intro t s ht
      rw [backwardStep_val]
      have : ¬ (t = m ∧ sBegin inputLength nSegment m ≤ s ∧ s < sEnd nSegment m) := by
        omega
      simp only [if_neg this]
      exact h2 t s (by omega)

theorem backwardVars_val (A : Scalar α) (input_i : Nat → Nat → α)
    (targetData_i : Nat → Int) (inputLength nSegment : Nat) (hT : 1 ≤ inputLength)
    (t s : Nat) :
    (backwardVars A input_i targetData_i inputLength nSegment).val t s =
      if t < inputLength
      then bwdRows A input_i targetData_i inputLength nSegment (inputLength - 1 - t) s
      else LogMath.logZero A := by
  unfold backwardVars
  simp only []
  rw [backwardLoop_val A input_i targetData_i inputLength nSegment (inputLength - 1) _
    (by omega)]
  · intro t h1 h2
    have ht : t = inputLength - 1 := by omega
    subst ht
    funext s
    rw [Nat.sub_self, bwdRows]
    unfold bwdRowLast
    split_ifs <;> simp_all [tensor2_set_val, Tensor2.filled]
  · intro t s ht
    have ht : t ≠ inputLength - 1 := by omega
    split_ifs <;> simp [tensor2_set_val, Tensor2.filled, ht]

/-- A loop that writes the cells `(i, t, k)`, `k < n`. -/
theorem foldl_set3_val (x : Tensor3 α) (i t : Nat) (v : Nat → α) (n : Nat) :
    ((List.range n).foldl (fun y k => y.set i t k (v k)) x).val =
      fun i' t' k' => if i' = i ∧ t' = t ∧ k' < n then v k' else x.val i' t' k' := by
  induction n with
  | zero =>
    funext i' t' k'
    have : ¬ (i' = i ∧ t' = t ∧ k' < 0) := by omega
    rw [if_neg this]
    rfl
  | succ n ih =>
    rw [List.range_succ, List.foldl_append, List.foldl_cons, List.foldl_nil]
    funext i' t' k'
    rw [tensor3_set_val, ih]
    beta_reduce
    split_ifs <;>
      first
        | rfl
        | (exfalso; omega)
        | (have e : k' = n := by omega
           rw [e])

theorem foldl_set3_size (x : Tensor3 α) (i t : Nat) (v : Nat → α) (n : Nat) :
    ((List.range n).foldl (fun y k => y.set i t k (v k)) x).size0 = x.size0 ∧
    ((List.range n).foldl (fun y k => y.set i t k (v k)) x).size1 = x.size1 ∧
    ((List.range n).foldl (fun y k => y.set i t k (v k)) x).size2 = x.size2 := by
  induction n with
  | zero => exact ⟨rfl, rfl, rfl⟩
  | succ n ih =>
    rw [List.range_succ, List.foldl_append, List.foldl_cons, List.foldl_nil]
    exact ih

/-- The loop over `t` of the gradient computation, for values `v t k` to write. -/
theorem foldl_gradStep_val (x : Tensor3 α) (i : Nat) (v : Nat → Nat → α) (K n : Nat) :
    ((List.range n).foldl
        (fun y t => (List.range K).foldl (fun y k => y.set i t k (v t k)) y) x).val =
      fun i' t' k' => if i' = i ∧ t' < n ∧ k' < K then v t' k' else x.val i' t' k' := by
  induction n with
  | zero =>
    funext i' t' k'
    have : ¬ (i' = i ∧ t' < 0 ∧ k' < K) := by omega
    rw [if_neg this]
    rfl
  | succ n ih =>
    rw [List.range_succ, List.foldl_append, List.foldl_cons, List.foldl_nil,
      foldl_set3_val, ih]
    funext i' t' k'
    beta_reduce
    split_ifs <;>
      first
        | rfl
        | (exfalso; omega)
        | (have e : t' = n := by omega
           rw [e])

theorem foldl_gradStep_size (x : Tensor3 α) (i : Nat) (v : Nat → Nat → α) (K n : Nat) :
    ((List.range n).foldl
        (fun y t => (List.range K).foldl (fun y k => y.set i t k (v t k)) y) x).size0 =
      x.size0 ∧
    ((List.range n).foldl
        (fun y t => (List.range K).foldl (fun y k => y.set i t k (v t k)) y) x).size1 =
      x.size1 ∧
    ((List.range n).foldl
        (fun y t => (List.range K).foldl (fun y k => y.set i t k (v t k)) y) x).size2 =
      x.size2 := by
  induction n with
  | zero => exact ⟨rfl, rfl, rfl⟩
  | succ n ih =>
    rw [List.range_succ, List.foldl_append, List.foldl_cons, List.foldl_nil]
    obtain ⟨h0, h1, h2⟩ := foldl_set3_size
      ((List.range n).foldl
        (fun y t => (List.range K).foldl (fun y k => y.set i t k (v t k)) y) x) i n (v n) K
    exact ⟨h0.trans ih.1, h1.trans ih.2.1, h2.trans ih.2.2⟩

theorem sequenceStep_losses (A : Scalar α) (input : Tensor3 α) (targets : Tensor2 Int)
    (forwardOnly : Bool) (st : Outputs α) (i : Nat) :
    (sequenceStep A input targets forwardOnly st i).losses =
      st.losses.set i
        (A.neg (seqLogProb A (input.val i) (targets.val i) input.size1 targets.size1)) := by
  unfold sequenceStep
  cases forwardOnly <;> rfl

theorem sequenceStep_grad_true (A : Scalar α) (input : Tensor3 α) (targets : Tensor2 Int)
    (st : Outputs α) (i : Nat) :
    (sequenceStep A input targets true st i).gradInput = st.gradInput := rfl

theorem sequenceStep_grad_false (A : Scalar α) (input : Tensor3 α) (targets : Tensor2 Int)
    (st : Outputs α) (i : Nat) :
    (sequenceStep A input targets false st i).gradInput =
      (List.range input.size1).foldl
        (fun y t => (List.range input.size2).foldl
          (fun y k => y.set i t k
            (seqGrad A (input.val i) (targets.val i) input.size1 input.size2 targets.size1 t k))
          y)
        st.gradInput := rfl

/-- The losses after the first `n` sequences. -/
theorem foldl_sequenceStep_losses (A : Scalar α) (input : Tensor3 α) (targets : Tensor2 Int)
    (forwardOnly : Bool) (st : Outputs α) (n : Nat) :
    ((List.range n).foldl (sequenceStep A input targets forwardOnly) st).losses.val =
      (fun i => if i < n
        then A.neg (seqLogProb A (input.val i) (targets.val i) input.size1 targets.size1)
        else st.losses.val i) ∧
    ((List.range n).foldl (sequenceStep A input targets forwardOnly) st).losses.size0 =
      st.losses.size0 := by
  induction n with
  | zero =>
    refine ⟨?_, rfl⟩
    funext i
    rw [if_neg (by omega)]
    rfl
  | succ n ih =>
    rw [List.range_succ, List.foldl_append, List.foldl_cons, List.foldl_nil,
      sequenceStep_losses]
    refine ⟨?_, ih.2⟩
    funext i
    rw [tensor1_set_val, ih.1]
    beta_reduce
    split_ifs <;>
      first
        | rfl
        | (exfalso; omega)
        | (have e : i = n := by omega
           rw [e])

/-- The gradient buffer is not written when `forwardOnly` is set. -/
theorem foldl_sequenceStep_grad_true (A : Scalar α) (input : Tensor3 α)
    (targets : Tensor2 Int) (st : Outputs α) (n : Nat) :
    ((List.range n).foldl (sequenceStep A input targets true) st).gradInput =
      st.gradInput := by
  induction n with
  | zero => rfl
  | succ n ih =>
    rw [List.range_succ, List.foldl_append, List.foldl_cons, List.foldl_nil,
      sequenceStep_grad_true, ih]

/-- The gradient buffer after the first `n` sequences. -/
theorem foldl_sequenceStep_grad_false (A : Scalar α) (input : Tensor3 α)
    (targets : Tensor2 Int) (st : Outputs α) (n : Nat) :
    ((List.range n).foldl (sequenceStep A input targets false) st).gradInput.val =
      (fun i t k => if i < n ∧ t < input.size1 ∧ k < input.size2
        then seqGrad A (input.val i) (targets.val i) input.size1 input.size2 targets.size1 t k
        else st.gradInput.val i t k) ∧
    ((List.range n).foldl (sequenceStep A input targets false) st).gradInput.size0 =
      st.gradInput.size0 ∧
    ((List.range n).foldl (sequenceStep A input targets false) st).gradInput.size1 =
      st.gradInput.size1 ∧
    ((List.range n).foldl (sequenceStep A input targets false) st).gradInput.size2 =
      st.gradInput.size2 := by
  induction n with
  | zero =>
    refine ⟨?_, rfl, rfl, rfl⟩
    funext i t k
    rw [if_neg (by omega)]
    rfl
  | succ n ih =>
    rw [List.range_succ, List.foldl_append, List.foldl_cons, List.foldl_nil,
      sequenceStep_grad_false]
    obtain ⟨h0, h1, h2⟩ := foldl_gradStep_size
      ((List.range n).foldl (sequenceStep A input targets false) st).gradInput n
      (seqGrad A (input.val n) (targets.val n) input.size1 input.size2 targets.size1)
      input.size2 input.size1
    refine ⟨?_, h0.trans ih.2.1, h1.trans ih.2.2.1, h2.trans ih.2.2.2⟩
    rw [foldl_gradStep_val, ih.1]
    funext i t k
    beta_reduce
    split_ifs <;>
      first
        | rfl
        | (exfalso; omega)
        | (have e : i = n := by omega
           rw [e])

theorem forwardBackward_losses (A : Scalar α) (input : Tensor3 α) (targets : Tensor2 Int)
    (forwardOnly : Bool) (gradInput : Tensor3 α) (i : Nat) :
    (forwardBackward A input targets forwardOnly gradInput).losses.val i =
      if i < input.size0
      then A.neg (seqLogProb A (input.val i) (targets.val i) input.size1 targets.size1)
      else A.zero := by
  unfold forwardBackward
  simp only []
  rw [(foldl_sequenceStep_losses A input targets forwardOnly _ input.size0).1]
  rfl

theorem forwardBackward_losses_size (A : Scalar α) (input : Tensor3 α)
    (targets : Tensor2 Int) (forwardOnly : Bool) (gradInput : Tensor3 α) :
    (forwardBackward A input targets forwardOnly gradInput).losses.size0 = input.size0 := by
  unfold forwardBackward
  simp only []
  rw [(foldl_sequenceStep_losses A input targets forwardOnly _ input.size0).2]
  rfl

theorem forwardBackward_grad_true (A : Scalar α) (input : Tensor3 α) (targets : Tensor2 Int)
    (gradInput : Tensor3 α) :
    (forwardBackward A input targets true gradInput).gradInput = gradInput := by
  unfold forwardBackward
  simp only []
  rw [foldl_sequenceStep_grad_true]
  rfl

theorem forwardBackward_grad_false (A : Scalar α) (input : Tensor3 α)
    (targets : Tensor2 Int) (gradInput : Tensor3 α) (i t k : Nat) :
    (forwardBackward A input targets false gradInput).gradInput.val i t k =
      if i < input.size0 ∧ t < input.size1 ∧ k < input.size2
      then seqGrad A (input.val i) (targets.val i) input.size1 input.size2 targets.size1 t k
      else LogMath.logZero A := by
  unfold forwardBackward
  simp only []
  rw [(foldl_sequenceStep_grad_false A input targets _ input.size0).1]
  rfl

theorem forwardBackward_grad_false_size (A : Scalar α) (input : Tensor3 α)
    (targets : Tensor2 Int) (gradInput : Tensor3 α) :
    (forwardBackward A input targets false gradInput).gradInput.size0 = input.size0 ∧
    (forwardBackward A input targets false gradInput).gradInput.size1 = input.size1 ∧
    (forwardBackward A input targets false gradInput).gradInput.size2 = input.size2 := by
  unfold forwardBackward
  simp only []
  obtain ⟨_, h0, h1, h2⟩ := foldl_sequenceStep_grad_false A input targets
    { losses := Tensor1.filled input.size0 A.zero,
      gradInput := gradInput.resizeAsFill input (LogMath.logZero A) } input.size0
  exact ⟨h0, h1, h2⟩

end Generic

/-! ## Exact arithmetic: the log domain -/

section Exact

theorem logZero_exact (M : ℝ) : LogMath.logZero (exactArith M) = XReal.ninf := rfl

theorem logOne_exact (M : ℝ) : LogMath.logOne (exactArith M) = XReal.fin 0 := rfl

theorem logInfinity_exact (M : ℝ) : LogMath.logInfinity (exactArith M) = XReal.pinf := rfl

theorem Lg_zero : Lg 0 = XReal.ninf := by simp [Lg]

theorem Lg_one : Lg 1 = XReal.fin 0 := by simp [Lg]

theorem Lg_pos {p : ℝ} (hp : 0 < p) : Lg p = XReal.fin (Real.log p) := by
  simp [Lg, hp.ne.symm]

theorem Lg_exp (x : ℝ) : Lg (Real.exp x) = XReal.fin x := by
  rw [Lg_pos (Real.exp_pos x), Real.log_exp]

theorem Lg_eq_ninf_iff {p : ℝ} : Lg p = XReal.ninf ↔ p = 0 := by
  unfold Lg
  split_ifs with h <;> simp [h]

theorem expLimit_exact {M : ℝ} (hM : 1 < M) :
    LogMath.expLimit (exactArith M) = XReal.fin (Real.log M) := by
  have h0 : ¬ M < 0 := by linarith
  have h1 : M ≠ 0 := by linarith
  simp [LogMath.expLimit, LogMath.expMax, exactArith, XReal.log, h0, h1]

/-- `safeExp` on a finite value below `expLimit` is the exponential. -/
theorem safeExp_fin {M : ℝ} (hM : 1 < M) {x : ℝ} (hx : x < Real.log M) :
    LogMath.safeExp (exactArith M) (XReal.fin x) = XReal.fin (Real.exp x) := by
  unfold LogMath.safeExp
  rw [expLimit_exact hM, logZero_exact]
  have h : ¬ Real.log M ≤ x := not_le.mpr hx
  simp [exactArith, XReal.eq, XReal.ge, XReal.exp, h]

theorem safeExp_ninf (M : ℝ) :
    LogMath.safeExp (exactArith M) XReal.ninf = XReal.fin 0 := by
  unfold LogMath.safeExp
  rw [logZero_exact]
  simp [exactArith, XReal.eq]

theorem logAdd_ninf_left (M : ℝ) (b : XReal) :
    LogMath.logAdd (exactArith M) XReal.ninf b = b := by
  unfold LogMath.logAdd
  rw [logZero_exact]
  simp [exactArith, XReal.eq]

theorem logAdd_ninf_right (M : ℝ) (a : XReal) :
    LogMath.logAdd (exactArith M) a XReal.ninf = a := by
  unfold LogMath.logAdd
  rw [logZero_exact]
  cases a <;> simp [exactArith, XReal.eq]

theorem log_one_add_exp (a b : ℝ) :
    a + Real.log (1 + Real.exp (b - a)) = Real.log (Real.exp a + Real.exp b) := by
  have h1 : Real.exp a + Real.exp b = Real.exp a * (1 + Real.exp (b - a)) := by
    rw [mul_add, mul_one, ← Real.exp_add]
    congr 2
    ring
  have h2 : (0 : ℝ) < 1 + Real.exp (b - a) := by positivity
  rw [h1, Real.log_mul (Real.exp_pos a).ne.symm h2.ne.symm, Real.log_exp]

theorem logAdd_fin {M : ℝ} (hM : 1 < M) (a b : ℝ) :
    LogMath.logAdd (exactArith M) (XReal.fin a) (XReal.fin b) =
      XReal.fin (Real.log (Real.exp a + Real.exp b)) := by
  have hlog : 0 < Real.log M := Real.log_pos hM
  unfold LogMath.logAdd
  rw [logZero_exact]
  simp only [exactArith, XReal.eq, Bool.false_eq_true, if_false, XReal.lt, decide_eq_true_eq]
  by_cases hab : a < b
  · rw [if_pos hab]
    simp only [XReal.sub, XReal.neg, XReal.add]
    have hx : a + -b < Real.log M := by linarith
    have := safeExp_fin hM hx
    simp only [exactArith] at this
    rw [this]
    have hpos : ¬ (1 + Real.exp (a + -b) < 0) := by
      have := Real.exp_pos (a + -b); linarith
    have hne : 1 + Real.exp (a + -b) ≠ 0 := by
      have := Real.exp_pos (a + -b); linarith
    simp only [XReal.add, XReal.log, hpos, hne, if_false]
    rw [← sub_eq_add_neg, log_one_add_exp, add_comm]
  · rw [if_neg hab]
    simp only [XReal.sub, XReal.neg, XReal.add]
    have hx : b + -a < Real.log M := by linarith
    have := safeExp_fin hM hx
    simp only [exactArith] at this
    rw [this]
    have hpos : ¬ (1 + Real.exp (b + -a) < 0) := by
      have := Real.exp_pos (b + -a); linarith
    have hne : 1 + Real.exp (b + -a) ≠ 0 := by
      have := Real.exp_pos (b + -a); linarith
    simp only [XReal.add, XReal.log, hpos, hne, if_false]
    rw [← sub_eq_add_neg, log_one_add_exp]

/-- `logAdd` is the sum of the probabilities. -/
theorem logAdd_Lg {M : ℝ} (hM : 1 < M) {p q : ℝ} (hp : 0 ≤ p) (hq : 0 ≤ q) :
    LogMath.logAdd (exactArith M) (Lg p) (Lg q) = Lg (p + q) := by
  rcases hp.eq_or_lt with hp0 | hp0
  · rw [← hp0, Lg_zero, logAdd_ninf_left, zero_add]
  rcases hq.eq_or_lt with hq0 | hq0
  · rw [← hq0, Lg_zero, logAdd_ninf_right, add_zero]
  rw [Lg_pos hp0, Lg_pos hq0, Lg_pos (by linarith), logAdd_fin hM,
    Real.exp_log hp0, Real.exp_log hq0]

/-- `logMul` is the product of the probabilities. -/
theorem logMul_Lg (M : ℝ) {p q : ℝ} (hp : 0 ≤ p) (hq : 0 ≤ q) :
    LogMath.logMul (exactArith M) (Lg p) (Lg q) = Lg (p * q) := by
  unfold LogMath.logMul
  rw [logZero_exact]
  rcases hp.eq_or_lt with hp0 | hp0
  · rw [← hp0, Lg_zero, zero_mul, Lg_zero]
    simp [exactArith, XReal.eq]
  rcases hq.eq_or_lt with hq0 | hq0
  · rw [← hq0, Lg_zero, mul_zero, Lg_zero]
    cases h : Lg p <;> simp [exactArith, XReal.eq]
  rw [Lg_pos hp0, Lg_pos hq0, Lg_pos (mul_pos hp0 hq0),
    Real.log_mul hp0.ne.symm hq0.ne.symm]
  simp [exactArith, XReal.eq, XReal.add]

/-- The gradient entry computed from an occupancy `p` and a likelihood `Z > 0`. -/
theorem neg_safeExp_logDiv_Lg {M : ℝ} (hM : 1 < M) {p Z : ℝ} (hp : 0 ≤ p) (hpZ : p ≤ Z)
    (hZ : 0 < Z) :
    (exactArith M).neg (LogMath.safeExp (exactArith M)
      (LogMath.logDiv (exactArith M) (Lg p) (Lg Z))) = XReal.fin (-(p / Z)) := by
  have hlog : 0 < Real.log M := Real.log_pos hM
  rcases hp.eq_or_lt with hp0 | hp0
  · rw [← hp0, Lg_zero]
    unfold LogMath.logDiv
    rw [logZero_exact]
    simp only [exactArith, XReal.eq, if_true]
    have := safeExp_ninf M
    simp only [exactArith] at this
    rw [this]
    simp [XReal.neg]
  · rw [Lg_pos hp0, Lg_pos hZ]
    unfold LogMath.logDiv
    rw [logZero_exact]
    simp only [exactArith, XReal.eq, Bool.false_eq_true, if_false, XReal.sub, XReal.neg,
      XReal.add]
    have hle : Real.log p ≤ Real.log Z := Real.log_le_log hp0 hpZ
    have hx : Real.log p + -Real.log Z < Real.log M := by linarith
    have := safeExp_fin hM hx
    simp only [exactArith] at this
    rw [this]
    simp only [XReal.neg]
    rw [← sub_eq_add_neg, Real.exp_sub, Real.exp_log hp0, Real.exp_log hZ]

/-- The gradient entry when the occupancy is `logZero`, whatever the likelihood. -/
theorem neg_safeExp_logDiv_ninf (M : ℝ) (z : XReal) :
    (exactArith M).neg (LogMath.safeExp (exactArith M)
      (LogMath.logDiv (exactArith M) XReal.ninf z)) = XReal.fin 0 := by
  unfold LogMath.logDiv
  rw [logZero_exact]
  simp only [exactArith, XReal.eq, if_true]
  have := safeExp_ninf M
  simp only [exactArith] at this
  rw [this]
  simp [XReal.neg]

theorem XReal.add_nan_left (a : XReal) : XReal.add XReal.nan a = XReal.nan := by
  cases a <;> rfl

theorem XReal.add_nan_right (a : XReal) : XReal.add a XReal.nan = XReal.nan := by
  cases a <;> rfl

theorem XReal.ge_nan_left (a : XReal) : XReal.ge XReal.nan a = false := by
  cases a <;> rfl

theorem safeExp_nan (M : ℝ) : LogMath.safeExp (exactArith M) XReal.nan = XReal.nan := by
  unfold LogMath.safeExp
  rw [logZero_exact]
  simp [exactArith, XReal.eq, XReal.ge_nan_left, XReal.exp]

/-- The value of `logAdd` as soon as one argument is `nan` and the other is not
`logZero`. -/
theorem logAdd_nan_left (M : ℝ) (b : XReal) (hb : b ≠ XReal.ninf) :
    LogMath.logAdd (exactArith M) XReal.nan b = XReal.nan := by
  unfold LogMath.logAdd
  rw [logZero_exact]
  have hs := safeExp_nan M
  cases b with
  | ninf => exact absurd rfl hb
  | pinf =>
    simp only [exactArith, XReal.eq, XReal.lt, Bool.false_eq_true, if_false,
      XReal.add_nan_left]
  | nan =>
    simp only [exactArith, XReal.eq, XReal.lt, Bool.false_eq_true, if_false,
      XReal.add_nan_left]
  | fin y =>
    simp only [exactArith, XReal.eq, XReal.lt, Bool.false_eq_true, if_false,
      XReal.add_nan_left]

theorem logAdd_nan_right (M : ℝ) (a : XReal) (ha : a ≠ XReal.ninf) :
    LogMath.logAdd (exactArith M) a XReal.nan = XReal.nan := by
  unfold LogMath.logAdd
  rw [logZero_exact]
  have hs := safeExp_nan M
  simp only [exactArith] at hs
  cases a with
  | ninf => exact absurd rfl ha
  | pinf =>
    simp only [exactArith, XReal.eq, XReal.lt, Bool.false_eq_true, if_false, XReal.sub,
      XReal.add_nan_left, hs, XReal.add_nan_right, XReal.log]
  | nan =>
    simp only [exactArith, XReal.eq, XReal.lt, Bool.false_eq_true, if_false,
      XReal.add_nan_left]
  | fin y =>
    simp only [exactArith, XReal.eq, XReal.lt, Bool.false_eq_true, if_false, XReal.sub,
      XReal.add_nan_left, hs, XReal.add_nan_right, XReal.log]

/-- Commutativity of `logAdd` on every pair of values. -/
theorem logAdd_comm_exact (M : ℝ) (a b : XReal) :
    LogMath.logAdd (exactArith M) a b = LogMath.logAdd (exactArith M) b a := by
  by_cases ha : a = XReal.ninf
  · subst ha
    rw [logAdd_ninf_left, logAdd_ninf_right]
  by_cases hb : b = XReal.ninf
  · subst hb
    rw [logAdd_ninf_left, logAdd_ninf_right]
  by_cases ha' : a = XReal.nan
  · subst ha'
    rw [logAdd_nan_left M b hb, logAdd_nan_right M b hb]
  by_cases hb' : b = XReal.nan
  · subst hb'
    rw [logAdd_nan_left M a ha, logAdd_nan_right M a ha]
  unfold LogMath.logAdd
  rw [logZero_exact]
  cases a with
  | ninf => exact absurd rfl ha
  | nan => exact absurd rfl ha'
  | pinf =>
    cases b with
    | ninf => exact absurd rfl hb
    | nan => exact absurd rfl hb'
    | pinf => rfl
    | fin y =>
      simp only [exactArith, XReal.eq, XReal.lt, Bool.false_eq_true, if_false, if_true]
  | fin x =>
    cases b with
    | ninf => exact absurd rfl hb
    | nan => exact absurd rfl hb'
    | pinf =>
      simp only [exactArith, XReal.eq, XReal.lt, Bool.false_eq_true, if_false, if_true]
    | fin y =>
      simp only [exactArith, XReal.eq, Bool.false_eq_true, if_false, XReal.lt,
        decide_eq_true_eq]
      rcases lt_trichotomy x y with h | h | h
      · rw [if_pos h, if_neg (not_lt.mpr h.le)]
      · subst h; rfl
      · rw [if_neg (not_lt.mpr h.le), if_pos h]

end Exact

/-! ## Finite sums over lists -/

section Sums

theorem lsum_nil {β : Type} (f : β → ℝ) : lsum [] f = 0 := rfl

theorem lsum_cons {β : Type} (a : β) (l : List β) (f : β → ℝ) :
    lsum (a :: l) f = f a + lsum l f := by
  simp [lsum]

theorem lsum_append {β : Type} (l m : List β) (f : β → ℝ) :
    lsum (l ++ m) f = lsum l f + lsum m f := by
  simp [lsum]

theorem lsum_singleton {β : Type} (a : β) (f : β → ℝ) : lsum [a] f = f a := by
  simp [lsum]

theorem lsum_map {β γ : Type} (l : List β) (g : β → γ) (f : γ → ℝ) :
    lsum (l.map g) f = lsum l (fun a => f (g a)) := by
  simp [lsum, Function.comp_def]

theorem lsum_flatMap {β γ : Type} (l : List β) (g : β → List γ) (f : γ → ℝ) :
    lsum (l.flatMap g) f = lsum l (fun a => lsum (g a) f) := by
  induction l with
  | nil => rfl
  | cons a l ih => rw [List.flatMap_cons, lsum_append, lsum_cons, ih]

theorem lsum_congr {β : Type} (l : List β) (f g : β → ℝ) (h : ∀ a ∈ l, f a = g a) :
    lsum l f = lsum l g := by
  induction l with
  | nil => rfl
  | cons a l ih =>
    rw [lsum_cons, lsum_cons, h a (List.mem_cons_self a l),
      ih (fun b hb => h b (List.mem_cons_of_mem a hb))]

theorem lsum_zero {β : Type} (l : List β) : lsum l (fun _ => (0 : ℝ)) = 0 := by
  induction l with
  | nil => rfl
  | cons a l ih => rw [lsum_cons, ih, add_zero]

theorem lsum_add {β : Type} (l : List β) (f g : β → ℝ) :
    lsum l (fun a => f a + g a) = lsum l f + lsum l g := by
  induction l with
  | nil => simp [lsum_nil]
  | cons a l ih => rw [lsum_cons, lsum_cons, lsum_cons, ih]; ring

theorem lsum_mul_right {β : Type} (l : List β) (f : β → ℝ) (c : ℝ) :
    lsum l (fun a => f a * c) = lsum l f * c := by
  induction l with
  | nil => simp [lsum_nil]
  | cons a l ih => rw [lsum_cons, lsum_cons, ih]; ring

theorem lsum_mul_left {β : Type} (l : List β) (f : β → ℝ) (c : ℝ) :
    lsum l (fun a => c * f a) = c * lsum l f := by
  induction l with
  | nil => simp [lsum_nil]
  | cons a l ih => rw [lsum_cons, lsum_cons, ih]; ring

theorem lsum_comm {β γ : Type} (l : List β) (m : List γ) (f : β → γ → ℝ) :
    lsum l (fun a => lsum m (fun b => f a b)) = lsum m (fun b => lsum l (fun a => f a b)) := by
  induction l with
  | nil => simp [lsum_nil, lsum_zero]
  | cons a l ih =>
    rw [lsum_cons, ih, ← lsum_add]
    apply lsum_congr
    intro b _
    rw [lsum_cons]

theorem lsum_filter {β : Type} (l : List β) (P : β → Bool) (f : β → ℝ) :
    lsum (l.filter P) f = lsum l (fun a => if P a then f a else 0) := by
  induction l with
  | nil => rfl
  | cons a l ih =>
    rw [List.filter_cons, lsum_cons]
    cases h : P a
    · simp [ih]
    · simp [lsum_cons, ih]

theorem lsum_nonneg {β : Type} (l : List β) (f : β → ℝ) (h : ∀ a ∈ l, 0 ≤ f a) :
    0 ≤ lsum l f := by
  induction l with
  | nil => exact le_refl _
  | cons a l ih =>
    rw [lsum_cons]
    exact add_nonneg (h a (List.mem_cons_self a l))
      (ih (fun b hb => h b (List.mem_cons_of_mem a hb)))

theorem lsum_pos {β : Type} (l : List β) (f : β → ℝ) (h : ∀ a ∈ l, 0 < f a) (hl : l ≠ []) :
    0 < lsum l f := by
  cases l with
  | nil => exact absurd rfl hl
  | cons a l =>
    rw [lsum_cons]
    exact add_pos_of_pos_of_nonneg (h a (List.mem_cons_self a l))
      (lsum_nonneg l f (fun b hb => (h b (List.mem_cons_of_mem a hb)).le))

theorem lsum_le {β : Type} (l : List β) (f g : β → ℝ) (h : ∀ a ∈ l, f a ≤ g a) :
    lsum l f ≤ lsum l g := by
  induction l with
  | nil => exact le_refl _
  | cons a l ih =>
    rw [lsum_cons, lsum_cons]
    exact add_le_add (h a (List.mem_cons_self a l))
      (ih (fun b hb => h b (List.mem_cons_of_mem a hb)))

/-- A sum over `0, ..., K-1` of a function that is zero away from `c`. -/
theorem lsum_range_single (K c : Nat) (g : Nat → ℝ) :
    lsum (List.range K) (fun k => if k = c then g k else 0) = if c < K then g c else 0 := by
  induction K with
  | zero => simp [lsum_nil]
  | succ K ih =>
    rw [List.range_succ, lsum_append, lsum_singleton, ih]
    by_cases h1 : c < K
    · have h2 : K ≠ c := by omega
      rw [if_pos h1, if_neg h2, if_pos (by omega), add_zero]
    · by_cases h2 : K = c
      · rw [if_neg h1, if_pos h2, if_pos (by omega), zero_add, h2]
      · rw [if_neg h1, if_neg h2, if_neg (by omega), add_zero]

end Sums

/-! ## Paths and the segment automaton -/

section Paths

theorem wFrom_append (y : Nat → Nat → ℝ) (p q : List Nat) (t0 : Nat) :
    wFrom y t0 (p ++ q) = wFrom y t0 p * wFrom y (t0 + p.length) q := by
  induction p generalizing t0 with
  | nil => simp [wFrom]
  | cons k p ih =>
    rw [List.cons_append, wFrom, wFrom, ih, List.length_cons, mul_assoc]
    congr 3
    omega

theorem wFrom_singleton (y : Nat → Nat → ℝ) (t0 k : Nat) : wFrom y t0 [k] = y t0 k := by
  simp [wFrom]

theorem wFrom_pos (y : Nat → Nat → ℝ) (hy : ∀ t k, 0 < y t k) (p : List Nat) (t0 : Nat) :
    0 < wFrom y t0 p := by
  induction p generalizing t0 with
  | nil => simp [wFrom]
  | cons k p ih =>
    rw [wFrom]
    exact mul_pos (hy t0 k) (ih (t0 + 1))

theorem wFrom_congr (y y' : Nat → Nat → ℝ) (K : Nat) (p : List Nat) (t0 n : Nat)
    (hp : ∀ k ∈ p, k < K) (hlen : t0 + p.length ≤ n)
    (h : ∀ t k, t < n → k < K → y t k = y' t k) :
    wFrom y t0 p = wFrom y' t0 p := by
  induction p generalizing t0 with
  | nil => rfl
  | cons k p ih =>
    rw [wFrom, wFrom]
    rw [List.length_cons] at hlen
    rw [h t0 k (by omega) (hp k (List.mem_cons_self k p)),
      ih (t0 + 1) (fun j hj => hp j (List.mem_cons_of_mem k hj)) (by omega)]

theorem mem_allPaths (K n : Nat) (p : List Nat) :
    p ∈ allPaths K n ↔ p.length = n ∧ ∀ k ∈ p, k < K := by
  induction n generalizing p with
  | zero =>
    simp only [allPaths, List.mem_singleton]
    constructor
    · rintro rfl
      exact ⟨rfl, by simp⟩
    · rintro ⟨h, _⟩
      exact List.length_eq_zero.mp h
  | succ n ih =>
    simp only [allPaths, List.mem_flatMap, List.mem_map, List.mem_range]
    constructor
    · rintro ⟨q, hq, k, hk, rfl⟩
      obtain ⟨h1, h2⟩ := (ih q).mp hq
      refine ⟨by simp [h1], ?_⟩
      intro j hj
      rcases List.mem_append.mp hj with h | h
      · exact h2 j h
      · rw [List.mem_singleton.mp h]; exact hk
    · rintro ⟨h1, h2⟩
      have hne : p ≠ [] := by
        intro h; rw [h] at h1; simp at h1
      refine ⟨p.dropLast, (ih _).mpr ⟨by simp [h1], ?_⟩, p.getLast hne, ?_, ?_⟩
      · intro k hk
        exact h2 k (List.mem_of_mem_dropLast hk)
      · exact h2 _ (List.getLast_mem hne)
      · exact List.dropLast_append_getLast hne

theorem lsum_allPaths_succ (K n : Nat) (f : List Nat → ℝ) :
    lsum (allPaths K (n + 1)) f =
      lsum (allPaths K n) (fun p => lsum (List.range K) (fun k => f (p ++ [k]))) := by
  rw [allPaths, lsum_flatMap]
  apply lsum_congr
  intro p _
  rw [lsum_map]

theorem lsum_allPaths_zero (K : Nat) (f : List Nat → ℝ) : lsum (allPaths K 0) f = f [] := by
  rw [allPaths, lsum_singleton]

/-- Splitting the paths of length `m + n` into a head of length `m` and a tail. -/
theorem lsum_allPaths_add (K m n : Nat) (f : List Nat → ℝ) :
    lsum (allPaths K (m + n)) f =
      lsum (allPaths K m) (fun p => lsum (allPaths K n) (fun q => f (p ++ q))) := by
  induction n generalizing f with
  | zero =>
    apply lsum_congr
    intro p _
    rw [lsum_allPaths_zero, List.append_nil]
  | succ n ih =>
    rw [← Nat.add_assoc, lsum_allPaths_succ, ih]
    apply lsum_congr
    intro p _
    rw [lsum_allPaths_succ]
    apply lsum_congr
    intro q _
    apply lsum_congr
    intro k _
    rw [List.append_assoc]

theorem lsum_allPaths_one (K : Nat) (f : List Nat → ℝ) :
    lsum (allPaths K 1) f = lsum (List.range K) (fun k => f [k]) := by
  rw [lsum_allPaths_succ, lsum_allPaths_zero]
  rfl

/-- Splitting off the first class of the paths of length `n + 1`. -/
theorem lsum_allPaths_cons (K n : Nat) (f : List Nat → ℝ) :
    lsum (allPaths K (n + 1)) f =
      lsum (List.range K) (fun k => lsum (allPaths K n) (fun q => f (k :: q))) := by
  rw [Nat.add_comm, lsum_allPaths_add, lsum_allPaths_one]
  rfl

theorem run_nil (lab : Nat → Nat) (L : Nat) (σ : Option Nat) : run lab L σ [] = σ := rfl

theorem run_cons (lab : Nat → Nat) (L : Nat) (σ : Option Nat) (k : Nat) (q : List Nat) :
    run lab L σ (k :: q) = run lab L (σ.bind (fun s => step lab L s k)) q := rfl

theorem run_append (lab : Nat → Nat) (L : Nat) (σ : Option Nat) (p q : List Nat) :
    run lab L σ (p ++ q) = run lab L (run lab L σ p) q := by
  unfold run
  rw [List.foldl_append]

theorem run_snoc (lab : Nat → Nat) (L : Nat) (σ : Option Nat) (p : List Nat) (k : Nat) :
    run lab L σ (p ++ [k]) = (run lab L σ p).bind (fun s => step lab L s k) := by
  rw [run_append]
  rfl

theorem run_none (lab : Nat → Nat) (L : Nat) (p : List Nat) : run lab L none p = none := by
  induction p with
  | nil => rfl
  | cons k p ih => rw [run_cons]; exact ih

end Paths

/-! ## The transitions of the lattice -/

section Automaton

variable (lab : Nat → Nat) (L : Nat)

theorem step_eq_some_iff (hlab : ∀ j < L, lab j ≠ 0) (s' k s : Nat) (hs' : s' ≤ 2 * L) :
    step lab L s' k = some s ↔ (k = segClass lab s ∧ edge lab L s' s) := by
  unfold step edge segClass
  rcases Nat.mod_two_eq_zero_or_one s' with h0 | h1
  · rw [if_pos h0]
    by_cases hk : k = 0
    · rw [if_pos hk]
      simp only [Option.some.injEq]
      constructor
      · intro h
        subst h
        have : ¬ s' % 2 = 1 := by omega
        rw [if_neg this]
        exact ⟨hk, hs', Or.inl rfl⟩
      · rintro ⟨hk', hs, h | h | ⟨h, hodd, _⟩⟩
        · exact h.symm
        · exfalso
          have hodd : s % 2 = 1 := by omega
          rw [if_pos hodd] at hk'
          exact hlab (s / 2) (by omega) (hk'.symm.trans hk)
        · omega
    · rw [if_neg hk]
      by_cases hl : s' / 2 < L ∧ k = lab (s' / 2)
      · rw [if_pos hl]
        simp only [Option.some.injEq]
        constructor
        · intro h
          subst h
          have h1 : (s' + 1) % 2 = 1 := by omega
          have h2 : (s' + 1) / 2 = s' / 2 := by omega
          rw [if_pos h1, h2]
          exact ⟨hl.2, by omega, Or.inr (Or.inl rfl)⟩
        · rintro ⟨hk', hs, h | h | ⟨h, hodd, _⟩⟩
          · exfalso
            have : ¬ s % 2 = 1 := by omega
            rw [if_neg this] at hk'
            exact hk hk'
          · exact h.symm
          · omega
      · rw [if_neg hl]
        constructor
        · intro h; exact absurd h (by simp)
        · rintro ⟨hk', hs, h | h | ⟨h, hodd, _⟩⟩
          · exfalso
            have : ¬ s % 2 = 1 := by omega
            rw [if_neg this] at hk'
            exact hk hk'
          · exfalso
            have h1 : s % 2 = 1 := by omega
            have h2 : s / 2 = s' / 2 := by omega
            rw [if_pos h1, h2] at hk'
            exact hl ⟨by omega, hk'⟩
          · omega
  · have hne : ¬ s' % 2 = 0 := by omega
    rw [if_neg hne]
    by_cases hk : k = 0
    · rw [if_pos hk]
      simp only [Option.some.injEq]
      constructor
      · intro h
        subst h
        have : ¬ (s' + 1) % 2 = 1 := by omega
        rw [if_neg this]
        exact ⟨hk, by omega, Or.inr (Or.inl rfl)⟩
      · rintro ⟨hk', hs, h | h | ⟨h, hodd, _⟩⟩
        · exfalso
          have hodd : s % 2 = 1 := by omega
          rw [if_pos hodd] at hk'
          exact hlab (s / 2) (by omega) (hk'.symm.trans hk)
        · exact h.symm
        · exfalso
          rw [if_pos hodd] at hk'
          exact hlab (s / 2) (by omega) (hk'.symm.trans hk)
    · rw [if_neg hk]
      by_cases hl : k = lab (s' / 2)
      · rw [if_pos hl]
        simp only [Option.some.injEq]
        constructor
        · intro h
          subst h
          rw [if_pos h1]
          exact ⟨hl, hs', Or.inl rfl⟩
        · rintro ⟨hk', hs, h | h | ⟨h, hodd, hdiff⟩⟩
          · exact h.symm
          · exfalso
            have : ¬ s % 2 = 1 := by omega
            rw [if_neg this] at hk'
            exact hk hk'
          · exfalso
            have h2 : s / 2 - 1 = s' / 2 := by omega
            rw [if_pos hodd] at hk'
            rw [h2, ← hk', ← hl] at hdiff
            exact hdiff rfl
      · rw [if_neg hl]
        by_cases hl2 : s' / 2 + 1 < L ∧ k = lab (s' / 2 + 1)
        · rw [if_pos hl2]
          simp only [Option.some.injEq]
          constructor
          · intro h
            subst h
            have h2 : (s' + 2) % 2 = 1 := by omega
            have h3 : (s' + 2) / 2 = s' / 2 + 1 := by omega
            rw [if_pos h2, h3]
            refine ⟨hl2.2, by omega, Or.inr (Or.inr ⟨rfl, h2, ?_⟩)⟩
            rw [Nat.add_sub_cancel, ← hl2.2]
            exact hl
          · rintro ⟨hk', hs, h | h | ⟨h, hodd, hdiff⟩⟩
            · exfalso
              have hodd : s % 2 = 1 := by omega
              rw [if_pos hodd, h] at hk'
              exact hl hk'
            · exfalso
              have : ¬ s % 2 = 1 := by omega
              rw [if_neg this] at hk'
              exact hk hk'
            · exact h.symm
        · rw [if_neg hl2]
          constructor
          · intro h; exact absurd h (by simp)
          · rintro ⟨hk', hs, h | h | ⟨h, hodd, hdiff⟩⟩
            · exfalso
              have hodd : s % 2 = 1 := by omega
              rw [if_pos hodd, h] at hk'
              exact hl hk'
            · exfalso
              have : ¬ s % 2 = 1 := by omega
              rw [if_neg this] at hk'
              exact hk hk'
            · exfalso
              have h3 : s / 2 = s' / 2 + 1 := by omega
              rw [if_pos hodd, h3] at hk'
              exact hl2 ⟨by omega, hk'⟩

/-- A step keeps the segment within the lattice and moves it up by at most two. -/
theorem step_bounds (hlab : ∀ j < L, lab j ≠ 0) (s' k s : Nat) (hs' : s' ≤ 2 * L)
    (h : step lab L s' k = some s) : s ≤ 2 * L ∧ s' ≤ s ∧ s ≤ s' + 2 := by
  obtain ⟨_, hs, h | h | ⟨h, _, _⟩⟩ := (step_eq_some_iff lab L hlab s' k s hs').mp h <;>
    omega

/-- The segments a path can lead to lie within the lattice. -/
theorem run_bounds (hlab : ∀ j < L, lab j ≠ 0) (p : List Nat) (s0 s : Nat) (hs0 : s0 ≤ 2 * L)
    (h : run lab L (some s0) p = some s) : s ≤ 2 * L ∧ s0 ≤ s ∧ s ≤ s0 + 2 * p.length := by
  induction p using List.reverseRecOn generalizing s with
  | nil =>
    rw [run_nil] at h
    injection h with h
    subst h
    simp [hs0]
  | append_singleton p k ih =>
    rw [run_snoc] at h
    cases hr : run lab L (some s0) p with
    | none => rw [hr] at h; exact absurd h (by simp)
    | some s1 =>
      rw [hr] at h
      obtain ⟨h1, h2, h3⟩ := ih s1 hr
      obtain ⟨h4, h5, h6⟩ := step_bounds lab L hlab s1 k s h1 h
      rw [List.length_append, List.length_singleton]
      omega

end Automaton

/-! ## The forward recurrence on path sums -/

section Forward

variable (y : Nat → Nat → ℝ) (lab : Nat → Nat) (L K : Nat)

theorem segClass_lt (hK : 0 < K) (hlabK : ∀ j < L, lab j < K) (s : Nat) (hs : s ≤ 2 * L) :
    segClass lab s < K := by
  unfold segClass
  split_ifs with h
  · exact hlabK _ (by omega)
  · exact hK

/-- The classes that lead from `s'` to `s`: only the class of `s`, along an edge. -/
theorem lsum_step (hlab : ∀ j < L, lab j ≠ 0) (hK : 0 < K) (hlabK : ∀ j < L, lab j < K)
    (g : Nat → ℝ) (s' s : Nat) (hs' : s' ≤ 2 * L) :
    lsum (List.range K) (fun k => if step lab L s' k = some s then g k else 0) =
      if edge lab L s' s then g (segClass lab s) else 0 := by
  by_cases he : edge lab L s' s
  · rw [if_pos he]
    have : (fun k => if step lab L s' k = some s then g k else 0) =
        fun k => if k = segClass lab s then g k else 0 := by
      funext k
      by_cases hk : k = segClass lab s
      · rw [if_pos hk, if_pos ((step_eq_some_iff lab L hlab s' k s hs').mpr ⟨hk, he⟩)]
      · rw [if_neg hk, if_neg (fun h => hk ((step_eq_some_iff lab L hlab s' k s hs').mp h).1)]
    rw [this, lsum_range_single, if_pos (segClass_lt lab L K hK hlabK s he.1)]
  · rw [if_neg he]
    have : (fun k => if step lab L s' k = some s then g k else 0) = fun _ => (0 : ℝ) := by
      funext k
      rw [if_neg (fun h => he ((step_eq_some_iff lab L hlab s' k s hs').mp h).2)]
    rw [this, lsum_zero]

theorem lsum_ite_const {β : Type} (l : List β) (c : Prop) [Decidable c] (f : β → ℝ) :
    (if c then lsum l f else 0) = lsum l (fun a => if c then f a else 0) := by
  by_cases h : c
  · simp [h]
  · simp [h, lsum_zero]

/-- The forward recurrence on the path sums. -/
theorem alphaC_succ (hlab : ∀ j < L, lab j ≠ 0) (hK : 0 < K) (hlabK : ∀ j < L, lab j < K)
    (n s : Nat) (hs : s ≤ 2 * L) :
    alphaC y lab L K (n + 1) s =
      predSum lab (alphaC y lab L K n) s * y n (segClass lab s) := by
  unfold predSum alphaC
  rw [lsum_allPaths_succ, lsum_ite_const, lsum_ite_const, ← lsum_add, ← lsum_add,
    ← lsum_mul_right]
  apply lsum_congr
  intro p hp
  have hlen : p.length = n := ((mem_allPaths K n p).mp hp).1
  have h1 : (fun k => if run lab L (some 0) (p ++ [k]) = some s then wFrom y 0 (p ++ [k])
        else 0) =
      fun k => wFrom y 0 p *
        (if (run lab L (some 0) p).bind (fun s' => step lab L s' k) = some s
          then y n k else 0) := by
    funext k
    rw [run_snoc, wFrom_append, wFrom_singleton, hlen, Nat.zero_add]
    split_ifs <;> simp
  rw [h1, lsum_mul_left]
  cases hr : run lab L (some 0) p with
  | none =>
    simp [lsum_zero]
  | some s' =>
    have hs' : s' ≤ 2 * L := (run_bounds lab L hlab p 0 s' (Nat.zero_le _) hr).1
    simp only [Option.some_bind, Option.some.injEq]
    rw [lsum_step lab L K hlab hK hlabK (y n) s' s hs']
    unfold edge
    by_cases e1 : s' = s
    · have c1 : s ≤ 2 * L ∧ (s = s' ∨ s = s' + 1 ∨
          (s = s' + 2 ∧ s % 2 = 1 ∧ lab (s / 2) ≠ lab (s / 2 - 1))) := ⟨hs, Or.inl e1.symm⟩
      have c2 : ¬ s' = s - 1 ∨ ¬ 1 ≤ s := by omega
      have c3 : ¬ s' = s - 2 ∨ ¬ 1 < s := by omega
      rw [if_pos c1, if_pos e1]
      have z2 : (if 1 ≤ s then (if s' = s - 1 then wFrom y 0 p else 0) else 0) = 0 := by
        split_ifs <;> first | rfl | omega
      have z3 : (if s % 2 = 1 ∧ 1 < s ∧ lab (s / 2) ≠ lab (s / 2 - 1)
          then (if s' = s - 2 then wFrom y 0 p else 0) else 0) = 0 := by
        split_ifs <;> first | rfl | omega
      rw [z2, z3]
      ring
    · by_cases e2 : 1 ≤ s ∧ s' = s - 1
      · have c1 : s ≤ 2 * L ∧ (s = s' ∨ s = s' + 1 ∨
            (s = s' + 2 ∧ s % 2 = 1 ∧ lab (s / 2) ≠ lab (s / 2 - 1))) :=
          ⟨hs, Or.inr (Or.inl (by omega))⟩
        rw [if_pos c1, if_neg e1, if_pos e2.1, if_pos e2.2]
        have z3 : (if s % 2 = 1 ∧ 1 < s ∧ lab (s / 2) ≠ lab (s / 2 - 1)
            then (if s' = s - 2 then wFrom y 0 p else 0) else 0) = 0 := by
          split_ifs <;> first | rfl | omega
        rw [z3]
        ring
      · have z2 : (if 1 ≤ s then (if s' = s - 1 then wFrom y 0 p else 0) else 0) = 0 := by
          split_ifs <;> first | rfl | omega
        rw [if_neg e1, z2]
        by_cases e3 : s % 2 = 1 ∧ 1 < s ∧ lab (s / 2) ≠ lab (s / 2 - 1)
        · rw [if_pos e3]
          by_cases e4 : s' = s - 2
          · have c1 : s ≤ 2 * L ∧ (s = s' ∨ s = s' + 1 ∨
                (s = s' + 2 ∧ s % 2 = 1 ∧ lab (s / 2) ≠ lab (s / 2 - 1))) :=
              ⟨hs, Or.inr (Or.inr ⟨by omega, e3.1, e3.2.2⟩)⟩
            rw [if_pos c1, if_pos e4]
            ring
          · have c1 : ¬ (s ≤ 2 * L ∧ (s = s' ∨ s = s' + 1 ∨
                (s = s' + 2 ∧ s % 2 = 1 ∧ lab (s / 2) ≠ lab (s / 2 - 1)))) := by
              rintro ⟨_, h | h | ⟨h, _, _⟩⟩ <;> omega
            rw [if_neg c1, if_neg e4]
            ring
        · have c1 : ¬ (s ≤ 2 * L ∧ (s = s' ∨ s = s' + 1 ∨
              (s = s' + 2 ∧ s % 2 = 1 ∧ lab (s / 2) ≠ lab (s / 2 - 1)))) := by
            rintro ⟨_, h | h | ⟨h, h5, h6⟩⟩
            · omega
            · omega
            · exact e3 ⟨h5, by omega, h6⟩
          rw [if_neg c1, if_neg e3]
          ring

theorem alphaC_zero (s : Nat) : alphaC y lab L K 0 s = if s = 0 then 1 else 0 := by
  unfold alphaC
  rw [lsum_allPaths_zero, run_nil]
  by_cases h : s = 0
  · subst h; simp [wFrom]
  · rw [if_neg h, if_neg]
    intro h'
    injection h' with h'
    exact h h'.symm

/-- From segment `0`, a path of length `n ≥ 1` ends below segment `2 n`. -/
theorem run_zero_bound (hlab : ∀ j < L, lab j ≠ 0) (p : List Nat) (s : Nat)
    (h : run lab L (some 0) p = some s) :
    (p = [] ∧ s = 0) ∨ s + (if s % 2 = 0 then 2 else 1) ≤ 2 * p.length := by
  induction p using List.reverseRecOn generalizing s with
  | nil =>
    rw [run_nil] at h
    injection h with h
    exact Or.inl ⟨rfl, h.symm⟩
  | append_singleton p k ih =>
    right
    rw [run_snoc] at h
    cases hr : run lab L (some 0) p with
    | none => rw [hr] at h; exact absurd h (by simp)
    | some s1 =>
      rw [hr] at h
      have hs1 : s1 ≤ 2 * L := (run_bounds lab L hlab p 0 s1 (Nat.zero_le _) hr).1
      obtain ⟨_, _, he⟩ := (step_eq_some_iff lab L hlab s1 k s hs1).mp h
      rw [List.length_append, List.length_singleton]
      rcases ih s1 hr with ⟨hp, h0⟩ | hb
      · subst hp h0
        rcases he with h | h | ⟨h, h5, _⟩
        · subst h; simp
        · subst h; simp
        · omega
      · rcases he with h | h | ⟨h, h5, _⟩
        · subst h; omega
        · subst h
          split_ifs at hb ⊢ <;> omega
        · subst h
          split_ifs at hb ⊢ <;> omega

/-- The segments outside the lattice, and those too far up for the time, carry no
forward weight. -/
theorem alphaC_eq_zero (hlab : ∀ j < L, lab j ≠ 0) (n s : Nat)
    (hs : 2 * L < s ∨ (1 ≤ n ∧ 2 * n ≤ s)) : alphaC y lab L K n s = 0 := by
  unfold alphaC
  refine (lsum_congr _ _ (fun _ => (0 : ℝ)) ?_).trans (lsum_zero _)
  intro p hp
  have hlen : p.length = n := ((mem_allPaths K n p).mp hp).1
  rw [if_neg]
  intro hr
  rcases hs with hs | hs
  · have := (run_bounds lab L hlab p 0 s (Nat.zero_le _) hr).1
    omega
  · rcases run_zero_bound lab L hlab p s hr with ⟨h1, _⟩ | hb
    · rw [h1] at hlen
      simp at hlen
      omega
    · rw [hlen] at hb
      split_ifs at hb <;> omega

theorem alphaC_nonneg (hy : ∀ t k, 0 < y t k) (n s : Nat) : 0 ≤ alphaC y lab L K n s := by
  unfold alphaC
  apply lsum_nonneg
  intro p _
  split_ifs
  · exact (wFrom_pos y hy p 0).le
  · exact le_refl _

end Forward

/-! ## The forward pass in exact arithmetic -/

section ForwardExact

variable (M : ℝ) (x : Nat → Nat → ℝ) (input_i : Nat → Nat → XReal) (tgt : Nat → Int)
  (L K T : Nat)

theorem natLabels_ne_zero (hvalid : ∀ j < L, 1 ≤ tgt j ∧ tgt j < K) :
    ∀ j < L, natLabels tgt j ≠ 0 := by
  intro j hj
  have := hvalid j hj
  unfold natLabels
  omega

theorem natLabels_lt (hvalid : ∀ j < L, 1 ≤ tgt j ∧ tgt j < K) :
    ∀ j < L, natLabels tgt j < K := by
  intro j hj
  have := hvalid j hj
  unfold natLabels
  omega

theorem natLabels_ne_iff (hvalid : ∀ j < L, 1 ≤ tgt j ∧ tgt j < K) (j j' : Nat) (hj : j < L)
    (hj' : j' < L) : tgt j ≠ tgt j' ↔ natLabels tgt j ≠ natLabels tgt j' := by
  have h1 := hvalid j hj
  have h2 := hvalid j' hj'
  unfold natLabels
  omega

theorem expScores_pos : ∀ t k, 0 < expScores x t k := fun _ _ => Real.exp_pos _

theorem sBegin_eq (T S t : Nat) : sBegin T S t = S - 2 * (T - t) := by
  unfold sBegin
  exact Nat.zero_max _

theorem sEnd_eq (S t : Nat) : sEnd S t = min S (2 * (t + 1)) := rfl

/-- One cell of the forward pass, on a previous row of probabilities. -/
theorem forwardCell_exact (hM : 1 < M) (hvalid : ∀ j < L, 1 ≤ tgt j ∧ tgt j < K)
    (hx : ∀ t k, t < T → k < K → input_i t k = XReal.fin (x t k)) (hK : 0 < K)
    (a : Nat → ℝ) (ha : ∀ s, 0 ≤ a s) (t s : Nat) (ht : t < T) (hs : s ≤ 2 * L) :
    forwardCell (exactArith M) (input_i t) (fun s => Lg (a s)) tgt s =
      Lg (predSum (natLabels tgt) a s * expScores x t (segClass (natLabels tgt) s)) := by
  unfold forwardCell predSum segClass
  by_cases hodd : s % 2 = 1
  · rw [if_pos hodd, if_pos hodd]
    have h1 : 1 ≤ s := by omega
    have hj : s / 2 < L := by omega
    have hlabK := natLabels_lt tgt L K hvalid (s / 2) hj
    simp only [if_pos h1]
    rw [logAdd_Lg hM (ha _) (ha _)]
    have hin : input_i t (tgt (s / 2)).toNat = Lg (expScores x t (natLabels tgt (s / 2))) := by
      unfold expScores
      rw [Lg_exp]
      exact hx t _ ht hlabK
    rw [hin]
    by_cases hc : s > 1 ∧ tgt (s / 2) ≠ tgt (s / 2 - 1)
    · have hc' : s % 2 = 1 ∧ 1 < s ∧ natLabels tgt (s / 2) ≠ natLabels tgt (s / 2 - 1) :=
        ⟨hodd, hc.1, (natLabels_ne_iff tgt L K hvalid _ _ hj (by omega)).mp hc.2⟩
      rw [if_pos hc, if_pos hc', logAdd_Lg hM (add_nonneg (ha _) (ha _)) (ha _),
        logMul_Lg M (add_nonneg (add_nonneg (ha _) (ha _)) (ha _))
          (expScores_pos x t _).le]
    · have hc' : ¬ (s % 2 = 1 ∧ 1 < s ∧
          natLabels tgt (s / 2) ≠ natLabels tgt (s / 2 - 1)) := by
        rintro ⟨_, h2, h3⟩
        exact hc ⟨h2, (natLabels_ne_iff tgt L K hvalid _ _ hj (by omega)).mpr h3⟩
      rw [if_neg hc, if_neg hc', add_zero,
        logMul_Lg M (add_nonneg (ha _) (ha _)) (expScores_pos x t _).le]
  · rw [if_neg hodd, if_neg hodd]
    have hc' : ¬ (s % 2 = 1 ∧ 1 < s ∧
        natLabels tgt (s / 2) ≠ natLabels tgt (s / 2 - 1)) := fun h => hodd h.1
    rw [if_neg hc', add_zero]
    have hin : input_i t 0 = Lg (expScores x t 0) := by
      unfold expScores
      rw [Lg_exp]
      exact hx t 0 ht hK
    rw [hin]
    by_cases h0 : s > 0
    · have h1 : 1 ≤ s := h0
      simp only [if_pos h0, if_pos h1]
      rw [logAdd_Lg hM (ha _) (ha _),
        logMul_Lg M (add_nonneg (ha _) (ha _)) (expScores_pos x t _).le]
    · have h1 : ¬ 1 ≤ s := by omega
      simp only [if_neg h0, if_neg h1]
      rw [add_zero, logMul_Lg M (ha _) (expScores_pos x t _).le]

/-- The path sums after one step. -/
theorem alphaC_one (y : Nat → Nat → ℝ) (lab : Nat → Nat) (L K : Nat)
    (hlab : ∀ j < L, lab j ≠ 0) (hK : 0 < K) (hlabK : ∀ j < L, lab j < K) (s : Nat) :
    alphaC y lab L K 1 s =
      if s = 0 then y 0 0 else if s = 1 ∧ 0 < L then y 0 (lab 0) else 0 := by
  by_cases h0 : s = 0
  · subst h0
    rw [if_pos rfl, alphaC_succ y lab L K hlab hK hlabK 0 0 (Nat.zero_le _)]
    unfold predSum segClass
    simp only [alphaC_zero]
    norm_num
  · rw [if_neg h0]
    by_cases h1 : s = 1 ∧ 0 < L
    · obtain ⟨rfl, hL⟩ := h1
      rw [if_pos ⟨rfl, hL⟩, alphaC_succ y lab L K hlab hK hlabK 0 1 (by omega)]
      unfold predSum segClass
      simp only [alphaC_zero]
      norm_num
    · rw [if_neg h1]
      apply alphaC_eq_zero y lab L K hlab
      omega

theorem fwdVal_nonneg (t s : Nat) : 0 ≤ fwdVal x tgt L K T t s := by
  unfold fwdVal
  split_ifs
  · exact alphaC_nonneg _ _ _ _ (expScores_pos x) _ _
  · exact le_refl _

/-- The rows of `fvars` are the logarithms of the path sums of the band. -/
theorem fwdRows_exact (hM : 1 < M) (hvalid : ∀ j < L, 1 ≤ tgt j ∧ tgt j < K)
    (hx : ∀ t k, t < T → k < K → input_i t k = XReal.fin (x t k)) (hK : 0 < K)
    (t : Nat) (ht : t < T) (s : Nat) :
    fwdRows (exactArith M) input_i tgt T (2 * L + 1) t s = Lg (fwdVal x tgt L K T t s) := by
  have hlab := natLabels_ne_zero tgt L K hvalid
  have hlabK := natLabels_lt tgt L K hvalid
  induction t generalizing s with
  | zero =>
    unfold fwdRows fwdRow0 fwdVal
    rw [if_pos (Or.inl rfl), logZero_exact, Nat.zero_add,
      alphaC_one _ _ _ _ hlab hK hlabK s]
    by_cases h1 : s = 1 ∧ 2 * L + 1 > 1
    · have h2 : ¬ s = 0 := by omega
      have h3 : s = 1 ∧ 0 < L := ⟨h1.1, by omega⟩
      rw [if_pos h1, if_neg h2, if_pos h3]
      unfold expScores natLabels
      rw [Lg_exp]
      exact hx 0 _ ht (hlabK 0 h3.2)
    · rw [if_neg h1]
      by_cases h0 : s = 0
      · rw [if_pos h0, if_pos h0]
        unfold expScores
        rw [Lg_exp]
        exact hx 0 0 ht hK
      · have h3 : ¬ (s = 1 ∧ 0 < L) := by omega
        rw [if_neg h0, if_neg h0, if_neg h3, Lg_zero]
  | succ t ih =>
    have ht' : t < T := by omega
    rw [fwdRows]
    have hrow : fwdRows (exactArith M) input_i tgt T (2 * L + 1) t =
        fun s => Lg (fwdVal x tgt L K T t s) := by
      funext s'
      exact ih ht' s'
    rw [hrow, sBegin_eq, sEnd_eq]
    beta_reduce
    by_cases hband : 2 * L + 1 - 2 * (T - (t + 1)) ≤ s ∧ s < min (2 * L + 1) (2 * (t + 1 + 1))
    · rw [if_pos hband]
      have hs : s ≤ 2 * L := by omega
      rw [forwardCell_exact M x input_i tgt L K T hM hvalid hx hK _
        (fwdVal_nonneg x tgt L K T t) (t + 1) s ht hs]
      congr 1
      have hv : fwdVal x tgt L K T (t + 1) s =
          alphaC (expScores x) (natLabels tgt) L K (t + 1 + 1) s := by
        unfold fwdVal
        rw [sBegin_eq, if_pos (Or.inr hband.1)]
      rw [hv, alphaC_succ _ _ _ _ hlab hK hlabK (t + 1) s hs]
      congr 1
      have hread : ∀ s', s' + 2 ≥ s → fwdVal x tgt L K T t s' =
          alphaC (expScores x) (natLabels tgt) L K (t + 1) s' := by
        intro s' hs'
        unfold fwdVal
        rw [sBegin_eq, if_pos]
        omega
      unfold predSum
      rw [hread s (by omega), hread (s - 1) (by omega), hread (s - 2) (by omega)]
    · rw [if_neg hband, logZero_exact]
      unfold fwdVal
      rw [sBegin_eq]
      by_cases hlow : t + 1 = 0 ∨ 2 * L + 1 - 2 * (T - (t + 1)) ≤ s
      · rw [if_pos hlow, alphaC_eq_zero _ _ _ _ hlab (t + 1 + 1) s (by omega), Lg_zero]
      · rw [if_neg hlow, Lg_zero]

end ForwardExact

/-! ## Final segments and the collapse of a path -/

section Collapse

theorem mergeRepeats_snoc (p : List Nat) (k : Nat) :
    mergeRepeats (p ++ [k]) =
      if p.getLast? = some k then mergeRepeats p else mergeRepeats p ++ [k] := by
  induction p with
  | nil => simp [mergeRepeats]
  | cons a p ih =>
    cases p with
    | nil =>
      simp only [List.cons_append, List.nil_append, mergeRepeats, List.getLast?_singleton,
        Option.some.injEq]
      by_cases h : a = k
      · simp [h]
      · simp [h]
    | cons b r =>
      have e : (a :: b :: r).getLast? = (b :: r).getLast? := by simp [List.getLast?_cons_cons]
      rw [e]
      simp only [List.cons_append] at ih ⊢
      rw [mergeRepeats, mergeRepeats, ih]
      by_cases hab : a = b <;> by_cases hl : (b :: r).getLast? = some k <;> simp [hab, hl]

theorem collapse_snoc (p : List Nat) (k : Nat) :
    collapse (p ++ [k]) =
      if k = 0 ∨ p.getLast? = some k then collapse p else collapse p ++ [k] := by
  unfold collapse
  rw [mergeRepeats_snoc]
  by_cases hl : p.getLast? = some k
  · simp [hl]
  · rw [if_neg hl]
    by_cases hk : k = 0
    · simp [hk]
    · simp [hl, hk]

theorem labelList_length (lab : Nat → Nat) (L : Nat) : (labelList lab L).length = L := by
  simp [labelList]

theorem labelList_take_succ (lab : Nat → Nat) (L n : Nat) (hn : n < L) :
    (labelList lab L).take (n + 1) = (labelList lab L).take n ++ [lab n] := by
  rw [List.take_succ]
  congr 1
  simp [labelList, hn]

theorem take_length_of_le (lab : Nat → Nat) (L n : Nat) (hn : n ≤ L) :
    ((labelList lab L).take n).length = n := by
  rw [List.length_take, labelList_length]
  omega

theorem snoc_ne_take (lab : Nat → Nat) (L n k : Nat) (h : ¬ (n < L ∧ k = lab n)) (hn : n ≤ L) :
    (labelList lab L).take n ++ [k] ≠ (labelList lab L).take (n + 1) := by
  intro he
  by_cases hL : n < L
  · rw [labelList_take_succ lab L n hL] at he
    have := List.append_cancel_left he
    simp at this
    exact h ⟨hL, this⟩
  · have h1 := congrArg List.length he
    rw [List.length_append, take_length_of_le lab L n hn, List.length_take,
      labelList_length] at h1
    simp at h1
    omega

theorem run_inv (lab : Nat → Nat) (L : Nat) (p : List Nat) :
    RunInv lab L p (run lab L (some 0) p) := by
  induction p using List.reverseRecOn with
  | nil =>
    rw [run_nil]
    refine ⟨by simp [collapse, mergeRepeats], Nat.zero_le _, by simp, by simp⟩
  | append_singleton p k ih =>
    rw [run_snoc]
    cases hr : run lab L (some 0) p with
    | none =>
      rw [hr] at ih
      simp only [Option.none_bind]
      unfold RunInv at ih ⊢
      rw [collapse_snoc]
      split_ifs with h
      · exact ih
      · intro he
        apply ih
        rw [List.length_append, List.length_singleton] at he
        have h2 := congrArg (List.take (collapse p).length) he
        rw [List.take_left', List.take_take] at h2
        · rw [min_eq_left (Nat.le_succ _)] at h2
          exact h2
        · rfl
    | some s1 =>
      rw [hr] at ih
      obtain ⟨hc, hs1, hodd, heven⟩ := ih
      simp only [Option.some_bind]
      unfold step
      rcases Nat.mod_two_eq_zero_or_one s1 with h0 | h1
      · have hlast := heven h0
        have hnk : k ≠ 0 → p.getLast? ≠ some k := by
          intro hk he
          rcases hlast with h | h
          · rw [h] at he; exact absurd he (by simp)
          · rw [h] at he; injection he with he; exact hk he.symm
        rw [if_pos h0]
        by_cases hk : k = 0
        · rw [if_pos hk]
          refine ⟨?_, hs1, fun h => by omega, fun _ => Or.inr ?_⟩
          · rw [collapse_snoc, if_pos (Or.inl hk)]; exact hc
          · simp [hk]
        · rw [if_neg hk]
          have hcs : collapse (p ++ [k]) = collapse p ++ [k] := by
            rw [collapse_snoc, if_neg]
            rintro (h | h)
            · exact hk h
            · exact hnk hk h
          have e1 : (s1 + 1) / 2 = s1 / 2 := by omega
          by_cases hl : s1 / 2 < L ∧ k = lab (s1 / 2)
          · rw [if_pos hl]
            refine ⟨?_, by omega, fun _ => ?_, fun h => by omega⟩
            · have e2 : (s1 + 1 + 1) / 2 = s1 / 2 + 1 := by omega
              rw [hcs, hc, e1, e2, labelList_take_succ lab L _ hl.1, hl.2]
            · have e2 : (s1 + 1) / 2 = s1 / 2 := by omega
              rw [e2, ← hl.2]
              simp
          · rw [if_neg hl]
            unfold RunInv
            rw [hcs, List.length_append, List.length_singleton, hc, e1,
              take_length_of_le lab L _ (by omega)]
            exact snoc_ne_take lab L _ k hl (by omega)
      · have hlast := hodd h1
        have hne : ¬ s1 % 2 = 0 := by omega
        have hj : s1 / 2 < L := by omega
        have e1 : (s1 + 1) / 2 = s1 / 2 + 1 := by omega
        rw [if_neg hne]
        by_cases hk : k = 0
        · rw [if_pos hk]
          refine ⟨?_, by omega, fun h => by omega, fun _ => Or.inr ?_⟩
          · have e2 : (s1 + 1 + 1) / 2 = (s1 + 1) / 2 := by omega
            rw [collapse_snoc, if_pos (Or.inl hk), e2]; exact hc
          · simp [hk]
        · rw [if_neg hk]
          by_cases hl : k = lab (s1 / 2)
          · rw [if_pos hl]
            refine ⟨?_, hs1, fun _ => ?_, fun h => by omega⟩
            · rw [collapse_snoc, if_pos (Or.inr (by rw [hlast, hl])), hc]
            · rw [← hl]; simp
          · rw [if_neg hl]
            have hcs : collapse (p ++ [k]) = collapse p ++ [k] := by
              rw [collapse_snoc, if_neg]
              rintro (h | h)
              · exact hk h
              · rw [hlast] at h
                injection h with h
                exact hl h.symm
            by_cases hl2 : s1 / 2 + 1 < L ∧ k = lab (s1 / 2 + 1)
            · rw [if_pos hl2]
              refine ⟨?_, by omega, fun _ => ?_, fun h => by omega⟩
              · have e2 : (s1 + 2 + 1) / 2 = s1 / 2 + 1 + 1 := by omega
                rw [hcs, hc, e1, e2, labelList_take_succ lab L _ hl2.1, hl2.2]
              · have e2 : (s1 + 2) / 2 = s1 / 2 + 1 := by omega
                rw [e2, ← hl2.2]
                simp
            · rw [if_neg hl2]
              unfold RunInv
              rw [hcs, List.length_append, List.length_singleton, hc, e1,
                take_length_of_le lab L _ (by omega)]
              exact snoc_ne_take lab L _ k hl2 (by omega)

/-- A path leads from segment `0` to a final segment exactly when it collapses to the
labels. -/
theorem accepts_iff_collapse (lab : Nat → Nat) (L : Nat) (p : List Nat) :
    accepts L (run lab L (some 0) p) = true ↔ collapse p = labelList lab L := by
  have hinv := run_inv lab L p
  cases hr : run lab L (some 0) p with
  | none =>
    rw [hr] at hinv
    unfold RunInv at hinv
    simp only [accepts, Bool.false_eq_true, false_iff]
    intro he
    apply hinv
    rw [he, labelList_length, List.take_of_length_le]
    rw [labelList_length]
  | some s =>
    rw [hr] at hinv
    obtain ⟨hc, hs, _, _⟩ := hinv
    simp only [accepts, decide_eq_true_eq]
    constructor
    · intro h
      have e : (s + 1) / 2 = L := by omega
      rw [hc, e, List.take_of_length_le]
      rw [labelList_length]
    · intro h
      have h1 := congrArg List.length hc
      rw [h, labelList_length, take_length_of_le lab L _ (by omega)] at h1
      omega

end Collapse

/-! ## The loss as a sum over the valid alignments -/

section Loss

theorem pathWeight_eq_wFrom (x : Nat → Nat → ℝ) (p : List Nat) :
    pathWeight x p = wFrom (expScores x) 0 p := by
  induction p using List.reverseRecOn with
  | nil => simp [pathWeight, wFrom]
  | append_singleton p k ih =>
    rw [wFrom_append, wFrom_singleton, ← ih]
    unfold pathWeight expScores
    rw [List.length_append, List.length_singleton, List.range_succ, List.map_append,
      List.prod_append]
    congr 1
    · congr 1
      apply List.map_congr_left
      intro t ht
      rw [List.mem_range] at ht
      simp [List.getD_eq_getElem?_getD, List.getElem?_append_left ht]
    · simp [List.getD_eq_getElem?_getD]

theorem targetLabels_eq (tgt : Nat → Int) (maxLen K : Nat)
    (hvalid : ∀ j < zeroPadArrayLength tgt maxLen, 1 ≤ tgt j ∧ tgt j < K) :
    targetLabels tgt maxLen =
      (labelList (natLabels tgt) (zeroPadArrayLength tgt maxLen)).map Int.ofNat := by
  unfold targetLabels labelList natLabels
  rw [List.map_map]
  apply List.map_congr_left
  intro j hj
  rw [List.mem_range] at hj
  have := hvalid j hj
  simp only [Function.comp_apply, Int.ofNat_eq_coe]
  omega

/-- The valid alignments are the paths that lead to a final segment. -/
theorem alignments_eq (tgt : Nat → Int) (maxLen K T : Nat)
    (hvalid : ∀ j < zeroPadArrayLength tgt maxLen, 1 ≤ tgt j ∧ tgt j < K) :
    alignments K T tgt maxLen =
      (allPaths K T).filter (fun p => accepts (zeroPadArrayLength tgt maxLen)
        (run (natLabels tgt) (zeroPadArrayLength tgt maxLen) (some 0) p)) := by
  unfold alignments
  apply List.filter_congr
  intro p _
  rw [targetLabels_eq tgt maxLen K hvalid]
  have h := accepts_iff_collapse (natLabels tgt) (zeroPadArrayLength tgt maxLen) p
  have hinj : (collapse p).map Int.ofNat =
      (labelList (natLabels tgt) (zeroPadArrayLength tgt maxLen)).map Int.ofNat ↔
      collapse p = labelList (natLabels tgt) (zeroPadArrayLength tgt maxLen) :=
    (List.map_injective_iff.mpr Int.ofNat_injective).eq_iff
  cases ha : accepts (zeroPadArrayLength tgt maxLen)
      (run (natLabels tgt) (zeroPadArrayLength tgt maxLen) (some 0) p)
  · rw [ha] at h
    simp only [decide_eq_false_iff_not]
    rw [hinj]
    intro hc
    exact absurd (h.mpr hc) (by simp)
  · rw [ha] at h
    simp only [decide_eq_true_eq]
    rw [hinj]
    exact h.mp rfl

/-- The total weight of the valid alignments, from the two final segments. -/
theorem lsum_alignments (x : Nat → Nat → ℝ) (tgt : Nat → Int) (maxLen K T : Nat)
    (hvalid : ∀ j < zeroPadArrayLength tgt maxLen, 1 ≤ tgt j ∧ tgt j < K) :
    lsum (alignments K T tgt maxLen) (pathWeight x) =
      alphaC (expScores x) (natLabels tgt) (zeroPadArrayLength tgt maxLen) K T
          (2 * zeroPadArrayLength tgt maxLen) +
        (if 1 ≤ zeroPadArrayLength tgt maxLen then
          alphaC (expScores x) (natLabels tgt) (zeroPadArrayLength tgt maxLen) K T
            (2 * zeroPadArrayLength tgt maxLen - 1)
         else 0) := by
  rw [alignments_eq tgt maxLen K T hvalid, lsum_filter]
  unfold alphaC
  rw [lsum_ite_const, ← lsum_add]
  apply lsum_congr
  intro p _
  rw [pathWeight_eq_wFrom]
  cases hr : run (natLabels tgt) (zeroPadArrayLength tgt maxLen) (some 0) p with
  | none => simp [accepts]
  | some s =>
    simp only [accepts, Option.some.injEq, decide_eq_true_eq]
    by_cases h1 : s = 2 * zeroPadArrayLength tgt maxLen
    · have h2 : ¬ (1 ≤ zeroPadArrayLength tgt maxLen ∧
          s = 2 * zeroPadArrayLength tgt maxLen - 1) := by omega
      rw [if_pos (Or.inl h1), if_pos h1]
      split_ifs <;> first | (exfalso; omega) | simp
    · by_cases h2 : s + 1 = 2 * zeroPadArrayLength tgt maxLen
      · rw [if_pos (Or.inr h2), if_neg h1, if_pos (by omega), if_pos (by omega), zero_add]
      · rw [if_neg (by omega), if_neg h1]
        split_ifs <;> first | (exfalso; omega) | simp

theorem alignments_pos (x : Nat → Nat → ℝ) (tgt : Nat → Int) (maxLen K T : Nat)
    (h : alignments K T tgt maxLen ≠ []) :
    0 < lsum (alignments K T tgt maxLen) (pathWeight x) := by
  apply lsum_pos _ _ _ h
  intro p _
  rw [pathWeight_eq_wFrom]
  exact wFrom_pos _ (expScores_pos x) p 0

/-- The log-likelihood of a sequence is the logarithm of the total weight of the valid
alignments. -/
theorem seqLogProb_exact (M : ℝ) (hM : 1 < M) (x : Nat → Nat → ℝ)
    (input_i : Nat → Nat → XReal) (tgt : Nat → Int) (maxLen K T : Nat) (hT : 1 ≤ T)
    (hK : 1 ≤ K) (hx : ∀ t k, t < T → k < K → input_i t k = XReal.fin (x t k))
    (hvalid : ∀ j < zeroPadArrayLength tgt maxLen, 1 ≤ tgt j ∧ tgt j < K) :
    seqLogProb (exactArith M) input_i tgt T maxLen =
      Lg (lsum (alignments K T tgt maxLen) (pathWeight x)) := by
  have hlab := natLabels_ne_zero tgt _ K hvalid
  rw [lsum_alignments x tgt maxLen K T hvalid]
  unfold seqLogProb logLikelihood
  simp only [forwardVars_val _ _ _ _ _ hT, if_pos (show T - 1 < T by omega)]
  rw [fwdRows_exact M x input_i tgt _ K T hM hvalid hx hK (T - 1) (by omega),
    fwdRows_exact M x input_i tgt _ K T hM hvalid hx hK (T - 1) (by omega)]
  have hv : ∀ s, 2 * zeroPadArrayLength tgt maxLen ≤ s + 1 →
      fwdVal x tgt (zeroPadArrayLength tgt maxLen) K T (T - 1) s =
        alphaC (expScores x) (natLabels tgt) (zeroPadArrayLength tgt maxLen) K T s := by
    intro s hs
    unfold fwdVal
    rw [sBegin_eq, if_pos (by omega)]
    congr 1
    omega
  rw [hv _ (by omega), hv _ (by omega)]
  by_cases hL : 1 ≤ zeroPadArrayLength tgt maxLen
  · rw [if_pos (by omega), if_pos hL,
      logAdd_Lg hM (alphaC_nonneg _ _ _ _ (expScores_pos x) _ _)
        (alphaC_nonneg _ _ _ _ (expScores_pos x) _ _)]
    congr 3
  · rw [if_neg (by omega), if_neg hL, add_zero]
    congr 2

end Loss

/-! ## The backward recurrence on path sums -/

section Backward

variable (y : Nat → Nat → ℝ) (lab : Nat → Nat) (L K : Nat)

theorem accepts_none (L : Nat) : accepts L none = false := rfl

theorem betaC_zero (t0 s : Nat) :
    betaC y lab L K t0 0 s = if s = 2 * L ∨ s + 1 = 2 * L then 1 else 0 := by
  unfold betaC
  rw [lsum_allPaths_zero, run_nil]
  simp [accepts, wFrom]

/-- The weight of the paths from a segment or from failure to a final segment. -/
theorem lsum_accepts_run (t0 m : Nat) (σ : Option Nat) :
    lsum (allPaths K m)
        (fun q => if accepts L (run lab L σ q) then wFrom y t0 q else 0) =
      match σ with
      | some s => betaC y lab L K t0 m s
      | none => 0 := by
  cases σ with
  | some s => rfl
  | none =>
    simp only [run_none, accepts_none, Bool.false_eq_true, if_false]
    exact lsum_zero _

/-- The backward recurrence on the path sums. -/
theorem betaC_succ (hlab : ∀ j < L, lab j ≠ 0) (hK : 0 < K) (hlabK : ∀ j < L, lab j < K)
    (t0 m s : Nat) (hs : s ≤ 2 * L) :
    betaC y lab L K t0 (m + 1) s = succSum lab L (betaC y lab L K (t0 + 1) m) (y t0) s := by
  have h1 : betaC y lab L K t0 (m + 1) s =
      lsum (List.range K) (fun k => lsum [s, s + 1, s + 2] (fun s' =>
        if step lab L s k = some s' then y t0 k * betaC y lab L K (t0 + 1) m s' else 0)) := by
    unfold betaC
    rw [lsum_allPaths_cons]
    apply lsum_congr
    intro k _
    have e : (fun q => if accepts L (run lab L (some s) (k :: q)) then wFrom y t0 (k :: q)
          else 0) =
        fun q => y t0 k *
          (if accepts L (run lab L (step lab L s k) q) then wFrom y (t0 + 1) q else 0) := by
      funext q
      rw [run_cons, wFrom]
      simp only [Option.some_bind]
      split_ifs <;> simp
    rw [e, lsum_mul_left, lsum_accepts_run]
    simp only [lsum_cons, lsum_nil, add_zero]
    cases hst : step lab L s k with
    | none => simp
    | some s'' =>
      obtain ⟨_, h2, h3⟩ := step_bounds lab L hlab s k s'' hs hst
      simp only [Option.some.injEq]
      have hcase : s'' = s ∨ s'' = s + 1 ∨ s'' = s + 2 := by omega
      rcases hcase with h | h | h <;> subst h <;> simp [betaC]
  rw [h1, lsum_comm]
  simp only [lsum_cons, lsum_nil, add_zero]
  rw [lsum_step lab L K hlab hK hlabK (fun k => y t0 k * betaC y lab L K (t0 + 1) m s) s s hs,
    lsum_step lab L K hlab hK hlabK (fun k => y t0 k * betaC y lab L K (t0 + 1) m (s + 1))
      s (s + 1) hs,
    lsum_step lab L K hlab hK hlabK (fun k => y t0 k * betaC y lab L K (t0 + 1) m (s + 2))
      s (s + 2) hs]
  unfold succSum edge
  have c0 : s ≤ 2 * L ∧ (s = s ∨ s = s + 1 ∨
      (s = s + 2 ∧ s % 2 = 1 ∧ lab (s / 2) ≠ lab (s / 2 - 1))) := ⟨hs, Or.inl rfl⟩
  rw [if_pos c0]
  have e2 : (s + 2) / 2 = s / 2 + 1 := by omega
  have e3 : s / 2 + 1 - 1 = s / 2 := by omega
  have c1 : (s + 1 ≤ 2 * L ∧ (s + 1 = s ∨ s + 1 = s + 1 ∨
      (s + 1 = s + 2 ∧ (s + 1) % 2 = 1 ∧ lab ((s + 1) / 2) ≠ lab ((s + 1) / 2 - 1)))) ↔
      s + 1 ≤ 2 * L := by
    constructor
    · exact fun h => h.1
    · exact fun h => ⟨h, Or.inr (Or.inl rfl)⟩
  have c2 : (s + 2 ≤ 2 * L ∧ (s + 2 = s ∨ s + 2 = s + 1 ∨
      (s + 2 = s + 2 ∧ (s + 2) % 2 = 1 ∧ lab ((s + 2) / 2) ≠ lab ((s + 2) / 2 - 1)))) ↔
      (s % 2 = 1 ∧ s + 2 ≤ 2 * L ∧ lab (s / 2 + 1) ≠ lab (s / 2)) := by
    rw [e2, e3]
    constructor
    · rintro ⟨h, h' | h' | ⟨_, h5, h6⟩⟩
      · omega
      · omega
      · exact ⟨by omega, h, h6⟩
    · rintro ⟨h5, h, h6⟩
      exact ⟨h, Or.inr (Or.inr ⟨rfl, by omega, h6⟩)⟩
  rw [if_congr c1 rfl rfl, if_congr c2 rfl rfl]
  split_ifs <;> ring

/-- A step never moves the segment down. -/
theorem step_ge (s k s' : Nat) (h : step lab L s k = some s') : s ≤ s' := by
  unfold step at h
  split_ifs at h <;> injection h with h <;> omega

/-- The segments from which no final segment can be reached in the time left carry no
backward weight. -/
theorem betaC_eq_zero (hlab : ∀ j < L, lab j ≠ 0) (t0 m s : Nat) (hs : s ≤ 2 * L)
    (h : s + 2 * m + 1 < 2 * L) : betaC y lab L K t0 m s = 0 := by
  unfold betaC
  refine (lsum_congr _ _ (fun _ => (0 : ℝ)) ?_).trans (lsum_zero _)
  intro q hq
  have hlen : q.length = m := ((mem_allPaths K m q).mp hq).1
  rw [if_neg]
  cases hr : run lab L (some s) q with
  | none => simp [accepts]
  | some s' =>
    have := (run_bounds lab L hlab q s s' hs hr).2.2
    simp only [accepts, decide_eq_true_eq]
    omega

theorem betaC_nonneg (hy : ∀ t k, 0 < y t k) (t0 m s : Nat) : 0 ≤ betaC y lab L K t0 m s := by
  unfold betaC
  apply lsum_nonneg
  intro p _
  split_ifs
  · exact (wFrom_pos y hy p t0).le
  · exact le_refl _

theorem succSum_congr (b b' : Nat → ℝ) (y' : Nat → ℝ) (s : Nat) (hs : s ≤ 2 * L)
    (h : ∀ s', s ≤ s' → s' ≤ s + 2 → s' ≤ 2 * L → b s' = b' s') :
    succSum lab L b y' s = succSum lab L b' y' s := by
  unfold succSum
  rw [h s (le_refl _) (by omega) hs]
  congr 1
  · congr 1
    split_ifs with h1
    · rw [h (s + 1) (by omega) (by omega) h1]
    · rfl
  · split_ifs with h1
    · rw [h (s + 2) (by omega) (by omega) h1.2.1]
    · rfl

end Backward

/-! ## The backward pass in exact arithmetic -/

section BackwardExact

variable (M : ℝ) (x : Nat → Nat → ℝ) (input_i : Nat → Nat → XReal) (tgt : Nat → Int)
  (L K T : Nat)

/-- One cell of the backward pass, on a next row of probabilities. -/
theorem backwardCell_exact (hM : 1 < M) (hvalid : ∀ j < L, 1 ≤ tgt j ∧ tgt j < K)
    (hx : ∀ t k, t < T → k < K → input_i t k = XReal.fin (x t k)) (hK : 0 < K)
    (b : Nat → ℝ) (hb : ∀ s, 0 ≤ b s) (t s : Nat) (ht : t < T) (hs : s ≤ 2 * L) :
    backwardCell (exactArith M) (input_i t) (fun s => Lg (b s)) tgt (2 * L + 1) s =
      Lg (succSum (natLabels tgt) L b (expScores x t) s) := by
  have hy := expScores_pos x
  have hin0 : input_i t blankLabel.toNat = Lg (expScores x t 0) := by
    unfold expScores
    rw [Lg_exp]
    exact hx t 0 ht hK
  have hinl : ∀ j, j < L → input_i t (tgt j).toNat = Lg (expScores x t (natLabels tgt j)) := by
    intro j hj
    unfold expScores
    rw [Lg_exp]
    exact hx t _ ht (natLabels_lt tgt L K hvalid j hj)
  unfold backwardCell succSum
  by_cases hodd : s % 2 = 1
  · have hj : s / 2 < L := by omega
    have h1 : s + 1 ≤ 2 * L := by omega
    have c0 : segClass (natLabels tgt) s = natLabels tgt (s / 2) := by
      unfold segClass; rw [if_pos hodd]
    have c1 : segClass (natLabels tgt) (s + 1) = 0 := by
      unfold segClass; rw [if_neg (by omega)]
    have c2 : segClass (natLabels tgt) (s + 2) = natLabels tgt (s / 2 + 1) := by
      unfold segClass
      rw [if_pos (by omega)]
      congr 1
      omega
    rw [if_pos hodd, if_pos h1, c0, c1, c2]
    simp only [hin0, hinl _ hj]
    rw [logMul_Lg M (hb _) (hy _ _).le, logMul_Lg M (hb _) (hy _ _).le,
      logAdd_Lg hM (mul_nonneg (hb _) (hy _ _).le) (mul_nonneg (hb _) (hy _ _).le)]
    by_cases h2 : s + 2 < 2 * L + 1
    · have hj2 : s / 2 + 1 < L := by omega
      rw [if_pos h2]
      by_cases h3 : tgt (s / 2) ≠ tgt (s / 2 + 1)
      · have h3' : natLabels tgt (s / 2 + 1) ≠ natLabels tgt (s / 2) :=
          (natLabels_ne_iff tgt L K hvalid _ _ hj2 hj).mp (Ne.symm h3)
        rw [if_pos h3, if_pos ⟨hodd, by omega, h3'⟩, hinl _ hj2,
          logMul_Lg M (hb _) (hy _ _).le,
          logAdd_Lg hM (add_nonneg (mul_nonneg (hb _) (hy _ _).le)
            (mul_nonneg (hb _) (hy _ _).le)) (mul_nonneg (hb _) (hy _ _).le)]
      · have h3' : ¬ (s % 2 = 1 ∧ s + 2 ≤ 2 * L ∧
            natLabels tgt (s / 2 + 1) ≠ natLabels tgt (s / 2)) := by
          rintro ⟨_, _, h⟩
          exact h3 (Ne.symm ((natLabels_ne_iff tgt L K hvalid _ _ hj2 hj).mpr h))
        rw [if_neg h3, if_neg h3', add_zero]
    · have h3' : ¬ (s % 2 = 1 ∧ s + 2 ≤ 2 * L ∧
          natLabels tgt (s / 2 + 1) ≠ natLabels tgt (s / 2)) := by
        rintro ⟨_, h, _⟩
        omega
      rw [if_neg h2, if_neg h3', add_zero]
  · have c0 : segClass (natLabels tgt) s = 0 := by
      unfold segClass; rw [if_neg hodd]
    have h3' : ¬ (s % 2 = 1 ∧ s + 2 ≤ 2 * L ∧
        natLabels tgt (s / 2 + 1) ≠ natLabels tgt (s / 2)) := fun h => hodd h.1
    rw [if_neg hodd, if_neg h3', add_zero, c0]
    simp only [hin0]
    rw [logMul_Lg M (hb _) (hy _ _).le]
    by_cases h1 : s + 1 < 2 * L + 1
    · have hj : s / 2 < L := by omega
      have c1 : segClass (natLabels tgt) (s + 1) = natLabels tgt (s / 2) := by
        unfold segClass
        rw [if_pos (by omega)]
        congr 1
        omega
      rw [if_pos h1, if_pos (by omega), c1, hinl _ hj, logMul_Lg M (hb _) (hy _ _).le,
        logAdd_Lg hM (mul_nonneg (hb _) (hy _ _).le) (mul_nonneg (hb _) (hy _ _).le)]
    · rw [if_neg h1, if_neg (by omega), add_zero]

theorem bwdVal_nonneg (t s : Nat) : 0 ≤ bwdVal x tgt L K T t s := by
  unfold bwdVal
  split_ifs
  · exact betaC_nonneg _ _ _ _ (expScores_pos x) _ _ _
  · exact le_refl _

/-- The rows of `bvars` are the logarithms of the path sums of the band. -/
theorem bwdRows_exact (hM : 1 < M) (hvalid : ∀ j < L, 1 ≤ tgt j ∧ tgt j < K)
    (hx : ∀ t k, t < T → k < K → input_i t k = XReal.fin (x t k)) (hK : 0 < K)
    (d : Nat) (hd : d < T) (s : Nat) :
    bwdRows (exactArith M) input_i tgt T (2 * L + 1) d s =
      Lg (bwdVal x tgt L K T (T - 1 - d) s) := by
  have hlab := natLabels_ne_zero tgt L K hvalid
  have hlabK := natLabels_lt tgt L K hvalid
  induction d generalizing s with
  | zero =>
    unfold bwdRows bwdRowLast bwdVal
    rw [if_pos (Or.inl (by omega)), logZero_exact, logOne_exact]
    have e : T - 1 - (T - 1 - 0) = 0 := by omega
    rw [e, betaC_zero]
    by_cases h1 : s = 2 * L + 1 - 2 ∧ 2 * L + 1 > 1
    · rw [if_pos h1, if_pos (by omega), Lg_one]
    · rw [if_neg h1]
      by_cases h2 : s = 2 * L + 1 - 1
      · rw [if_pos h2, if_pos (by omega), Lg_one]
      · rw [if_neg h2, if_neg (by omega), Lg_zero]
  | succ d ih =>
    have hd' : d < T := by omega
    rw [bwdRows]
    have hrow : bwdRows (exactArith M) input_i tgt T (2 * L + 1) d =
        fun s => Lg (bwdVal x tgt L K T (T - 1 - d) s) := by
      funext s'
      exact ih hd' s'
    rw [hrow, sBegin_eq, sEnd_eq]
    beta_reduce
    have et : T - 1 - (d + 1) = T - 2 - d := by omega
    have et1 : T - 2 - d + 1 = T - 1 - d := by omega
    rw [et]
    by_cases hband : 2 * L + 1 - 2 * (T - (T - 2 - d)) ≤ s ∧
        s < min (2 * L + 1) (2 * (T - 2 - d + 1))
    · rw [if_pos hband]
      have hs : s ≤ 2 * L := by omega
      rw [et1, backwardCell_exact M x input_i tgt L K T hM hvalid hx hK _
        (bwdVal_nonneg x tgt L K T (T - 1 - d)) (T - 1 - d) s (by omega) hs]
      congr 1
      have hv : bwdVal x tgt L K T (T - 2 - d) s =
          betaC (expScores x) (natLabels tgt) L K (T - 2 - d + 1) (d + 1) s := by
        unfold bwdVal
        rw [sEnd_eq, if_pos (Or.inr hband.2)]
        congr 1
        omega
      rw [hv, betaC_succ _ _ _ _ hlab hK hlabK _ d s hs, et1]
      apply succSum_congr _ _ _ _ _ _ hs
      intro s' h1 h2 h3
      unfold bwdVal
      rw [sEnd_eq, if_pos]
      · congr 1
        omega
      · omega
    · rw [if_neg hband, logZero_exact]
      unfold bwdVal
      rw [sEnd_eq]
      by_cases hup : T - 2 - d + 1 = T ∨ s < min (2 * L + 1) (2 * (T - 2 - d + 1))
      · rw [if_pos hup, betaC_eq_zero _ _ _ _ hlab _ _ s (by omega) (by omega), Lg_zero]
      · rw [if_neg hup, Lg_zero]

end BackwardExact

/-! ## Forward times backward -/

section Posterior

variable (y : Nat → Nat → ℝ) (lab : Nat → Nat) (L K : Nat)

/-- The last class of a path is the class of the segment it leads to. -/
theorem run_getLast (p : List Nat) (s : Nat) (hp : p ≠ [])
    (h : run lab L (some 0) p = some s) : p.getLast? = some (segClass lab s) := by
  have hinv := run_inv lab L p
  rw [h] at hinv
  obtain ⟨_, _, hodd, heven⟩ := hinv
  unfold segClass
  rcases Nat.mod_two_eq_zero_or_one s with h0 | h1
  · rw [if_neg (by omega)]
    rcases heven h0 with h | h
    · exact absurd (List.getLast?_eq_none_iff.mp h) hp
    · exact h
  · rw [if_pos h1]
    exact hodd h1

/-- Forward times backward: the weight of the accepted paths that emit class `k` at
time `t`, summed by the segment occupied at time `t`. -/
theorem lsum_occupancy (hlab : ∀ j < L, lab j ≠ 0) (t m k : Nat) :
    lsum (allPaths K (t + 1 + m))
        (fun p => if accepts L (run lab L (some 0) p) = true ∧ p[t]? = some k
          then wFrom y 0 p else 0) =
      lsum (List.range (2 * L + 1))
        (fun s => if segClass lab s = k
          then alphaC y lab L K (t + 1) s * betaC y lab L K (t + 1) m s else 0) := by
  rw [lsum_allPaths_add]
  have hR : lsum (List.range (2 * L + 1))
        (fun s => if segClass lab s = k
          then alphaC y lab L K (t + 1) s * betaC y lab L K (t + 1) m s else 0) =
      lsum (allPaths K (t + 1)) (fun p1 => lsum (List.range (2 * L + 1)) (fun s =>
        if segClass lab s = k then
          (if run lab L (some 0) p1 = some s then wFrom y 0 p1 else 0) *
            betaC y lab L K (t + 1) m s
        else 0)) := by
    rw [lsum_comm]
    apply lsum_congr
    intro s _
    unfold alphaC
    rw [← lsum_mul_right, lsum_ite_const]
  rw [hR]
  apply lsum_congr
  intro p1 hp1
  have hlen : p1.length = t + 1 := ((mem_allPaths K (t + 1) p1).mp hp1).1
  have hne : p1 ≠ [] := by
    intro h; rw [h] at hlen; simp at hlen
  have hL : (fun q => if accepts L (run lab L (some 0) (p1 ++ q)) = true ∧
        (p1 ++ q)[t]? = some k then wFrom y 0 (p1 ++ q) else 0) =
      fun q => (if p1.getLast? = some k then wFrom y 0 p1 else 0) *
        (if accepts L (run lab L (run lab L (some 0) p1) q) then wFrom y (t + 1) q
          else 0) := by
    funext q
    have e1 : (p1 ++ q)[t]? = p1.getLast? := by
      rw [List.getElem?_append_left (by omega), List.getLast?_eq_getElem?, hlen]
      rfl
    rw [run_append, wFrom_append, e1, hlen, Nat.zero_add]
    split_ifs <;> simp_all
  rw [hL, lsum_mul_left, lsum_accepts_run]
  cases hr : run lab L (some 0) p1 with
  | none =>
    simp [lsum_zero]
  | some s0 =>
    have hs0 : s0 ≤ 2 * L := (run_bounds lab L hlab p1 0 s0 (Nat.zero_le _) hr).1
    have hlast := run_getLast lab L p1 s0 hne hr
    simp only [Option.some.injEq]
    have e2 : (fun s => if segClass lab s = k then
          (if s0 = s then wFrom y 0 p1 else 0) * betaC y lab L K (t + 1) m s else 0) =
        fun s => if s = s0 then
          (if segClass lab s = k then wFrom y 0 p1 * betaC y lab L K (t + 1) m s else 0)
          else 0 := by
      funext s
      by_cases h1 : s = s0
      · subst h1; simp
      · have h2 : ¬ s0 = s := fun h => h1 h.symm
        simp [h1, h2]
    rw [e2, lsum_range_single, if_pos (show s0 < 2 * L + 1 by omega), hlast]
    simp only [Option.some.injEq]
    split_ifs <;> simp

end Posterior

section Gradient

/-- The vector `logDeDy` on rows of probabilities: the occupancy of each class. -/
theorem logDeDy_exact (M : ℝ) (hM : 1 < M) (f b : Nat → ℝ) (hf : ∀ s, 0 ≤ f s)
    (hb : ∀ s, 0 ≤ b s) (tgt : Nat → Int) (K S k : Nat) :
    (logDeDy (exactArith M) (fun s => Lg (f s)) (fun s => Lg (b s)) tgt K S).val k =
      Lg (lsum (List.range S)
        (fun s => if segClass (natLabels tgt) s = k then f s * b s else 0)) := by
  unfold logDeDy
  induction S generalizing k with
  | zero =>
    simp only [List.range_zero, List.foldl_nil, lsum_nil, Lg_zero]
    rfl
  | succ n ih =>
    rw [List.range_succ, List.foldl_append, List.foldl_cons, List.foldl_nil, lsum_append,
      lsum_singleton, tensor1_set_val]
    have hk : (if n % 2 = 1 then tgt (n / 2) else blankLabel).toNat =
        segClass (natLabels tgt) n := by
      unfold segClass natLabels blankLabel
      split_ifs <;> rfl
    have hnn : 0 ≤ lsum (List.range n)
        (fun s => if segClass (natLabels tgt) s = segClass (natLabels tgt) n
          then f s * b s else 0) := by
      apply lsum_nonneg
      intro s _
      split_ifs
      · exact mul_nonneg (hf s) (hb s)
      · exact le_refl _
    rw [hk]
    by_cases h : k = segClass (natLabels tgt) n
    · rw [if_pos h, ih, logMul_Lg M (hf n) (hb n), logAdd_Lg hM hnn
        (mul_nonneg (hf n) (hb n)), if_pos h.symm, h]
    · rw [if_neg h, ih, if_neg (fun h' => h h'.symm), add_zero]

end Gradient

/-! ## The derivative of the loss -/

section Derivative

theorem wFrom_setScore (x : Nat → Nat → ℝ) (t k : Nat) (v : ℝ) (p : List Nat) (t0 : Nat) :
    wFrom (expScores (setScore x t k v)) t0 p =
      wFrom (expScores x) t0 p *
        (if t0 ≤ t ∧ p[t - t0]? = some k then Real.exp (v - x t k) else 1) := by
  induction p generalizing t0 with
  | nil => simp [wFrom]
  | cons a q ih =>
    rw [wFrom, wFrom, ih (t0 + 1)]
    rcases Nat.lt_trichotomy t0 t with h | h | h
    · have e1 : expScores (setScore x t k v) t0 a = expScores x t0 a := by
        unfold expScores setScore
        rw [if_neg (by omega)]
      have e2 : t - t0 = (t - (t0 + 1)) + 1 := by omega
      rw [e1, e2, List.getElem?_cons_succ]
      have c : (t0 + 1 ≤ t ∧ q[t - (t0 + 1)]? = some k) ↔
          (t0 ≤ t ∧ q[t - (t0 + 1)]? = some k) := by
        constructor
        · exact fun h' => ⟨by omega, h'.2⟩
        · exact fun h' => ⟨by omega, h'.2⟩
      rw [if_congr c rfl rfl]
      ring
    · subst h
      rw [if_neg (by omega), Nat.sub_self, List.getElem?_cons_zero]
      simp only [Option.some.injEq, le_refl, true_and, mul_one]
      unfold expScores setScore
      by_cases hk : a = k
      · subst hk
        rw [if_pos ⟨rfl, rfl⟩, if_pos rfl]
        have e : Real.exp v = Real.exp (x t0 a) * Real.exp (v - x t0 a) := by
          rw [← Real.exp_add]
          congr 1
          ring
        rw [e]
        ring
      · rw [if_neg (fun h' => hk h'.2), if_neg hk]
        ring
    · have e1 : expScores (setScore x t k v) t0 a = expScores x t0 a := by
        unfold expScores setScore
        rw [if_neg (by omega)]
      rw [e1, if_neg (by omega), if_neg (by omega)]
      ring

theorem pathWeight_setScore (x : Nat → Nat → ℝ) (t k : Nat) (v : ℝ) (p : List Nat) :
    pathWeight (setScore x t k v) p =
      (if p[t]? = some k then pathWeight x p else 0) * Real.exp (v - x t k) +
        (pathWeight x p - (if p[t]? = some k then pathWeight x p else 0)) := by
  rw [pathWeight_eq_wFrom, pathWeight_eq_wFrom, wFrom_setScore]
  simp only [Nat.zero_le, true_and, Nat.sub_zero]
  split_ifs <;> ring

theorem lsum_sub {β : Type} (l : List β) (f g : β → ℝ) :
    lsum l (fun a => f a - g a) = lsum l f - lsum l g := by
  induction l with
  | nil => simp [lsum_nil]
  | cons a l ih => rw [lsum_cons, lsum_cons, lsum_cons, ih]; ring

/-- The total weight of the valid alignments as a function of one score. -/
theorem lsum_alignments_setScore (x : Nat → Nat → ℝ) (tgt : Nat → Int) (maxLen K T : Nat)
    (t k : Nat) (v : ℝ) :
    lsum (alignments K T tgt maxLen) (pathWeight (setScore x t k v)) =
      lsum (alignments K T tgt maxLen)
          (fun p => if p[t]? = some k then pathWeight x p else 0) * Real.exp (v - x t k) +
        (lsum (alignments K T tgt maxLen) (pathWeight x) -
          lsum (alignments K T tgt maxLen)
            (fun p => if p[t]? = some k then pathWeight x p else 0)) := by
  rw [← lsum_mul_right, ← lsum_sub, ← lsum_add]
  apply lsum_congr
  intro p _
  exact pathWeight_setScore x t k v p

/-- The derivative of `-log` of the total weight of the valid alignments in the score
of class `k` at time `t`: minus the share of the alignments that emit `k` at `t`. -/
theorem hasDerivAt_neg_log_alignments (x : Nat → Nat → ℝ) (tgt : Nat → Int)
    (maxLen K T : Nat) (t k : Nat)
    (hZ : 0 < lsum (alignments K T tgt maxLen) (pathWeight x)) :
    HasDerivAt
      (fun v => -(Real.log (lsum (alignments K T tgt maxLen) (pathWeight (setScore x t k v)))))
      (-(lsum (alignments K T tgt maxLen)
          (fun p => if p[t]? = some k then pathWeight x p else 0) /
        lsum (alignments K T tgt maxLen) (pathWeight x)))
      (x t k) := by
  have hfun : (fun v => lsum (alignments K T tgt maxLen) (pathWeight (setScore x t k v))) =
      fun v => lsum (alignments K T tgt maxLen)
          (fun p => if p[t]? = some k then pathWeight x p else 0) * Real.exp (v - x t k) +
        (lsum (alignments K T tgt maxLen) (pathWeight x) -
          lsum (alignments K T tgt maxLen)
            (fun p => if p[t]? = some k then pathWeight x p else 0)) := by
    funext v
    exact lsum_alignments_setScore x tgt maxLen K T t k v
  have h1 : HasDerivAt (fun v : ℝ => v - x t k) 1 (x t k) :=
    (hasDerivAt_id (x t k)).sub_const (x t k)
  have h2 : HasDerivAt (fun v : ℝ => Real.exp (v - x t k)) (Real.exp (x t k - x t k) * 1)
      (x t k) := h1.exp
  have h3 := (h2.const_mul (lsum (alignments K T tgt maxLen)
      (fun p => if p[t]? = some k then pathWeight x p else 0))).add_const
    (lsum (alignments K T tgt maxLen) (pathWeight x) -
      lsum (alignments K T tgt maxLen)
        (fun p => if p[t]? = some k then pathWeight x p else 0))
  rw [sub_self, Real.exp_zero, mul_one, mul_one] at h3
  have hval : lsum (alignments K T tgt maxLen)
        (fun p => if p[t]? = some k then pathWeight x p else 0) * Real.exp (x t k - x t k) +
      (lsum (alignments K T tgt maxLen) (pathWeight x) -
        lsum (alignments K T tgt maxLen)
          (fun p => if p[t]? = some k then pathWeight x p else 0)) =
      lsum (alignments K T tgt maxLen) (pathWeight x) := by
    rw [sub_self, Real.exp_zero]
    ring
  have h4 := (h3.log (by rw [hval]; exact hZ.ne.symm)).neg
  rw [hval] at h4
  have hgoal : (fun v => -(Real.log (lsum (alignments K T tgt maxLen)
      (pathWeight (setScore x t k v))))) =
      fun v => -(Real.log (lsum (alignments K T tgt maxLen)
          (fun p => if p[t]? = some k then pathWeight x p else 0) * Real.exp (v - x t k) +
        (lsum (alignments K T tgt maxLen) (pathWeight x) -
          lsum (alignments K T tgt maxLen)
            (fun p => if p[t]? = some k then pathWeight x p else 0)))) := by
    funext v
    rw [lsum_alignments_setScore]
  rw [hgoal]
  exact h4

end Derivative

/-! ## The gradient in exact arithmetic -/

section GradientExact

variable (M : ℝ) (x : Nat → Nat → ℝ) (input_i : Nat → Nat → XReal) (tgt : Nat → Int)
  (maxLen K T : Nat)

/-- The product of the two variables the source holds at `(t, s)` is the product of the
two path sums: where one variable is cut off by the band, the other path sum is zero. -/
theorem fwdVal_mul_bwdVal (hvalid : ∀ j < zeroPadArrayLength tgt maxLen, 1 ≤ tgt j ∧ tgt j < K)
    (t s : Nat) (ht : t < T) (hs : s ≤ 2 * zeroPadArrayLength tgt maxLen) :
    fwdVal x tgt (zeroPadArrayLength tgt maxLen) K T t s *
        bwdVal x tgt (zeroPadArrayLength tgt maxLen) K T t s =
      alphaC (expScores x) (natLabels tgt) (zeroPadArrayLength tgt maxLen) K (t + 1) s *
        betaC (expScores x) (natLabels tgt) (zeroPadArrayLength tgt maxLen) K (t + 1)
          (T - 1 - t) s := by
  have hlab := natLabels_ne_zero tgt _ K hvalid
  unfold fwdVal bwdVal
  rw [sBegin_eq, sEnd_eq]
  by_cases h1 : t = 0 ∨ 2 * zeroPadArrayLength tgt maxLen + 1 - 2 * (T - t) ≤ s
  · rw [if_pos h1]
    by_cases h2 : t + 1 = T ∨ s < min (2 * zeroPadArrayLength tgt maxLen + 1) (2 * (t + 1))
    · rw [if_pos h2]
    · rw [if_neg h2, alphaC_eq_zero _ _ _ _ hlab (t + 1) s (Or.inr (by omega))]
      ring
  · rw [if_neg h1, betaC_eq_zero _ _ _ _ hlab _ _ s hs (by omega)]
    ring

/-- The weight of the valid alignments that emit class `k` at time `t`, from the path
sums. -/
theorem lsum_alignments_at (hvalid : ∀ j < zeroPadArrayLength tgt maxLen, 1 ≤ tgt j ∧ tgt j < K)
    (t k : Nat) (ht : t < T) :
    lsum (alignments K T tgt maxLen) (fun p => if p[t]? = some k then pathWeight x p else 0) =
      lsum (List.range (2 * zeroPadArrayLength tgt maxLen + 1))
        (fun s => if segClass (natLabels tgt) s = k
          then alphaC (expScores x) (natLabels tgt) (zeroPadArrayLength tgt maxLen) K (t + 1) s *
            betaC (expScores x) (natLabels tgt) (zeroPadArrayLength tgt maxLen) K (t + 1)
              (T - 1 - t) s
          else 0) := by
  have hlab := natLabels_ne_zero tgt _ K hvalid
  rw [← lsum_occupancy _ _ _ _ hlab t (T - 1 - t) k, alignments_eq tgt maxLen K T hvalid,
    lsum_filter]
  have e : t + 1 + (T - 1 - t) = T := by omega
  rw [e]
  apply lsum_congr
  intro p _
  rw [pathWeight_eq_wFrom]
  split_ifs <;> simp_all

theorem lsum_alignments_at_nonneg (t k : Nat) :
    0 ≤ lsum (alignments K T tgt maxLen)
      (fun p => if p[t]? = some k then pathWeight x p else 0) := by
  apply lsum_nonneg
  intro p _
  split_ifs
  · rw [pathWeight_eq_wFrom]
    exact (wFrom_pos _ (expScores_pos x) p 0).le
  · exact le_refl _

theorem lsum_alignments_at_le (t k : Nat) :
    lsum (alignments K T tgt maxLen) (fun p => if p[t]? = some k then pathWeight x p else 0) ≤
      lsum (alignments K T tgt maxLen) (pathWeight x) := by
  apply lsum_le
  intro p _
  split_ifs
  · exact le_refl _
  · rw [pathWeight_eq_wFrom]
    exact (wFrom_pos _ (expScores_pos x) p 0).le

/-- The occupancy of class `k` at time `t` the source accumulates. -/
theorem logDeDy_seq_exact (hM : 1 < M) (hT : 1 ≤ T) (hK : 1 ≤ K)
    (hx : ∀ t k, t < T → k < K → input_i t k = XReal.fin (x t k))
    (hvalid : ∀ j < zeroPadArrayLength tgt maxLen, 1 ≤ tgt j ∧ tgt j < K)
    (t k : Nat) (ht : t < T) :
    (logDeDy (exactArith M)
      ((forwardVars (exactArith M) input_i tgt T
        (2 * zeroPadArrayLength tgt maxLen + 1)).val t)
      ((backwardVars (exactArith M) input_i tgt T
        (2 * zeroPadArrayLength tgt maxLen + 1)).val t)
      tgt K (2 * zeroPadArrayLength tgt maxLen + 1)).val k =
      Lg (lsum (alignments K T tgt maxLen)
        (fun p => if p[t]? = some k then pathWeight x p else 0)) := by
  have hf : (forwardVars (exactArith M) input_i tgt T
      (2 * zeroPadArrayLength tgt maxLen + 1)).val t =
      fun s => Lg (fwdVal x tgt (zeroPadArrayLength tgt maxLen) K T t s) := by
    funext s
    rw [forwardVars_val _ _ _ _ _ hT, if_pos ht,
      fwdRows_exact M x input_i tgt _ K T hM hvalid hx hK t ht]
  have hb : (backwardVars (exactArith M) input_i tgt T
      (2 * zeroPadArrayLength tgt maxLen + 1)).val t =
      fun s => Lg (bwdVal x tgt (zeroPadArrayLength tgt maxLen) K T t s) := by
    funext s
    rw [backwardVars_val _ _ _ _ _ hT, if_pos ht,
      bwdRows_exact M x input_i tgt _ K T hM hvalid hx hK (T - 1 - t) (by omega)]
    congr 2
    omega
  rw [hf, hb, logDeDy_exact M hM _ _ (fwdVal_nonneg x tgt _ K T t)
    (bwdVal_nonneg x tgt _ K T t), lsum_alignments_at x tgt maxLen K T hvalid t k ht]
  congr 1
  apply lsum_congr
  intro s hs
  rw [List.mem_range] at hs
  rw [fwdVal_mul_bwdVal x tgt maxLen K T hvalid t s ht (by omega)]

/-- The gradient entry of a sequence: minus the share of the valid alignments that emit
class `k` at time `t` (zero when there is no valid alignment). -/
theorem seqGrad_exact (hM : 1 < M) (hT : 1 ≤ T) (hK : 1 ≤ K)
    (hx : ∀ t k, t < T → k < K → input_i t k = XReal.fin (x t k))
    (hvalid : ∀ j < zeroPadArrayLength tgt maxLen, 1 ≤ tgt j ∧ tgt j < K)
    (t k : Nat) (ht : t < T) :
    seqGrad (exactArith M) input_i tgt T K maxLen t k =
      XReal.fin (-(lsum (alignments K T tgt maxLen)
          (fun p => if p[t]? = some k then pathWeight x p else 0) /
        lsum (alignments K T tgt maxLen) (pathWeight x))) := by
  unfold seqGrad
  rw [logDeDy_seq_exact M x input_i tgt maxLen K T hM hT hK hx hvalid t k ht,
    seqLogProb_exact M hM x input_i tgt maxLen K T hT hK hx hvalid]
  have hN := lsum_alignments_at_nonneg x tgt maxLen K T t k
  have hNZ := lsum_alignments_at_le x tgt maxLen K T t k
  rcases (hN.trans hNZ).eq_or_lt with hZ | hZ
  · have hN0 : lsum (alignments K T tgt maxLen)
        (fun p => if p[t]? = some k then pathWeight x p else 0) = 0 := by
      rw [← hZ] at hNZ
      exact le_antisymm hNZ hN
    rw [hN0, Lg_zero, neg_safeExp_logDiv_ninf]
    simp
  · exact neg_safeExp_logDiv_Lg hM hN hNZ hZ

end GradientExact

/-! ## The band -/

section Band

variable {α : Type}

/-- The cells of `fvars` that hold `logZero` after the forward pass. -/
theorem forwardVars_outside (A : Scalar α) (input_i : Nat → Nat → α) (tgt : Nat → Int)
    (T S : Nat) (hT : 1 ≤ T) (t s : Nat) (ht : t < T)
    (h : 2 * (t + 1) ≤ s ∨ (1 ≤ t ∧ s < S - 2 * (T - t))) :
    (forwardVars A input_i tgt T S).val t s = LogMath.logZero A := by
  rw [forwardVars_val A input_i tgt T S hT, if_pos ht]
  cases t with
  | zero =>
    unfold fwdRows fwdRow0
    rw [if_neg (by omega), if_neg (by omega)]
  | succ t =>
    rw [fwdRows, sBegin_eq, sEnd_eq]
    beta_reduce
    rw [if_neg (by omega)]

/-- The cells of `bvars` that hold `logZero` after the backward pass. -/
theorem backwardVars_outside (A : Scalar α) (input_i : Nat → Nat → α) (tgt : Nat → Int)
    (T S : Nat) (hT : 1 ≤ T) (t s : Nat) (ht : t < T)
    (h : s < S - 2 * (T - t) ∨ (t + 1 < T ∧ 2 * (t + 1) ≤ s)) :
    (backwardVars A input_i tgt T S).val t s = LogMath.logZero A := by
  rw [backwardVars_val A input_i tgt T S hT, if_pos ht]
  by_cases hl : t + 1 = T
  · have e : T - 1 - t = 0 := by omega
    rw [e]
    unfold bwdRows bwdRowLast
    rw [if_neg (by omega), if_neg (by omega)]
  · have e : T - 1 - t = (T - 2 - t) + 1 := by omega
    have e2 : T - 2 - (T - 2 - t) = t := by omega
    rw [e, bwdRows, e2, sBegin_eq, sEnd_eq]
    beta_reduce
    rw [if_neg (by omega)]

end Band

/-! ## Loss and gradient of a sequence of a batch -/

section Results

theorem neg_Lg (M : ℝ) (Z : ℝ) :
    (exactArith M).neg (Lg Z) =
      if Z = 0 then XReal.pinf else XReal.fin (-(Real.log Z)) := by
  unfold Lg
  split_ifs <;> rfl

theorem lsum_eq_zero_iff_alignments (x : Nat → Nat → ℝ) (tgt : Nat → Int) (maxLen K T : Nat) :
    lsum (alignments K T tgt maxLen) (pathWeight x) = 0 ↔ alignments K T tgt maxLen = [] := by
  constructor
  · intro h
    by_contra hne
    exact absurd h (alignments_pos x tgt maxLen K T hne).ne.symm
  · intro h
    rw [h, lsum_nil]

/-- The loss of a sequence in exact arithmetic. -/
theorem loss_exact (M : ℝ) (hM : 1 < M) (input : Tensor3 XReal) (targets : Tensor2 Int)
    (forwardOnly : Bool) (gradInput : Tensor3 XReal) (i : Nat) (x : Nat → Nat → ℝ)
    (hi : i < input.size0) (hT : 1 ≤ input.size1) (hK : 1 ≤ input.size2)
    (hx : ∀ t k, t < input.size1 → k < input.size2 → input.val i t k = XReal.fin (x t k))
    (hvalid : ∀ j < zeroPadArrayLength (targets.val i) targets.size1,
      1 ≤ targets.val i j ∧ targets.val i j < input.size2) :
    (forwardBackward (exactArith M) input targets forwardOnly gradInput).losses.val i =
      if alignments input.size2 input.size1 (targets.val i) targets.size1 = [] then XReal.pinf
      else XReal.fin (-(Real.log
        (lsum (alignments input.size2 input.size1 (targets.val i) targets.size1)
          (pathWeight x)))) := by
  rw [forwardBackward_losses, if_pos hi,
    seqLogProb_exact M hM x _ _ _ input.size2 _ hT hK hx hvalid, neg_Lg]
  by_cases h : alignments input.size2 input.size1 (targets.val i) targets.size1 = []
  · rw [if_pos h, if_pos ((lsum_eq_zero_iff_alignments _ _ _ _ _).mpr h)]
  · rw [if_neg h, if_neg (fun h' => h ((lsum_eq_zero_iff_alignments _ _ _ _ _).mp h'))]

/-- The gradient of a sequence in exact arithmetic. -/
theorem grad_exact (M : ℝ) (hM : 1 < M) (input : Tensor3 XReal) (targets : Tensor2 Int)
    (gradInput : Tensor3 XReal) (i : Nat) (x : Nat → Nat → ℝ)
    (hi : i < input.size0) (hT : 1 ≤ input.size1) (hK : 1 ≤ input.size2)
    (hx : ∀ t k, t < input.size1 → k < input.size2 → input.val i t k = XReal.fin (x t k))
    (hvalid : ∀ j < zeroPadArrayLength (targets.val i) targets.size1,
      1 ≤ targets.val i j ∧ targets.val i j < input.size2)
    (t k : Nat) (ht : t < input.size1) (hk : k < input.size2) :
    (forwardBackward (exactArith M) input targets false gradInput).gradInput.val i t k =
      XReal.fin (-(lsum (alignments input.size2 input.size1 (targets.val i) targets.size1)
          (fun p => if p[t]? = some k then pathWeight x p else 0) /
        lsum (alignments input.size2 input.size1 (targets.val i) targets.size1)
          (pathWeight x))) := by
  rw [forwardBackward_grad_false, if_pos ⟨hi, ht, hk⟩,
    seqGrad_exact M x _ _ _ input.size2 _ hM hT hK hx hvalid t k ht]

theorem sample_length : zeroPadArrayLength (sampleTargets.val 0) sampleTargets.size1 = 1 := by
  decide

theorem sample_valid : ∀ j < zeroPadArrayLength (sampleTargets.val 0) sampleTargets.size1,
    1 ≤ sampleTargets.val 0 j ∧ sampleTargets.val 0 j < (sampleInput.size2 : Int) := by
  rw [sample_length]
  intro j hj
  have : j = 0 := by omega
  subst this
  simp [sampleTargets, sampleInput]

theorem sample_alignments :
    alignments sampleInput.size2 sampleInput.size1 (sampleTargets.val 0) sampleTargets.size1 =
      [[0, 1], [1, 0], [1, 1]] := by
  decide

/-- A target with more labels than the sequence has timesteps has no valid alignment. -/
theorem alignments_eq_nil_of_lt (tgt : Nat → Int) (maxLen K T : Nat)
    (hvalid : ∀ j < zeroPadArrayLength tgt maxLen, 1 ≤ tgt j ∧ tgt j < K)
    (h : T < zeroPadArrayLength tgt maxLen) : alignments K T tgt maxLen = [] := by
  have hlab := natLabels_ne_zero tgt _ K hvalid
  rw [alignments_eq tgt maxLen K T hvalid, List.filter_eq_nil_iff]
  intro p hp
  have hlen : p.length = T := ((mem_allPaths K T p).mp hp).1
  cases hr : run (natLabels tgt) (zeroPadArrayLength tgt maxLen) (some 0) p with
  | none => simp [accepts]
  | some s =>
    simp only [accepts, decide_eq_true_eq]
    rcases run_zero_bound _ _ hlab p s hr with ⟨_, h0⟩ | hb
    · omega
    · rw [hlen] at hb
      split_ifs at hb <;> omega

end Results

/-! ## The sequence of one timestep -/

section ToyLemmas

theorem Tensor1.eq_of {α : Type} (a b : Tensor1 α) (h0 : a.size0 = b.size0)
    (h1 : a.val = b.val) : a = b := by
  cases a; cases b
  simp only at h0 h1
  subst h0 h1
  rfl

/-- The effective length of a one-entry row that holds a label. -/
theorem zeroPadArrayLength_one (tgt : Nat → Int) (h : tgt 0 ≠ 0) :
    zeroPadArrayLength tgt 1 = 1 := by
  unfold zeroPadArrayLength
  rw [zeroPadArrayLength.loop, if_neg h]
  rfl

/-- The valid alignments of the target `[1]` in one timestep over two classes. -/
theorem alignments_toy (tgt : Nat → Int) (h : tgt 0 = 1) :
    alignments 2 1 tgt 1 = [[1]] := by
  have hl : targetLabels tgt 1 = [1] := by
    unfold targetLabels
    rw [zeroPadArrayLength_one tgt (by rw [h]; decide)]
    show [tgt 0] = [1]
    rw [h]
  unfold alignments
  rw [hl]
  decide

/-- Loss and gradient of the toy sequence: one timestep, two classes, target `[1]`. -/
theorem toy_exact (M : ℝ) (hM : 1 < M) (input : Tensor3 XReal) (targets : Tensor2 Int)
    (gradInput : Tensor3 XReal) (i : Nat) (x0 x1 : ℝ) (hi : i < input.size0)
    (hT : input.size1 = 1) (hK : input.size2 = 2) (hW : targets.size1 = 1)
    (htgt : targets.val i 0 = 1) (h0 : input.val i 0 0 = XReal.fin x0)
    (h1 : input.val i 0 1 = XReal.fin x1) :
    (forwardBackward (exactArith M) input targets false gradInput).losses.val i =
      XReal.fin (-x1) ∧
    (forwardBackward (exactArith M) input targets false gradInput).gradInput.val i 0 0 =
      XReal.fin 0 ∧
    (forwardBackward (exactArith M) input targets false gradInput).gradInput.val i 0 1 =
      XReal.fin (-1) := by
  have hx : ∀ t k, t < input.size1 → k < input.size2 →
      input.val i t k = XReal.fin ((fun _ k => if k = 0 then x0 else x1) t k) := by
    intro t k ht hk
    rw [hT] at ht
    rw [hK] at hk
    have ht0 : t = 0 := by omega
    subst ht0
    rcases Nat.lt_succ_iff_lt_or_eq.mp hk with h | h
    · have hk0 : k = 0 := by omega
      subst hk0
      simpa using h0
    · subst h
      simpa using h1
  have hvalid : ∀ j < zeroPadArrayLength (targets.val i) targets.size1,
      1 ≤ targets.val i j ∧ targets.val i j < input.size2 := by
    rw [hW, zeroPadArrayLength_one _ (by rw [htgt]; decide), hK]
    intro j hj
    have hj0 : j = 0 := by omega
    subst hj0
    rw [htgt]
    decide
  have hal : alignments input.size2 input.size1 (targets.val i) targets.size1 = [[1]] := by
    rw [hK, hT, hW]
    exact alignments_toy _ htgt
  have hw : pathWeight (fun _ k => if k = 0 then x0 else x1) [1] = Real.exp x1 := by
    rw [pathWeight_eq_wFrom]
    simp [wFrom, expScores]
  refine ⟨?_, ?_, ?_⟩
  · rw [loss_exact M hM input targets false gradInput i _ hi (by omega) (by omega) hx hvalid,
      hal, if_neg (by simp), lsum_singleton, hw, Real.log_exp]
  · rw [grad_exact M hM input targets gradInput i _ hi (by omega) (by omega) hx hvalid 0 0
      (by omega) (by omega), hal, lsum_singleton, lsum_singleton]
    simp
  · rw [grad_exact M hM input targets gradInput i _ hi (by omega) (by omega) hx hvalid 0 1
      (by omega) (by omega), hal, lsum_singleton, lsum_singleton, hw]
    simp [(Real.exp_pos x1).ne.symm]

end ToyLemmas

/-! ## The claims -/

/-- C1: in exact arithmetic, for a sequence with `inputLength ≥ 1`, finite scores
`x` and valid labels, the loss `forwardBackward` writes is `-log` of the total weight
`∏ₜ exp (x t (π t))` of the paths `π` over the classes whose collapse is the list of
effective target labels, and `+∞` when there is no such path. -/
theorem forwardBackward_loss_eq_neg_log_alignments (M : ℝ) (hM : 1 < M)
    (input : Tensor3 XReal) (targets : Tensor2 Int) (forwardOnly : Bool)
    (gradInput : Tensor3 XReal) (i : Nat) (x : Nat → Nat → ℝ)
    (hi : i < input.size0) (hT : 1 ≤ input.size1) (hK : 1 ≤ input.size2)
    (hx : ∀ t k, t < input.size1 → k < input.size2 → input.val i t k = XReal.fin (x t k))
    (hvalid : ∀ j < zeroPadArrayLength (targets.val i) targets.size1,
      1 ≤ targets.val i j ∧ targets.val i j < input.size2) :
    (forwardBackward (exactArith M) input targets forwardOnly gradInput).losses.val i =
      if alignments input.size2 input.size1 (targets.val i) targets.size1 = [] then XReal.pinf
      else XReal.fin (-(Real.log
        (lsum (alignments input.size2 input.size1 (targets.val i) targets.size1)
          (pathWeight x)))) :=
  loss_exact M hM input targets forwardOnly gradInput i x hi hT hK hx hvalid

/-- C1 at the sample batch: two timesteps, two classes, target `[1]`, scores `0`. -/
theorem forwardBackward_loss_eq_neg_log_alignments_witness :
    (1 : ℝ) < 2 ∧ 0 < sampleInput.size0 ∧ 1 ≤ sampleInput.size1 ∧ 1 ≤ sampleInput.size2 ∧
    (∀ t k, t < sampleInput.size1 → k < sampleInput.size2 →
      sampleInput.val 0 t k = XReal.fin ((fun _ _ => (0 : ℝ)) t k)) ∧
    (∀ j < zeroPadArrayLength (sampleTargets.val 0) sampleTargets.size1,
      1 ≤ sampleTargets.val 0 j ∧ sampleTargets.val 0 j < sampleInput.size2) ∧
    (forwardBackward (exactArith 2) sampleInput sampleTargets true sampleInput).losses.val 0 =
      if alignments sampleInput.size2 sampleInput.size1 (sampleTargets.val 0)
          sampleTargets.size1 = [] then XReal.pinf
      else XReal.fin (-(Real.log
        (lsum (alignments sampleInput.size2 sampleInput.size1 (sampleTargets.val 0)
          sampleTargets.size1) (pathWeight (fun _ _ => (0 : ℝ)))))) :=
  ⟨by norm_num, by decide, by decide, by decide, fun _ _ _ _ => rfl, sample_valid,
    forwardBackward_loss_eq_neg_log_alignments 2 (by norm_num) sampleInput sampleTargets true
      sampleInput 0 (fun _ _ => 0) (by decide) (by decide) (by decide) (fun _ _ _ _ => rfl)
      sample_valid⟩

/-- C2: in exact arithmetic, for a sequence with `inputLength ≥ 1`, finite scores `x`,
valid labels and a finite loss, the total weight `Z` of the valid alignments is positive
and `gradInput[i][t][k]` is `-(Zₜₖ / Z)`, with `Zₜₖ` the weight of the valid alignments
that emit class `k` at time `t`: minus the posterior probability of `k` at `t`. That
number is the derivative of the loss in the score of `k` at `t`: the loss written for
the scores `setScore x t k v` is `-log` of their alignment sum, and this function of `v`
has the derivative `-(Zₜₖ / Z)` at `v = x t k`. -/
theorem forwardBackward_grad_eq_neg_posterior (M : ℝ) (hM : 1 < M)
    (input : Tensor3 XReal) (targets : Tensor2 Int) (gradInput : Tensor3 XReal) (i : Nat)
    (x : Nat → Nat → ℝ) (hi : i < input.size0) (hT : 1 ≤ input.size1)
    (hK : 1 ≤ input.size2)
    (hx : ∀ t k, t < input.size1 → k < input.size2 → input.val i t k = XReal.fin (x t k))
    (hvalid : ∀ j < zeroPadArrayLength (targets.val i) targets.size1,
      1 ≤ targets.val i j ∧ targets.val i j < input.size2)
    (hfin : ∃ r, (forwardBackward (exactArith M) input targets false gradInput).losses.val i =
      XReal.fin r)
    (t k : Nat) (ht : t < input.size1) (hk : k < input.size2) :
    0 < lsum (alignments input.size2 input.size1 (targets.val i) targets.size1)
      (pathWeight x) ∧
    (forwardBackward (exactArith M) input targets false gradInput).gradInput.val i t k =
      XReal.fin (-(lsum (alignments input.size2 input.size1 (targets.val i) targets.size1)
          (fun p => if p[t]? = some k then pathWeight x p else 0) /
        lsum (alignments input.size2 input.size1 (targets.val i) targets.size1)
          (pathWeight x))) ∧
    (∀ (v : ℝ) (input' : Tensor3 XReal), input'.size0 = input.size0 →
      input'.size1 = input.size1 → input'.size2 = input.size2 →
      (∀ t' k', t' < input.size1 → k' < input.size2 →
        input'.val i t' k' = XReal.fin (setScore x t k v t' k')) →
      (forwardBackward (exactArith M) input' targets false gradInput).losses.val i =
        XReal.fin (-(Real.log
          (lsum (alignments input.size2 input.size1 (targets.val i) targets.size1)
            (pathWeight (setScore x t k v)))))) ∧
    HasDerivAt
      (fun v => -(Real.log
        (lsum (alignments input.size2 input.size1 (targets.val i) targets.size1)
          (pathWeight (setScore x t k v)))))
      (-(lsum (alignments input.size2 input.size1 (targets.val i) targets.size1)
          (fun p => if p[t]? = some k then pathWeight x p else 0) /
        lsum (alignments input.size2 input.size1 (targets.val i) targets.size1)
          (pathWeight x)))
      (x t k) := by
  have hne : alignments input.size2 input.size1 (targets.val i) targets.size1 ≠ [] := by
    intro hnil
    obtain ⟨r, hr⟩ := hfin
    rw [loss_exact M hM input targets false gradInput i x hi hT hK hx hvalid,
      if_pos hnil] at hr
    exact absurd hr (by simp)
  have hZ := alignments_pos x (targets.val i) targets.size1 input.size2 input.size1 hne
  refine ⟨hZ, grad_exact M hM input targets gradInput i x hi hT hK hx hvalid t k ht hk, ?_,
    hasDerivAt_neg_log_alignments x (targets.val i) targets.size1 input.size2 input.size1
      t k hZ⟩
  intro v input' h0 h1 h2 hx'
  rw [loss_exact M hM input' targets false gradInput i (setScore x t k v) (by omega)
    (by omega) (by omega) (by rw [h1, h2]; exact hx') (by rw [h2]; exact hvalid), h1, h2,
    if_neg hne]

/-- C2 at the sample batch, time `0`, class `1`. -/
theorem forwardBackward_grad_eq_neg_posterior_witness :
    (1 : ℝ) < 2 ∧ 0 < sampleInput.size0 ∧ 1 ≤ sampleInput.size1 ∧ 1 ≤ sampleInput.size2 ∧
    (∀ t k, t < sampleInput.size1 → k < sampleInput.size2 →
      sampleInput.val 0 t k = XReal.fin ((fun _ _ => (0 : ℝ)) t k)) ∧
    (∀ j < zeroPadArrayLength (sampleTargets.val 0) sampleTargets.size1,
      1 ≤ sampleTargets.val 0 j ∧ sampleTargets.val 0 j < sampleInput.size2) ∧
    (∃ r, (forwardBackward (exactArith 2) sampleInput sampleTargets false
      sampleInput).losses.val 0 = XReal.fin r) ∧
    0 < sampleInput.size1 ∧ 1 < sampleInput.size2 ∧
    (forwardBackward (exactArith 2) sampleInput sampleTargets false
        sampleInput).gradInput.val 0 0 1 =
      XReal.fin (-(lsum (alignments sampleInput.size2 sampleInput.size1 (sampleTargets.val 0)
          sampleTargets.size1)
          (fun p => if p[0]? = some 1 then pathWeight (fun _ _ => (0 : ℝ)) p else 0) /
        lsum (alignments sampleInput.size2 sampleInput.size1 (sampleTargets.val 0)
          sampleTargets.size1) (pathWeight (fun _ _ => (0 : ℝ))))) :=
  have hfin : ∃ r, (forwardBackward (exactArith 2) sampleInput sampleTargets false
      sampleInput).losses.val 0 = XReal.fin r := by
    rw [loss_exact 2 (by norm_num) sampleInput sampleTargets false sampleInput 0
      (fun _ _ => 0) (by decide) (by decide) (by decide) (fun _ _ _ _ => rfl) sample_valid,
      sample_alignments, if_neg (by simp)]
    exact ⟨_, rfl⟩
  ⟨by norm_num, by decide, by decide, by decide, fun _ _ _ _ => rfl, sample_valid, hfin,
    by decide, by decide,
    (forwardBackward_grad_eq_neg_posterior 2 (by norm_num) sampleInput sampleTargets
      sampleInput 0 (fun _ _ => 0) (by decide) (by decide) (by decide) (fun _ _ _ _ => rfl)
      sample_valid hfin 0 1 (by decide) (by decide)).2.1⟩

/-- C3: the row `naiveDecoding` produces for a sequence is the list of the kept
predictions (the `raw[t]` with `raw[t] ≠ 0` and `t = 0` or `raw[t] ≠ raw[t-1]`, in
order) followed by zeros up to length `T`; the rows `[0,0,3,3,0,5,5,5,0]`, `[1,1,1]`
and `[0,0,0]` give `[3,5]`, `[1]` and `[]`, each followed by zeros. -/
theorem naiveDecoding_collapse :
    (∀ (rawPred : Tensor2 Int) (i : Nat), i < rawPred.size0 →
      rowList ((naiveDecoding rawPred).1.val i) rawPred.size1 =
        keptPredictions (rawPred.val i) rawPred.size1 ++
          List.replicate
            (rawPred.size1 - (keptPredictions (rawPred.val i) rawPred.size1).length) 0) ∧
    rowList ((naiveDecoding
        { size0 := 1, size1 := 9,
          val := fun _ t => [0, 0, 3, 3, 0, 5, 5, 5, 0].getD t 0 }).1.val 0) 9 =
      [3, 5, 0, 0, 0, 0, 0, 0, 0] ∧
    rowList ((naiveDecoding
        { size0 := 1, size1 := 3, val := fun _ t => [1, 1, 1].getD t 0 }).1.val 0) 3 =
      [1, 0, 0] ∧
    rowList ((naiveDecoding
        { size0 := 1, size1 := 3, val := fun _ t => [0, 0, 0].getD t 0 }).1.val 0) 3 =
      [0, 0, 0] := by
  refine ⟨?_, by decide, by decide, by decide⟩
  intro rawPred i hi
  apply rowList_eq_append _ _ _ (keptPredictions_length_le _ _)
  intro j
  unfold naiveDecoding
  simp only [naive_fold_val, Tensor2.filled, hi, true_and]

/-- C4: `zeroPadArrayLength data maxLength` is the number `n` of leading non-zero
entries: `n ≤ maxLength`, `data[j] ≠ 0` for every `j < n`, and `n = maxLength` or
`data[n] = 0`. -/
theorem zeroPadArrayLength_count (data : Nat → Int) (maxLength : Nat) :
    zeroPadArrayLength data maxLength ≤ maxLength ∧
    (∀ j < zeroPadArrayLength data maxLength, data j ≠ 0) ∧
    (zeroPadArrayLength data maxLength = maxLength ∨
      data (zeroPadArrayLength data maxLength) = 0) :=
  zeroPadArrayLength.loop_spec data maxLength maxLength 0 (by omega) (by intro j hj; omega)

/-- C6: for the toy sequence (one timestep, two classes, target row `[1]`, finite
scores `x0`, `x1`) the loss is `-x1` and the gradient is `[0, -1]`. -/
theorem toy_loss_and_gradient (M : ℝ) (hM : 1 < M) (input : Tensor3 XReal)
    (targets : Tensor2 Int) (gradInput : Tensor3 XReal) (i : Nat) (x0 x1 : ℝ)
    (hi : i < input.size0) (hT : input.size1 = 1) (hK : input.size2 = 2)
    (hW : targets.size1 = 1) (htgt : targets.val i 0 = 1)
    (h0 : input.val i 0 0 = XReal.fin x0) (h1 : input.val i 0 1 = XReal.fin x1) :
    (forwardBackward (exactArith M) input targets false gradInput).losses.val i =
      XReal.fin (-x1) ∧
    (forwardBackward (exactArith M) input targets false gradInput).gradInput.val i 0 0 =
      XReal.fin 0 ∧
    (forwardBackward (exactArith M) input targets false gradInput).gradInput.val i 0 1 =
      XReal.fin (-1) :=
  toy_exact M hM input targets gradInput i x0 x1 hi hT hK hW htgt h0 h1

/-- C6 at the toy batch with scores `0`. -/
theorem toy_loss_and_gradient_witness :
    (1 : ℝ) < 2 ∧ 0 < toyInput.size0 ∧ toyInput.size1 = 1 ∧ toyInput.size2 = 2 ∧
    toyTargets.size1 = 1 ∧ toyTargets.val 0 0 = 1 ∧
    toyInput.val 0 0 0 = XReal.fin 0 ∧ toyInput.val 0 0 1 = XReal.fin 0 ∧
    ((forwardBackward (exactArith 2) toyInput toyTargets false toyInput).losses.val 0 =
      XReal.fin (-0) ∧
    (forwardBackward (exactArith 2) toyInput toyTargets false toyInput).gradInput.val 0 0 0 =
      XReal.fin 0 ∧
    (forwardBackward (exactArith 2) toyInput toyTargets false toyInput).gradInput.val 0 0 1 =
      XReal.fin (-1)) :=
  ⟨by norm_num, by decide, rfl, rfl, rfl, rfl, rfl, rfl,
    toy_loss_and_gradient 2 (by norm_num) toyInput toyTargets toyInput 0 0 0 (by decide)
      rfl rfl rfl rfl rfl rfl⟩

/-- C7: batch independence, for every scalar arithmetic: two sequences with the same
scores and the same target row (and the same widths) get the same loss and the same
gradient slice, whatever else their batches hold; in particular a sequence gets in its
batch what it gets in the batch that holds it alone. -/
theorem batch_independence {α : Type} (A : Scalar α) (input1 input2 : Tensor3 α)
    (targets1 targets2 : Tensor2 Int) (forwardOnly : Bool) (gradInput1 gradInput2 : Tensor3 α)
    (i j : Nat) (hi : i < input1.size0) (hj : j < input2.size0)
    (hT : input1.size1 = input2.size1) (hK : input1.size2 = input2.size2)
    (hW : targets1.size1 = targets2.size1) (hin : input1.val i = input2.val j)
    (htg : targets1.val i = targets2.val j) :
    ((forwardBackward A input1 targets1 forwardOnly gradInput1).losses.val i =
      (forwardBackward A input2 targets2 forwardOnly gradInput2).losses.val j ∧
     ∀ t k, (forwardBackward A input1 targets1 false gradInput1).gradInput.val i t k =
      (forwardBackward A input2 targets2 false gradInput2).gradInput.val j t k) ∧
    ((forwardBackward A input1 targets1 forwardOnly gradInput1).losses.val i =
      (forwardBackward A (input1.single i) (targets1.single i) forwardOnly
        gradInput1).losses.val 0 ∧
     ∀ t k, (forwardBackward A input1 targets1 false gradInput1).gradInput.val i t k =
      (forwardBackward A (input1.single i) (targets1.single i) false
        gradInput1).gradInput.val 0 t k) := by
  refine ⟨⟨?_, ?_⟩, ⟨?_, ?_⟩⟩
  · rw [forwardBackward_losses, forwardBackward_losses, if_pos hi, if_pos hj, hin, htg, hT, hW]
  · intro t k
    rw [forwardBackward_grad_false, forwardBackward_grad_false, hin, htg, hT, hK, hW]
    by_cases h : t < input2.size1 ∧ k < input2.size2
    · rw [if_pos ⟨hi, h⟩, if_pos ⟨hj, h⟩]
    · rw [if_neg (fun h' => h h'.2), if_neg (fun h' => h h'.2)]
  · rw [forwardBackward_losses, forwardBackward_losses, if_pos hi,
      if_pos (show 0 < (input1.single i).size0 from Nat.one_pos)]
    rfl
  · intro t k
    rw [forwardBackward_grad_false, forwardBackward_grad_false]
    by_cases h : t < input1.size1 ∧ k < input1.size2
    · rw [if_pos ⟨hi, h⟩,
        if_pos (show 0 < (input1.single i).size0 ∧ t < (input1.single i).size1 ∧
          k < (input1.single i).size2 from ⟨Nat.one_pos, h⟩)]
      rfl
    · rw [if_neg (fun h' => h h'.2), if_neg (fun h' => h h'.2)]

/-- C7 at the first sequence of the batch of two, compared with the sample batch that
holds the same sequence alone. -/
theorem batch_independence_witness :
    0 < pairInput.size0 ∧ 0 < sampleInput.size0 ∧ pairInput.size1 = sampleInput.size1 ∧
    pairInput.size2 = sampleInput.size2 ∧ pairTargets.size1 = sampleTargets.size1 ∧
    pairInput.val 0 = sampleInput.val 0 ∧ pairTargets.val 0 = sampleTargets.val 0 ∧
    (((forwardBackward (exactArith 2) pairInput pairTargets true pairInput).losses.val 0 =
      (forwardBackward (exactArith 2) sampleInput sampleTargets true toyInput).losses.val 0 ∧
     ∀ t k, (forwardBackward (exactArith 2) pairInput pairTargets false
        pairInput).gradInput.val 0 t k =
      (forwardBackward (exactArith 2) sampleInput sampleTargets false
        toyInput).gradInput.val 0 t k) ∧
    ((forwardBackward (exactArith 2) pairInput pairTargets true pairInput).losses.val 0 =
      (forwardBackward (exactArith 2) (pairInput.single 0) (pairTargets.single 0) true
        pairInput).losses.val 0 ∧
     ∀ t k, (forwardBackward (exactArith 2) pairInput pairTargets false
        pairInput).gradInput.val 0 t k =
      (forwardBackward (exactArith 2) (pairInput.single 0) (pairTargets.single 0) false
        pairInput).gradInput.val 0 t k)) :=
  ⟨by decide, by decide, rfl, rfl, rfl, rfl, rfl,
    batch_independence (exactArith 2) pairInput sampleInput pairTargets sampleTargets
      true pairInput toyInput 0 0 (by decide) (by decide) rfl rfl rfl rfl rfl⟩

/-- C8, as stated, fails: for the toy sequence (one timestep, three segments) the cell
`fvars[0][0]` lies below the band, `0 < S - 2 (inputLength - 0) = 1`, and holds the
blank score `0`, not `logZero`; the cell `bvars[0][2]` lies above the band,
`2 ≥ 2 (0 + 1)`, and holds `logOne`. -/
theorem band_counterexample :
    0 < toyInput.size1 ∧
    2 < 2 * zeroPadArrayLength (toyTargets.val 0) toyTargets.size1 + 1 ∧
    0 < 2 * zeroPadArrayLength (toyTargets.val 0) toyTargets.size1 + 1 -
      2 * (toyInput.size1 - 0) ∧
    (forwardVars (exactArith 2) (toyInput.val 0) (toyTargets.val 0) toyInput.size1
      (2 * zeroPadArrayLength (toyTargets.val 0) toyTargets.size1 + 1)).val 0 0 ≠
      LogMath.logZero (exactArith 2) ∧
    2 ≥ 2 * (0 + 1) ∧
    (backwardVars (exactArith 2) (toyInput.val 0) (toyTargets.val 0) toyInput.size1
      (2 * zeroPadArrayLength (toyTargets.val 0) toyTargets.size1 + 1)).val 0 2 ≠
      LogMath.logZero (exactArith 2) := by
  refine ⟨by decide, by decide, by decide, ?_, by decide, ?_⟩
  · rw [forwardVars_val _ _ _ _ _ (by decide), if_pos (by decide), logZero_exact]
    unfold fwdRows fwdRow0
    rw [if_neg (by decide), if_pos rfl]
    simp [toyInput]
  · rw [backwardVars_val _ _ _ _ _ (by decide), if_pos (by decide), logZero_exact]
    have e : toyInput.size1 - 1 - 0 = 0 := by decide
    rw [e]
    unfold bwdRows bwdRowLast
    rw [if_neg (by decide), if_pos (by decide), logOne_exact]
    simp

/-- C8, amended: for every scalar arithmetic and every sequence with `inputLength ≥ 1`,
after both passes `fvars[t][s]` is `logZero` when `s ≥ 2 (t + 1)`, and when `t ≥ 1` and
`s < S - 2 (inputLength - t)`; `bvars[t][s]` is `logZero` when
`s < S - 2 (inputLength - t)`, and when `t < inputLength - 1` and `s ≥ 2 (t + 1)`. The
rows written by the initialisation (`t = 0` of `fvars`, `t = inputLength - 1` of `bvars`)
are bounded on one side only. -/
theorem band_invariant {α : Type} (A : Scalar α) (input_i : Nat → Nat → α)
    (targetData_i : Nat → Int) (inputLength nSegment : Nat) (hT : 1 ≤ inputLength)
    (t s : Nat) (ht : t < inputLength) :
    ((2 * (t + 1) ≤ s ∨ (1 ≤ t ∧ s < nSegment - 2 * (inputLength - t))) →
      (forwardVars A input_i targetData_i inputLength nSegment).val t s =
        LogMath.logZero A) ∧
    ((s < nSegment - 2 * (inputLength - t) ∨ (t + 1 < inputLength ∧ 2 * (t + 1) ≤ s)) →
      (backwardVars A input_i targetData_i inputLength nSegment).val t s =
        LogMath.logZero A) :=
  ⟨forwardVars_outside A input_i targetData_i inputLength nSegment hT t s ht,
    backwardVars_outside A input_i targetData_i inputLength nSegment hT t s ht⟩

/-- C8 at the sample sequence: time `1`, segment `0`. -/
theorem band_invariant_witness :
    1 ≤ sampleInput.size1 ∧ 1 < sampleInput.size1 ∧
    (((2 * (1 + 1) ≤ 0 ∨ (1 ≤ 1 ∧ 0 < 3 - 2 * (sampleInput.size1 - 1))) →
      (forwardVars (exactArith 2) (sampleInput.val 0) (sampleTargets.val 0) sampleInput.size1
        3).val 1 0 = LogMath.logZero (exactArith 2)) ∧
    ((0 < 3 - 2 * (sampleInput.size1 - 1) ∨ (1 + 1 < sampleInput.size1 ∧ 2 * (1 + 1) ≤ 0)) →
      (backwardVars (exactArith 2) (sampleInput.val 0) (sampleTargets.val 0)
        sampleInput.size1 3).val 1 0 = LogMath.logZero (exactArith 2))) :=
  ⟨by decide, by decide,
    band_invariant (exactArith 2) (sampleInput.val 0) (sampleTargets.val 0) sampleInput.size1
      3 (by decide) 1 0 (by decide)⟩

/-- C9: with `forwardOnly` set, `forwardBackward` returns the gradient buffer it was
given, sizes and entries unchanged, and the losses it returns are those of the full
run. -/
theorem forwardOnly_keeps_gradInput {α : Type} (A : Scalar α) (input : Tensor3 α)
    (targets : Tensor2 Int) (gradInput : Tensor3 α) :
    (forwardBackward A input targets true gradInput).gradInput = gradInput ∧
    (forwardBackward A input targets true gradInput).losses =
      (forwardBackward A input targets false gradInput).losses := by
  refine ⟨forwardBackward_grad_true A input targets gradInput, ?_⟩
  apply Tensor1.eq_of
  · rw [forwardBackward_losses_size, forwardBackward_losses_size]
  · funext i
    rw [forwardBackward_losses, forwardBackward_losses]

/-- C10: `logAdd` is commutative on all values of the exact log domain, `logZero`,
`+∞` and `nan` included. -/
theorem logAdd_comm (M : ℝ) (a b : XReal) :
    LogMath.logAdd (exactArith M) a b = LogMath.logAdd (exactArith M) b a :=
  logAdd_comm_exact M a b

/-! ## The log domain: closed forms and sentinels -/

theorem expLimit_exact_pos {M : ℝ} (hM : 0 < M) :
    LogMath.expLimit (exactArith M) = XReal.fin (Real.log M) := by
  have h0 : ¬ M < 0 := by linarith
  have h1 : M ≠ 0 := by linarith
  simp [LogMath.expLimit, LogMath.expMax, exactArith, XReal.log, h0, h1]

/-- The argument `safeExp` gets inside `logAdd` on finite operands. -/
theorem logAdd_arg_fin (M : ℝ) (x y : ℝ) :
    (exactArith M).sub
      (if (exactArith M).lt (XReal.fin x) (XReal.fin y) then (XReal.fin y, XReal.fin x)
        else (XReal.fin x, XReal.fin y)).2
      (if (exactArith M).lt (XReal.fin x) (XReal.fin y) then (XReal.fin y, XReal.fin x)
        else (XReal.fin x, XReal.fin y)).1 = XReal.fin (min x y - max x y) := by
  simp only [exactArith, XReal.lt, decide_eq_true_eq]
  by_cases h : x < y
  · rw [if_pos h, min_eq_left h.le, max_eq_right h.le]
    simp [XReal.sub, XReal.neg, XReal.add, sub_eq_add_neg]
  · rw [if_neg h, min_eq_right (not_lt.mp h), max_eq_left (not_lt.mp h)]
    simp [XReal.sub, XReal.neg, XReal.add, sub_eq_add_neg]

theorem logAdd_exact_formula {M : ℝ} (hM : 1 < M) (a b : XReal)
    (ha : a = XReal.ninf ∨ ∃ x, a = XReal.fin x)
    (hb : b = XReal.ninf ∨ ∃ y, b = XReal.fin y) :
    LogMath.logAdd (exactArith M) a b =
      XReal.log (XReal.add (XReal.exp a) (XReal.exp b)) := by
  rcases ha with rfl | ⟨x, rfl⟩
  · rw [logAdd_ninf_left]
    rcases hb with rfl | ⟨y, rfl⟩
    · simp [XReal.exp, XReal.add, XReal.log]
    · have h1 : ¬ Real.exp y < 0 := not_lt.mpr (Real.exp_pos y).le
      simp [XReal.exp, XReal.add, XReal.log, h1, (Real.exp_pos y).ne.symm]
  · rcases hb with rfl | ⟨y, rfl⟩
    · rw [logAdd_ninf_right]
      have h1 : ¬ Real.exp x < 0 := not_lt.mpr (Real.exp_pos x).le
      simp [XReal.exp, XReal.add, XReal.log, h1, (Real.exp_pos x).ne.symm]
    · rw [logAdd_fin hM]
      have h0 : 0 < Real.exp x + Real.exp y := add_pos (Real.exp_pos x) (Real.exp_pos y)
      simp [XReal.exp, XReal.add, XReal.log, not_lt.mpr h0.le, h0.ne.symm]

theorem logMul_ninf_right (M : ℝ) (a : XReal) :
    LogMath.logMul (exactArith M) a XReal.ninf = XReal.ninf := by
  unfold LogMath.logMul
  rw [logZero_exact]
  cases a <;> simp [exactArith, XReal.eq]

theorem logMul_ninf_left (M : ℝ) (b : XReal) :
    LogMath.logMul (exactArith M) XReal.ninf b = XReal.ninf := by
  unfold LogMath.logMul
  rw [logZero_exact]
  simp [exactArith, XReal.eq]

theorem logDiv_ninf_right (M : ℝ) (a : XReal) (ha : a ≠ XReal.ninf) :
    LogMath.logDiv (exactArith M) a XReal.ninf = XReal.pinf := by
  unfold LogMath.logDiv
  rw [logZero_exact, logInfinity_exact]
  cases a <;> simp_all [exactArith, XReal.eq]

theorem logDiv_ninf_left (M : ℝ) (b : XReal) :
    LogMath.logDiv (exactArith M) XReal.ninf b = XReal.ninf := by
  unfold LogMath.logDiv
  rw [logZero_exact]
  simp [exactArith, XReal.eq]

theorem safeExp_of_ge {M : ℝ} (hM : 0 < M) (a : XReal)
    (h : (exactArith M).ge a (LogMath.expLimit (exactArith M)) = true) :
    LogMath.safeExp (exactArith M) a = LogMath.expMax (exactArith M) := by
  unfold LogMath.safeExp
  rw [expLimit_exact_pos hM] at h ⊢
  rw [logZero_exact]
  cases a with
  | ninf => simp [exactArith, XReal.ge] at h
  | fin x => rw [if_neg (by simp [exactArith, XReal.eq]), if_pos h]
  | pinf => rw [if_neg (by simp [exactArith, XReal.eq]), if_pos h]
  | nan => simp [exactArith, XReal.ge] at h

theorem safeExp_of_not_ge (M : ℝ) (a : XReal) (ha : a ≠ XReal.ninf)
    (h : (exactArith M).ge a (LogMath.expLimit (exactArith M)) = false) :
    LogMath.safeExp (exactArith M) a = (exactArith M).exp a := by
  unfold LogMath.safeExp
  rw [logZero_exact]
  have e : (exactArith M).eq a XReal.ninf = false := by
    cases a <;> simp_all [exactArith, XReal.eq]
  rw [if_neg (by rw [e]; simp), if_neg (by rw [h]; simp)]

theorem safeExp_min {M : ℝ} (hM : 0 < M) (a : XReal) (ha : a ≠ XReal.nan) :
    LogMath.safeExp (exactArith M) a = XReal.fin (minExp M a) ∧
      0 ≤ minExp M a ∧ minExp M a ≤ M := by
  cases a with
  | ninf =>
    refine ⟨?_, ?_, ?_⟩
    · rw [safeExp_ninf]; simp [minExp, hM.le]
    · simp [minExp, hM.le]
    · simp [minExp, hM.le]
  | fin x =>
    refine ⟨?_, le_min (Real.exp_pos x).le hM.le, min_le_right _ _⟩
    by_cases h : Real.log M ≤ x
    · have hge : (exactArith M).ge (XReal.fin x) (LogMath.expLimit (exactArith M)) = true := by
        rw [expLimit_exact_pos hM]; simp [exactArith, XReal.ge, h]
      rw [safeExp_of_ge hM _ hge]
      have : M ≤ Real.exp x := by
        rw [← Real.exp_log hM]; exact Real.exp_le_exp.mpr h
      simp [minExp, min_eq_right this, LogMath.expMax, exactArith]
    · have hge : (exactArith M).ge (XReal.fin x) (LogMath.expLimit (exactArith M)) = false := by
        rw [expLimit_exact_pos hM]; simp [exactArith, XReal.ge, h]
      rw [safeExp_of_not_ge M _ (by simp) hge]
      have : Real.exp x ≤ M := by
        rw [← Real.exp_log hM]; exact Real.exp_le_exp.mpr (not_le.mp h).le
      simp [minExp, min_eq_left this, exactArith, XReal.exp]
  | pinf =>
    refine ⟨?_, hM.le, le_refl _⟩
    have hge : (exactArith M).ge XReal.pinf (LogMath.expLimit (exactArith M)) = true := by
      rw [expLimit_exact_pos hM]; simp [exactArith, XReal.ge]
    rw [safeExp_of_ge hM _ hge]
    simp [minExp, LogMath.expMax, exactArith]
  | nan => exact absurd rfl ha

/-! ## Entries that are zero by construction -/

/-- An entry of `logDeDy` whose class belongs to no segment keeps its initial value. -/
theorem logDeDy_untouched {α : Type} (A : Scalar α) (f b : Nat → α) (tgt : Nat → Int)
    (K S k : Nat)
    (h : ∀ s < S, (if s % 2 = 1 then tgt (s / 2) else blankLabel).toNat ≠ k) :
    (logDeDy A f b tgt K S).val k = LogMath.logZero A := by
  unfold logDeDy
  induction S with
  | zero => rfl
  | succ n ih =>
    rw [List.range_succ, List.foldl_append, List.foldl_cons, List.foldl_nil, tensor1_set_val,
      if_neg (fun e => h n (Nat.lt_succ_self n) e.symm)]
    exact ih (fun s hs => h s (Nat.lt_succ_of_lt hs))

/-- All entries of `logDeDy` are `logZero` when every product is. -/
theorem logDeDy_all_ninf (M : ℝ) (f b : Nat → XReal) (tgt : Nat → Int) (K S : Nat)
    (h : ∀ s < S, LogMath.logMul (exactArith M) (f s) (b s) = XReal.ninf) (k : Nat) :
    (logDeDy (exactArith M) f b tgt K S).val k = XReal.ninf := by
  unfold logDeDy
  induction S generalizing k with
  | zero => rfl
  | succ n ih =>
    rw [List.range_succ, List.foldl_append, List.foldl_cons, List.foldl_nil, tensor1_set_val,
      h n (Nat.lt_succ_self n), logAdd_ninf_right]
    have ih' := fun k => ih (fun s hs => h s (Nat.lt_succ_of_lt hs)) k
    split_ifs <;> exact ih' _

/-- The gradient of a class that belongs to no segment. -/
theorem seqGrad_off_target (M : ℝ) (input_i : Nat → Nat → XReal) (tgt : Nat → Int)
    (T K maxLen t k : Nat) (hk : k ≠ 0)
    (hlab : ∀ j < zeroPadArrayLength tgt maxLen, tgt j ≠ (k : Int)) :
    seqGrad (exactArith M) input_i tgt T K maxLen t k = XReal.fin 0 := by
  unfold seqGrad
  rw [logDeDy_untouched, logZero_exact, neg_safeExp_logDiv_ninf]
  intro s hs
  split_ifs with h1
  · intro e
    have hj : s / 2 < zeroPadArrayLength tgt maxLen := by omega
    apply hlab _ hj
    omega
  · intro e
    apply hk
    rw [← e]
    rfl

/-- More labels than timesteps: every band of the two loops is empty. -/
theorem band_empty (T L t : Nat) (hL : T < L) (ht : t < T) :
    sEnd (2 * L + 1) t ≤ sBegin T (2 * L + 1) t := by
  rw [sBegin_eq, sEnd_eq]
  omega

theorem seqLogProb_infeasible (M : ℝ) (input_i : Nat → Nat → XReal) (tgt : Nat → Int)
    (T maxLen : Nat) (hT : 1 ≤ T) (hL : T < zeroPadArrayLength tgt maxLen) :
    seqLogProb (exactArith M) input_i tgt T maxLen = XReal.ninf := by
  unfold seqLogProb logLikelihood
  simp only []
  rw [if_pos (by omega),
    forwardVars_outside _ _ _ _ _ hT _ _ (by omega) (Or.inl (by omega)),
    forwardVars_outside _ _ _ _ _ hT _ _ (by omega) (Or.inl (by omega)),
    logZero_exact, logAdd_ninf_left]

theorem seqGrad_infeasible (M : ℝ) (input_i : Nat → Nat → XReal) (tgt : Nat → Int)
    (T K maxLen : Nat) (hT : 1 ≤ T) (hL : T < zeroPadArrayLength tgt maxLen)
    (t k : Nat) (ht : t < T) :
    seqGrad (exactArith M) input_i tgt T K maxLen t k = XReal.fin 0 := by
  unfold seqGrad
  rw [logDeDy_all_ninf, neg_safeExp_logDiv_ninf]
  intro s hs
  by_cases h : 2 * (t + 1) ≤ s
  · rw [forwardVars_outside _ _ _ _ _ hT _ _ ht (Or.inl h), logZero_exact, logMul_ninf_left]
  · rw [backwardVars_outside _ _ _ _ _ hT _ _ ht (Or.inl (by omega)), logZero_exact,
      logMul_ninf_right]

/-! ## Decoding the expanded segment sequence -/

theorem zeroPadArrayLength_eq (data : Nat → Int) (maxLength n : Nat) (hn : n ≤ maxLength)
    (h1 : ∀ j < n, data j ≠ 0) (h2 : n = maxLength ∨ data n = 0) :
    zeroPadArrayLength data maxLength = n := by
  obtain ⟨r1, r2, r3⟩ := zeroPadArrayLength.loop_spec data maxLength maxLength 0 (by omega)
    (by intro j hj; omega)
  have e : zeroPadArrayLength data maxLength =
    zeroPadArrayLength.loop data maxLength maxLength 0 := rfl
  rw [e]
  rcases Nat.lt_trichotomy (zeroPadArrayLength.loop data maxLength maxLength 0) n with h | h | h
  · rcases r3 with r3 | r3
    · omega
    · exact absurd r3 (h1 _ h)
  · exact h
  · rcases h2 with h2 | h2
    · omega
    · exact absurd h2 (r2 _ h)

theorem keptPredictions_congr (raw raw' : Nat → Int) (T : Nat)
    (h : ∀ t < T, raw t = raw' t) : keptPredictions raw T = keptPredictions raw' T := by
  induction T with
  | zero => rfl
  | succ n ih =>
    have ih' := ih (fun t ht => h t (Nat.lt_succ_of_lt ht))
    unfold keptPredictions at *
    rw [List.range_succ, List.filter_append, List.map_append, List.filter_append,
      List.map_append, ih']
    congr 1
    have e0 : raw n = raw' n := h n (Nat.lt_succ_self n)
    have e1 : n ≠ 0 → raw (n - 1) = raw' (n - 1) := fun hn => h (n - 1) (by omega)
    by_cases hn : n = 0
    · simp [List.filter_cons, hn, e0]
      subst hn
      rw [e0]
      split_ifs <;> simp_all
    · rw [List.filter_cons, List.filter_cons, e0, e1 hn]
      split_ifs <;> simp [e0]

/-- The kept predictions of the expanded segment sequence of non-zero labels are the
labels. -/
theorem keptPredictions_segLabel (l : Nat → Int) (L : Nat) (hl : ∀ j < L, l j ≠ 0) :
    keptPredictions (segLabel l) (2 * L + 1) = (List.range L).map l := by
  induction L with
  | zero =>
    simp [keptPredictions, segLabel, blankLabel, List.range_succ]
  | succ n ih =>
    have ih' := ih (fun j hj => hl j (Nat.lt_succ_of_lt hj))
    have e : 2 * (n + 1) + 1 = (2 * n + 1) + 1 + 1 := by ring
    unfold keptPredictions at *
    rw [e, List.range_succ, List.range_succ, List.filter_append, List.filter_append,
      List.map_append, List.map_append, ih', List.range_succ, List.map_append,
      List.append_assoc]
    congr 1
    have a1 : segLabel l (2 * n + 1) = l n := by
      unfold segLabel
      rw [if_pos (by omega)]
      congr 1
      omega
    have a2 : segLabel l (2 * n + 1 + 1) = 0 := by
      unfold segLabel
      rw [if_neg (by omega)]
      rfl
    have a3 : segLabel l (2 * n) = 0 := by
      unfold segLabel
      rw [if_neg (by omega)]
      rfl
    have hn := hl n (Nat.lt_succ_self n)
    simp [List.filter_cons, a1, a2, a3, hn, hn.symm]


/-- The row `naiveDecoding` writes for sequence `i`. -/
theorem naiveDecoding_val (rawPred : Tensor2 Int) (i j : Nat) (hi : i < rawPred.size0) :
    (naiveDecoding rawPred).1.val i j =
      if j < (keptPredictions (rawPred.val i) rawPred.size1).length
      then (keptPredictions (rawPred.val i) rawPred.size1).getD j 0 else 0 := by
  unfold naiveDecoding
  simp only [naive_fold_val, Tensor2.filled, hi, true_and]

/-! ## What the batch loop reads of the targets -/

/-- The loop body reads the targets through their width and through row `i` only. -/
theorem sequenceStep_targets_congr {α : Type} (A : Scalar α) (input : Tensor3 α)
    (targets targets' : Tensor2 Int) (forwardOnly : Bool) (st : Outputs α) (i : Nat)
    (hw : targets'.size1 = targets.size1) (hv : targets'.val i = targets.val i) :
    sequenceStep A input targets' forwardOnly st i =
      sequenceStep A input targets forwardOnly st i := by
  unfold sequenceStep
  rw [hw, hv]

theorem forwardBackward_targets_congr {α : Type} (A : Scalar α) (input : Tensor3 α)
    (targets targets' : Tensor2 Int) (forwardOnly : Bool) (gradInput : Tensor3 α)
    (hw : targets'.size1 = targets.size1)
    (hv : ∀ i < input.size0, targets'.val i = targets.val i) :
    forwardBackward A input targets' forwardOnly gradInput =
      forwardBackward A input targets forwardOnly gradInput := by
  unfold forwardBackward
  simp only []
  apply List.foldl_ext
  intro st i hi
  exact sequenceStep_targets_congr A input targets targets' forwardOnly st i hw
    (hv i (List.mem_range.mp hi))

/-! ## Where the passes read the target row -/

/-- The reads of the forward pass stay below the effective target length. -/
theorem forwardVars_reads_lt (T L p : Nat) (h : p ∈ forwardVars.reads T (2 * L + 1)) :
    p < L := by
  unfold forwardVars.reads at h
  rw [List.mem_append] at h
  rcases h with h | h
  · split_ifs at h with h1
    · simp at h; omega
    · simp at h
  · rw [List.mem_flatMap] at h
    obtain ⟨t, _, h⟩ := h
    rw [List.mem_flatMap] at h
    obtain ⟨s, hs, h⟩ := h
    rw [List.mem_range'_1, sEnd_eq] at hs
    unfold forwardCell.reads at h
    split_ifs at h with h1 h2
    · simp at h; omega
    · simp at h; omega
    · simp at h

/-- The reads of the gradient computation stay below the effective target length. -/
theorem gradient_reads_lt (T L p : Nat) (h : p ∈ gradient.reads T (2 * L + 1)) :
    p < L := by
  unfold gradient.reads logDeDy.reads at h
  rw [List.mem_flatMap] at h
  obtain ⟨t, _, h⟩ := h
  rw [List.mem_flatMap] at h
  obtain ⟨s, hs, h⟩ := h
  rw [List.mem_range] at hs
  split_ifs at h with h1
  · simp at h; omega
  · simp at h

/-- The reads of the backward pass go up to the effective target length, included. -/
theorem backwardVars_reads_le (T L p : Nat) (h : p ∈ backwardVars.reads T (2 * L + 1)) :
    p ≤ L := by
  unfold backwardVars.reads at h
  rw [List.mem_flatMap] at h
  obtain ⟨t, _, h⟩ := h
  rw [List.mem_flatMap] at h
  obtain ⟨s, hs, h⟩ := h
  rw [List.mem_range'_1, sEnd_eq] at hs
  unfold backwardCell.reads at h
  split_ifs at h with h1 h2
  · simp at h; omega
  · simp at h; omega
  · simp at h; omega

/-- With two timesteps more than labels, the backward pass reads position `L`. -/
theorem backwardVars_reads_end (T L : Nat) (h : L + 2 ≤ T) :
    L ∈ backwardVars.reads T (2 * L + 1) := by
  unfold backwardVars.reads
  rw [List.mem_flatMap]
  refine ⟨L, ?_, ?_⟩
  · rw [List.mem_reverse, List.mem_range]; omega
  · rw [List.mem_flatMap]
    refine ⟨2 * L, ?_, ?_⟩
    · rw [List.mem_range'_1, sBegin_eq, sEnd_eq]; omega
    · unfold backwardCell.reads
      rw [if_neg (by omega)]
      simp

/-! ## The two passes agree at every timestep -/

theorem segmentLogSum_Lg (M : ℝ) (hM : 1 < M) (f b : Nat → ℝ) (hf : ∀ s, 0 ≤ f s)
    (hb : ∀ s, 0 ≤ b s) (S : Nat) :
    segmentLogSum (exactArith M) (fun s => Lg (f s)) (fun s => Lg (b s)) S =
      Lg (lsum (List.range S) (fun s => f s * b s)) := by
  unfold segmentLogSum
  induction S with
  | zero =>
    simp only [List.range_zero, List.foldl_nil, lsum_nil, Lg_zero]
    rfl
  | succ n ih =>
    rw [List.range_succ, List.foldl_append, List.foldl_cons, List.foldl_nil, lsum_append,
      lsum_singleton, ih, logMul_Lg M (hf n) (hb n), logAdd_Lg hM _ (mul_nonneg (hf n) (hb n))]
    apply lsum_nonneg
    intro s _
    exact mul_nonneg (hf s) (hb s)

theorem sumClasses_fin (M : ℝ) (row : Nat → XReal) (g : Nat → ℝ) (K : Nat)
    (h : ∀ k < K, row k = XReal.fin (g k)) :
    sumClasses (exactArith M) row K = XReal.fin (lsum (List.range K) g) := by
  unfold sumClasses
  induction K with
  | zero =>
    simp only [List.range_zero, List.foldl_nil, lsum_nil]
    rfl
  | succ n ih =>
    rw [List.range_succ, List.foldl_append, List.foldl_cons, List.foldl_nil, lsum_append,
      lsum_singleton, ih (fun k hk => h k (Nat.lt_succ_of_lt hk)), h n (Nat.lt_succ_self n)]
    rfl

section Consistency

variable (M : ℝ) (x : Nat → Nat → ℝ) (input_i : Nat → Nat → XReal) (tgt : Nat → Int)
  (maxLen K T : Nat)

/-- Every valid alignment emits exactly one class at time `t`. -/
theorem lsum_alignments_classes (t : Nat) (ht : t < T) :
    lsum (List.range K) (fun k => lsum (alignments K T tgt maxLen)
        (fun p => if p[t]? = some k then pathWeight x p else 0)) =
      lsum (alignments K T tgt maxLen) (pathWeight x) := by
  rw [lsum_comm]
  apply lsum_congr
  intro p hp
  have hp' : p ∈ allPaths K T := (List.mem_filter.mp hp).1
  obtain ⟨hlen, hlt⟩ := (mem_allPaths K T p).mp hp'
  have htp : t < p.length := by omega
  have e : lsum (List.range K) (fun k => if p[t]? = some k then pathWeight x p else 0) =
      lsum (List.range K) (fun k => if k = p[t] then pathWeight x p else 0) := by
    apply lsum_congr
    intro k _
    rw [List.getElem?_eq_getElem htp]
    by_cases hk : k = p[t]
    · rw [if_pos hk, if_pos (by rw [hk])]
    · rw [if_neg hk, if_neg (fun h => hk (Option.some.inj h).symm)]
  rw [e, lsum_range_single K p[t] (fun _ => pathWeight x p),
    if_pos (hlt _ (List.getElem_mem htp))]

/-- The products of the two variables of a timestep sum to the total weight of the valid
alignments. -/
theorem lsum_fwdVal_mul_bwdVal (hK : 1 ≤ K)
    (hvalid : ∀ j < zeroPadArrayLength tgt maxLen, 1 ≤ tgt j ∧ tgt j < K)
    (t : Nat) (ht : t < T) :
    lsum (List.range (2 * zeroPadArrayLength tgt maxLen + 1))
        (fun s => fwdVal x tgt (zeroPadArrayLength tgt maxLen) K T t s *
          bwdVal x tgt (zeroPadArrayLength tgt maxLen) K T t s) =
      lsum (alignments K T tgt maxLen) (pathWeight x) := by
  have hlabK := natLabels_lt tgt _ K hvalid
  rw [← lsum_alignments_classes x tgt maxLen K T t ht]
  have e : ∀ k, lsum (alignments K T tgt maxLen)
      (fun p => if p[t]? = some k then pathWeight x p else 0) = _ :=
    fun k => lsum_alignments_at x tgt maxLen K T hvalid t k ht
  rw [lsum_congr _ _ _ (fun k _ => e k), lsum_comm]
  apply lsum_congr
  intro s hs
  rw [List.mem_range] at hs
  rw [fwdVal_mul_bwdVal x tgt maxLen K T hvalid t s ht (by omega)]
  have e2 : lsum (List.range K) (fun k => if segClass (natLabels tgt) s = k
      then alphaC (expScores x) (natLabels tgt) (zeroPadArrayLength tgt maxLen) K (t + 1) s *
        betaC (expScores x) (natLabels tgt) (zeroPadArrayLength tgt maxLen) K (t + 1)
          (T - 1 - t) s
      else 0) =
      lsum (List.range K) (fun k => if k = segClass (natLabels tgt) s
      then alphaC (expScores x) (natLabels tgt) (zeroPadArrayLength tgt maxLen) K (t + 1) s *
        betaC (expScores x) (natLabels tgt) (zeroPadArrayLength tgt maxLen) K (t + 1)
          (T - 1 - t) s
      else 0) := by
    apply lsum_congr
    intro k _
    by_cases hk : k = segClass (natLabels tgt) s
    · rw [if_pos hk, if_pos hk.symm]
    · rw [if_neg hk, if_neg (fun h => hk h.symm)]
  rw [e2, lsum_range_single K _ (fun _ => _),
    if_pos (segClass_lt _ _ _ (by omega) hlabK s (by omega))]

/-- The log-sum over the segments of the products of a timestep is the
log-likelihood. -/
theorem segmentLogSum_seq_exact (hM : 1 < M) (hT : 1 ≤ T) (hK : 1 ≤ K)
    (hx : ∀ t k, t < T → k < K → input_i t k = XReal.fin (x t k))
    (hvalid : ∀ j < zeroPadArrayLength tgt maxLen, 1 ≤ tgt j ∧ tgt j < K)
    (t : Nat) (ht : t < T) :
    segmentLogSum (exactArith M)
      ((forwardVars (exactArith M) input_i tgt T
        (2 * zeroPadArrayLength tgt maxLen + 1)).val t)
      ((backwardVars (exactArith M) input_i tgt T
        (2 * zeroPadArrayLength tgt maxLen + 1)).val t)
      (2 * zeroPadArrayLength tgt maxLen + 1) =
      seqLogProb (exactArith M) input_i tgt T maxLen := by
  have hf : (forwardVars (exactArith M) input_i tgt T
      (2 * zeroPadArrayLength tgt maxLen + 1)).val t =
      fun s => Lg (fwdVal x tgt (zeroPadArrayLength tgt maxLen) K T t s) := by
    funext s
    rw [forwardVars_val _ _ _ _ _ hT, if_pos ht,
      fwdRows_exact M x input_i tgt _ K T hM hvalid hx hK t ht]
  have hb : (backwardVars (exactArith M) input_i tgt T
      (2 * zeroPadArrayLength tgt maxLen + 1)).val t =
      fun s => Lg (bwdVal x tgt (zeroPadArrayLength tgt maxLen) K T t s) := by
    funext s
    rw [backwardVars_val _ _ _ _ _ hT, if_pos ht,
      bwdRows_exact M x input_i tgt _ K T hM hvalid hx hK (T - 1 - t) (by omega)]
    congr 2
    omega
  rw [hf, hb, segmentLogSum_Lg M hM _ _ (fwdVal_nonneg x tgt _ K T t)
    (bwdVal_nonneg x tgt _ K T t), lsum_fwdVal_mul_bwdVal x tgt maxLen K T hK hvalid t ht,
    seqLogProb_exact M hM x input_i tgt maxLen K T hT hK hx hvalid]

/-- Minus the shares of the classes sum to `-1`. -/
theorem lsum_neg_share (t : Nat) (ht : t < T)
    (hZ : 0 < lsum (alignments K T tgt maxLen) (pathWeight x)) :
    lsum (List.range K) (fun k => -(lsum (alignments K T tgt maxLen)
        (fun p => if p[t]? = some k then pathWeight x p else 0) /
      lsum (alignments K T tgt maxLen) (pathWeight x))) = -1 := by
  have e : ∀ k, -(lsum (alignments K T tgt maxLen)
        (fun p => if p[t]? = some k then pathWeight x p else 0) /
      lsum (alignments K T tgt maxLen) (pathWeight x)) =
      lsum (alignments K T tgt maxLen)
        (fun p => if p[t]? = some k then pathWeight x p else 0) *
      (-(lsum (alignments K T tgt maxLen) (pathWeight x))⁻¹) := by
    intro k
    rw [div_eq_mul_inv, mul_neg]
  rw [lsum_congr _ _ _ (fun k _ => e k), lsum_mul_right,
    lsum_alignments_classes x tgt maxLen K T t ht, mul_neg, mul_inv_cancel₀ hZ.ne.symm]

end Consistency

/-! ## Targets as long as the sequence -/

theorem mergeRepeats_length_le : ∀ p : List Nat, (mergeRepeats p).length ≤ p.length
  | [] => by simp [mergeRepeats]
  | [_] => by simp [mergeRepeats]
  | a :: b :: r => by
    have ih := mergeRepeats_length_le (b :: r)
    rw [mergeRepeats]
    split_ifs
    · exact Nat.le_succ_of_le ih
    · simpa using ih

theorem mergeRepeats_eq_self : ∀ p : List Nat, (mergeRepeats p).length = p.length →
    mergeRepeats p = p
  | [] => fun _ => rfl
  | [_] => fun _ => rfl
  | a :: b :: r => by
    have ih := mergeRepeats_eq_self (b :: r)
    have hle := mergeRepeats_length_le (b :: r)
    rw [mergeRepeats]
    split_ifs with h
    · intro hlen
      simp only [List.length_cons] at hlen hle
      omega
    · intro hlen
      simp only [List.length_cons, Nat.add_right_cancel_iff] at hlen
      rw [ih (by simpa using hlen)]

theorem collapse_length_le (p : List Nat) : (collapse p).length ≤ (mergeRepeats p).length :=
  List.length_filter_le _ _

/-- A path as long as its collapse has nothing to merge and no blank. -/
theorem collapse_eq_self (p : List Nat) (h : (collapse p).length = p.length) :
    collapse p = p ∧ (mergeRepeats p).length = p.length := by
  have h1 := collapse_length_le p
  have h2 := mergeRepeats_length_le p
  have h3 : (mergeRepeats p).length = p.length := by omega
  have h4 : mergeRepeats p = p := mergeRepeats_eq_self p h3
  refine ⟨?_, h3⟩
  unfold collapse at h ⊢
  rw [h4] at h ⊢
  exact List.filter_eq_self.mpr (List.filter_length_eq_length.mp h)

theorem labelList_succ (lab : Nat → Nat) (L : Nat) :
    labelList lab (L + 1) = labelList lab L ++ [lab L] := by
  unfold labelList
  rw [List.range_succ, List.map_append]
  rfl

theorem labelList_getLast (lab : Nat → Nat) (L : Nat) :
    (labelList lab L).getLast? = if L = 0 then none else some (lab (L - 1)) := by
  cases L with
  | zero => rfl
  | succ n =>
    rw [labelList_succ, List.getLast?_append]
    simp

/-- Labels without an adjacent repeat have nothing to merge. -/
theorem mergeRepeats_labelList (lab : Nat → Nat) (L : Nat)
    (h : ∀ j, j + 1 < L → lab j ≠ lab (j + 1)) :
    mergeRepeats (labelList lab L) = labelList lab L := by
  induction L with
  | zero => rfl
  | succ n ih =>
    rw [labelList_succ, mergeRepeats_snoc, labelList_getLast, ih (fun j hj => h j (by omega))]
    by_cases hn : n = 0
    · rw [if_pos hn, if_neg (by simp)]
    · rw [if_neg hn, if_neg]
      intro e
      have := h (n - 1) (by omega)
      rw [show n - 1 + 1 = n by omega] at this
      exact this (Option.some.inj e)

/-- Labels with an adjacent repeat lose an entry in the merge. -/
theorem mergeRepeats_labelList_lt (lab : Nat → Nat) (L : Nat)
    (h : ∃ j, j + 1 < L ∧ lab j = lab (j + 1)) :
    (mergeRepeats (labelList lab L)).length < L := by
  induction L with
  | zero =>
    obtain ⟨j, hj, _⟩ := h
    omega
  | succ n ih =>
    have hle := mergeRepeats_length_le (labelList lab n)
    rw [labelList_length] at hle
    rw [labelList_succ, mergeRepeats_snoc, labelList_getLast]
    obtain ⟨j, hj, hjj⟩ := h
    by_cases hlast : (if n = 0 then none else some (lab (n - 1))) = some (lab n)
    · rw [if_pos hlast]
      omega
    · rw [if_neg hlast, List.length_append, List.length_singleton]
      have hj' : j + 1 < n := by
        by_contra hc
        have e : j + 1 = n := by omega
        apply hlast
        rw [if_neg (by omega)]
        have e' : n - 1 = j := by omega
        rw [e', hjj, e]
      have := ih ⟨j, hj', hjj⟩
      omega

/-- The sum over all paths of a function that vanishes off one path. -/
theorem lsum_allPaths_single (K : Nat) : ∀ (n : Nat) (q : List Nat) (f : List Nat → ℝ),
    q.length = n → (∀ k ∈ q, k < K) →
    lsum (allPaths K n) (fun p => if p = q then f p else 0) = f q := by
  intro n
  induction n with
  | zero =>
    intro q f hq _
    have : q = [] := List.length_eq_zero.mp hq
    subst this
    rw [lsum_allPaths_zero, if_pos rfl]
  | succ n ih =>
    intro q f hq hlt
    cases q with
    | nil => simp at hq
    | cons c r =>
      rw [lsum_allPaths_cons]
      have e : ∀ k, lsum (allPaths K n) (fun p => if k :: p = c :: r then f (k :: p) else 0) =
          if k = c then f (c :: r) else 0 := by
        intro k
        by_cases hk : k = c
        · subst hk
          rw [if_pos rfl]
          have := ih r (fun p => f (k :: p)) (by simpa using hq)
            (fun a ha => hlt a (List.mem_cons_of_mem _ ha))
          refine Eq.trans ?_ this
          apply lsum_congr
          intro p _
          simp
        · rw [if_neg hk]
          refine (lsum_congr _ _ (fun _ => (0 : ℝ)) ?_).trans (lsum_zero _)
          intro p _
          rw [if_neg]
          intro h
          exact hk (List.cons.inj h).1
      rw [lsum_congr _ _ _ (fun k _ => e k), lsum_range_single K c (fun _ => f (c :: r)),
        if_pos (hlt c (List.mem_cons_self _ _))]

theorem prod_exp_range (g : Nat → ℝ) (n : Nat) :
    ((List.range n).map (fun t => Real.exp (g t))).prod = Real.exp (lsum (List.range n) g) := by
  induction n with
  | zero => simp [lsum]
  | succ n ih =>
    rw [List.range_succ, List.map_append, List.prod_append, ih, lsum_append, lsum_singleton,
      Real.exp_add]
    simp

/-- The weight of the path that emits the labels, one at each timestep. -/
theorem pathWeight_labelList (x : Nat → Nat → ℝ) (lab : Nat → Nat) (L : Nat) :
    pathWeight x (labelList lab L) = Real.exp (lsum (List.range L) (fun t => x t (lab t))) := by
  unfold pathWeight
  rw [labelList_length, prod_exp_range]
  congr 1
  apply lsum_congr
  intro t ht
  rw [List.mem_range] at ht
  unfold labelList
  simp [List.getD_eq_getElem?_getD, ht]


section FullLength

variable (x : Nat → Nat → ℝ) (tgt : Nat → Int) (maxLen K : Nat)

/-- Among the paths as long as the label list, only the label list itself can collapse to
it. -/
theorem accepts_full (lab : Nat → Nat) (L : Nat) (p : List Nat) (hp : p ∈ allPaths K L) :
    accepts L (run lab L (some 0) p) = true ↔
      p = labelList lab L ∧ collapse (labelList lab L) = labelList lab L := by
  rw [accepts_iff_collapse]
  constructor
  · intro h
    have hlen : (collapse p).length = p.length := by
      rw [h, labelList_length, ((mem_allPaths K L p).mp hp).1]
    have e : p = labelList lab L := by rw [← (collapse_eq_self p hlen).1, h]
    exact ⟨e, by rw [← e]; exact (collapse_eq_self p hlen).1⟩
  · rintro ⟨e, h⟩
    rw [e, h]

theorem collapse_labelList (lab : Nat → Nat) (L : Nat) (hne : ∀ j < L, lab j ≠ 0)
    (hadj : ∀ j, j + 1 < L → lab j ≠ lab (j + 1)) :
    collapse (labelList lab L) = labelList lab L := by
  unfold collapse
  rw [mergeRepeats_labelList lab L hadj, List.filter_eq_self]
  intro a ha
  unfold labelList at ha
  rw [List.mem_map] at ha
  obtain ⟨j, hj, rfl⟩ := ha
  simpa using hne j (List.mem_range.mp hj)

theorem labelList_mem_allPaths (lab : Nat → Nat) (L : Nat) (hlt : ∀ j < L, lab j < K) :
    labelList lab L ∈ allPaths K L := by
  rw [mem_allPaths]
  refine ⟨labelList_length lab L, ?_⟩
  intro a ha
  unfold labelList at ha
  rw [List.mem_map] at ha
  obtain ⟨j, hj, rfl⟩ := ha
  exact hlt j (List.mem_range.mp hj)

/-- A target as long as the sequence, without an adjacent repeat: the one valid alignment
emits the labels, one at each timestep. -/
theorem lsum_alignments_full (hvalid : ∀ j < zeroPadArrayLength tgt maxLen, 1 ≤ tgt j ∧ tgt j < K)
    (hadj : ∀ j, j + 1 < zeroPadArrayLength tgt maxLen → tgt j ≠ tgt (j + 1)) :
    lsum (alignments K (zeroPadArrayLength tgt maxLen) tgt maxLen) (pathWeight x) =
      Real.exp (lsum (List.range (zeroPadArrayLength tgt maxLen))
        (fun t => x t (tgt t).toNat)) := by
  have hne := natLabels_ne_zero tgt _ K hvalid
  have hlt := natLabels_lt tgt _ K hvalid
  have hadj' : ∀ j, j + 1 < zeroPadArrayLength tgt maxLen →
      natLabels tgt j ≠ natLabels tgt (j + 1) := fun j hj =>
    (natLabels_ne_iff tgt _ K hvalid j (j + 1) (by omega) hj).mp (hadj j hj)
  have hc := collapse_labelList (natLabels tgt) _ hne hadj'
  rw [alignments_eq tgt maxLen K _ hvalid, lsum_filter]
  have e : ∀ p ∈ allPaths K (zeroPadArrayLength tgt maxLen),
      (if accepts (zeroPadArrayLength tgt maxLen)
          (run (natLabels tgt) (zeroPadArrayLength tgt maxLen) (some 0) p) = true
        then pathWeight x p else 0) =
      if p = labelList (natLabels tgt) (zeroPadArrayLength tgt maxLen)
        then pathWeight x p else 0 := by
    intro p hp
    by_cases h : p = labelList (natLabels tgt) (zeroPadArrayLength tgt maxLen)
    · rw [if_pos h, if_pos ((accepts_full K _ _ p hp).mpr ⟨h, hc⟩)]
    · rw [if_neg h, if_neg (fun h' => h ((accepts_full K _ _ p hp).mp h').1)]
  rw [lsum_congr _ _ _ e, lsum_allPaths_single K _ _ _ (labelList_length _ _)
    (fun k hk => ((mem_allPaths K _ _).mp (labelList_mem_allPaths K _ _ hlt)).2 k hk),
    pathWeight_labelList]
  rfl

/-- A target as long as the sequence with an adjacent repeat has no valid alignment. -/
theorem alignments_full_repeat
    (hvalid : ∀ j < zeroPadArrayLength tgt maxLen, 1 ≤ tgt j ∧ tgt j < K)
    (hadj : ∃ j, j + 1 < zeroPadArrayLength tgt maxLen ∧ tgt j = tgt (j + 1)) :
    alignments K (zeroPadArrayLength tgt maxLen) tgt maxLen = [] := by
  rw [alignments_eq tgt maxLen K _ hvalid, List.filter_eq_nil_iff]
  intro p hp hacc
  obtain ⟨_, hc⟩ := (accepts_full K _ _ p hp).mp hacc
  have hlen := (collapse_eq_self _ (by rw [hc])).2
  rw [labelList_length] at hlen
  obtain ⟨j, hj, hjj⟩ := hadj
  have := mergeRepeats_labelList_lt (natLabels tgt) (zeroPadArrayLength tgt maxLen)
    ⟨j, hj, by unfold natLabels; rw [hjj]⟩
  omega

end FullLength

theorem duo_length : zeroPadArrayLength (duoTargets.val 0) duoTargets.size1 = 2 := by
  decide

theorem duo_valid : ∀ j < zeroPadArrayLength (duoTargets.val 0) duoTargets.size1,
    1 ≤ duoTargets.val 0 j ∧ duoTargets.val 0 j < (duoInput.size2 : Int) := by
  rw [duo_length]
  intro j hj
  have h : j = 0 ∨ j = 1 := by omega
  rcases h with rfl | rfl <;> simp [duoTargets, duoInput]

theorem duo_distinct : ∀ j, j + 1 < duoInput.size1 →
    duoTargets.val 0 j ≠ duoTargets.val 0 (j + 1) := by
  intro j hj
  have h : j = 0 := by
    have : duoInput.size1 = 2 := rfl
    omega
  subst h
  simp [duoTargets]

/-! ## Cells no path reaches, whatever the scores -/

section NoPath

variable (M : ℝ) (x : Nat → Nat → ℝ) (input_i : Nat → Nat → XReal) (tgt : Nat → Int)
  (L K T : Nat)

end NoPath


section NoAlignment

variable (M : ℝ) (input_i : Nat → Nat → XReal) (tgt : Nat → Int) (maxLen K T : Nat)

end NoAlignment

/-! ## The outputs depend on the target rows within their width only -/

section TargetsCongr

variable {α : Type} (A : Scalar α) (input_i : Nat → Nat → α) (tgt tgt' : Nat → Int)

theorem zeroPadArrayLength_congr (maxLen : Nat) (h : ∀ j < maxLen, tgt' j = tgt j) :
    zeroPadArrayLength tgt' maxLen = zeroPadArrayLength tgt maxLen := by
  obtain ⟨r1, r2, r3⟩ := zeroPadArrayLength.loop_spec tgt maxLen maxLen 0 (by omega)
    (by intro j hj; omega)
  have e : zeroPadArrayLength tgt maxLen = zeroPadArrayLength.loop tgt maxLen maxLen 0 := rfl
  rw [← e] at r1 r2 r3
  apply zeroPadArrayLength_eq _ _ _ r1
  · intro j hj
    rw [h j (by omega)]
    exact r2 j hj
  · rcases r3 with r3 | r3
    · exact Or.inl r3
    · by_cases hlt : zeroPadArrayLength tgt maxLen < maxLen
      · right
        rw [h _ hlt]
        exact r3
      · left
        omega

theorem forwardCell_congr (L : Nat) (h : ∀ j < L, tgt' j = tgt j) (acts r : Nat → α)
    (s : Nat) (hs : s ≤ 2 * L) :
    forwardCell A acts r tgt' s = forwardCell A acts r tgt s := by
  unfold forwardCell
  by_cases hodd : s % 2 = 1
  · rw [if_pos hodd, if_pos hodd]
    simp only []
    rw [h (s / 2) (by omega)]
    by_cases h1 : s > 1
    · rw [h (s / 2 - 1) (by omega)]
    · have e : ∀ v : Int, ¬ (s > 1 ∧ tgt (s / 2) ≠ v) := fun v hv => h1 hv.1
      rw [if_neg (e _), if_neg (e _)]
  · rw [if_neg hodd, if_neg hodd]

theorem forwardStep_congr (T L : Nat) (h : ∀ j < L, tgt' j = tgt j) (fvars : Tensor2 α)
    (t : Nat) :
    forwardStep A input_i tgt' T (2 * L + 1) fvars t =
      forwardStep A input_i tgt T (2 * L + 1) fvars t := by
  unfold forwardStep
  apply List.foldl_ext
  intro fv s hs
  rw [List.mem_range'_1, sEnd_eq] at hs
  rw [forwardCell_congr A tgt tgt' L h _ _ s (by omega)]

theorem forwardVars_congr (T L : Nat) (h : ∀ j < L, tgt' j = tgt j) :
    forwardVars A input_i tgt' T (2 * L + 1) = forwardVars A input_i tgt T (2 * L + 1) := by
  unfold forwardVars
  simp only []
  have e : (fun fv t => forwardStep A input_i tgt' T (2 * L + 1) fv t) =
      fun fv t => forwardStep A input_i tgt T (2 * L + 1) fv t := by
    funext fv t
    exact forwardStep_congr A input_i tgt tgt' T L h fv t
  by_cases hL : 2 * L + 1 > 1
  · rw [if_pos hL, if_pos hL, h 0 (by omega)]
    exact congrArg (fun f => List.foldl f _ _) e
  · rw [if_neg hL, if_neg hL]
    exact congrArg (fun f => List.foldl f _ _) e

theorem backwardCell_congr (L : Nat) (h : ∀ j < L, tgt' j = tgt j) (acts r : Nat → α)
    (s : Nat) (hs : s ≤ 2 * L) :
    backwardCell A acts r tgt' (2 * L + 1) s = backwardCell A acts r tgt (2 * L + 1) s := by
  unfold backwardCell
  by_cases hodd : s % 2 = 1
  · rw [if_pos hodd, if_pos hodd]
    simp only []
    rw [h (s / 2) (by omega)]
    by_cases h2 : s + 2 < 2 * L + 1
    · rw [if_pos h2, if_pos h2, h (s / 2 + 1) (by omega)]
    · rw [if_neg h2, if_neg h2]
  · rw [if_neg hodd, if_neg hodd]
    simp only []
    by_cases h1 : s + 1 < 2 * L + 1
    · rw [if_pos h1, if_pos h1, h (s / 2) (by omega)]
    · rw [if_neg h1, if_neg h1]

theorem backwardStep_congr (T L : Nat) (h : ∀ j < L, tgt' j = tgt j) (bvars : Tensor2 α)
    (t : Nat) :
    backwardStep A input_i tgt' T (2 * L + 1) bvars t =
      backwardStep A input_i tgt T (2 * L + 1) bvars t := by
  unfold backwardStep
  apply List.foldl_ext
  intro bv s hs
  rw [List.mem_range'_1, sEnd_eq] at hs
  rw [backwardCell_congr A tgt tgt' L h _ _ s (by omega)]

theorem backwardVars_congr (T L : Nat) (h : ∀ j < L, tgt' j = tgt j) :
    backwardVars A input_i tgt' T (2 * L + 1) = backwardVars A input_i tgt T (2 * L + 1) := by
  unfold backwardVars
  simp only []
  have e : (fun bv t => backwardStep A input_i tgt' T (2 * L + 1) bv t) =
      fun bv t => backwardStep A input_i tgt T (2 * L + 1) bv t := by
    funext bv t
    exact backwardStep_congr A input_i tgt tgt' T L h bv t
  exact congrArg (fun f => List.foldl f _ _) e

theorem logDeDy_congr (L K : Nat) (h : ∀ j < L, tgt' j = tgt j) (f b : Nat → α) :
    logDeDy A f b tgt' K (2 * L + 1) = logDeDy A f b tgt K (2 * L + 1) := by
  unfold logDeDy
  apply List.foldl_ext
  intro acc s hs
  rw [List.mem_range] at hs
  by_cases hodd : s % 2 = 1
  · simp only [if_pos hodd]
    rw [h (s / 2) (by omega)]
  · simp only [if_neg hodd]

theorem gradStep_congr (L K : Nat) (h : ∀ j < L, tgt' j = tgt j) (fvars bvars : Tensor2 α)
    (logProb : α) (i : Nat) (g : Tensor3 α) (t : Nat) :
    gradStep A fvars bvars tgt' K (2 * L + 1) logProb i g t =
      gradStep A fvars bvars tgt K (2 * L + 1) logProb i g t := by
  unfold gradStep
  rw [logDeDy_congr A tgt tgt' L K h]

end TargetsCongr

/-- The loop body reads the row of its sequence within the width of the targets only. -/
theorem sequenceStep_width_congr {α : Type} (A : Scalar α) (input : Tensor3 α)
    (targets targets' : Tensor2 Int) (forwardOnly : Bool) (st : Outputs α) (i : Nat)
    (hw : targets'.size1 = targets.size1)
    (hv : ∀ j < targets.size1, targets'.val i j = targets.val i j) :
    sequenceStep A input targets' forwardOnly st i =
      sequenceStep A input targets forwardOnly st i := by
  have hL := zeroPadArrayLength_congr (targets.val i) (targets'.val i) targets.size1 hv
  have hle : zeroPadArrayLength (targets.val i) targets.size1 ≤ targets.size1 :=
    (zeroPadArrayLength.loop_spec (targets.val i) targets.size1 targets.size1 0 (by omega)
      (by intro j hj; omega)).1
  have h : ∀ j < zeroPadArrayLength (targets.val i) targets.size1,
      targets'.val i j = targets.val i j := fun j hj => hv j (by omega)
  unfold sequenceStep
  simp only []
  rw [hw, hL, forwardVars_congr A _ _ _ _ _ h, backwardVars_congr A _ _ _ _ _ h]
  have e : (fun g t => gradStep A
      (forwardVars A (input.val i) (targets.val i) input.size1
        (2 * zeroPadArrayLength (targets.val i) targets.size1 + 1))
      (backwardVars A (input.val i) (targets.val i) input.size1
        (2 * zeroPadArrayLength (targets.val i) targets.size1 + 1))
      (targets'.val i) input.size2 (2 * zeroPadArrayLength (targets.val i) targets.size1 + 1)
      (logLikelihood A (forwardVars A (input.val i) (targets.val i) input.size1
        (2 * zeroPadArrayLength (targets.val i) targets.size1 + 1)) input.size1
        (2 * zeroPadArrayLength (targets.val i) targets.size1 + 1)) i g t) =
      fun g t => gradStep A
      (forwardVars A (input.val i) (targets.val i) input.size1
        (2 * zeroPadArrayLength (targets.val i) targets.size1 + 1))
      (backwardVars A (input.val i) (targets.val i) input.size1
        (2 * zeroPadArrayLength (targets.val i) targets.size1 + 1))
      (targets.val i) input.size2 (2 * zeroPadArrayLength (targets.val i) targets.size1 + 1)
      (logLikelihood A (forwardVars A (input.val i) (targets.val i) input.size1
        (2 * zeroPadArrayLength (targets.val i) targets.size1 + 1)) input.size1
        (2 * zeroPadArrayLength (targets.val i) targets.size1 + 1)) i g t := by
    funext g t
    exact gradStep_congr A _ _ _ _ h _ _ _ _ _ _
  cases forwardOnly with
  | true => rfl
  | false =>
    simp only [Bool.not_false, if_true]
    exact congrArg (fun f => Outputs.mk _ (List.foldl f _ _)) e

theorem forwardBackward_width_congr {α : Type} (A : Scalar α) (input : Tensor3 α)
    (targets targets' : Tensor2 Int) (forwardOnly : Bool) (gradInput : Tensor3 α)
    (hw : targets'.size1 = targets.size1)
    (hv : ∀ i < input.size0, ∀ j < targets.size1, targets'.val i j = targets.val i j) :
    forwardBackward A input targets' forwardOnly gradInput =
      forwardBackward A input targets forwardOnly gradInput := by
  unfold forwardBackward
  simp only []
  apply List.foldl_ext
  intro st i hi
  exact sequenceStep_width_congr A input targets targets' forwardOnly st i hw
    (hv i (List.mem_range.mp hi))

theorem ragged_agree : ∀ i < toyInput.size0, ∀ j < toyTargets.size1,
    raggedTargets.val i j = toyTargets.val i j := by
  intro i hi j hj
  have h1 : i = 0 := by
    have : toyInput.size0 = 1 := rfl
    omega
  have h2 : j = 0 := by
    have : toyTargets.size1 = 1 := rfl
    omega
  subst h1
  subst h2
  rfl

/-! ## Log-domain arithmetic -/

/-- C11: in exact arithmetic, for `a` and `b` each finite or `logZero`,
`logAdd a b = log (exp a + exp b)`, where `exp logZero = 0` and `log 0 = logZero`. When
both are finite, the argument handed to `safeExp` inside `logAdd` is the difference
`min a b - max a b`, which is at most `0` and fails the test `>= expLimit` of the
saturating branch. -/
theorem logAdd_eq_log_exp_add (M : ℝ) (hM : 1 < M) (a b : XReal)
    (ha : a = LogMath.logZero (exactArith M) ∨ ∃ x, a = XReal.fin x)
    (hb : b = LogMath.logZero (exactArith M) ∨ ∃ y, b = XReal.fin y) :
    LogMath.logAdd (exactArith M) a b =
      XReal.log (XReal.add (XReal.exp a) (XReal.exp b)) ∧
    XReal.exp (LogMath.logZero (exactArith M)) = XReal.fin 0 ∧
    XReal.log (XReal.fin 0) = LogMath.logZero (exactArith M) ∧
    ∀ x y, a = XReal.fin x → b = XReal.fin y →
      (exactArith M).sub
        (if (exactArith M).lt a b then (b, a) else (a, b)).2
        (if (exactArith M).lt a b then (b, a) else (a, b)).1 =
          XReal.fin (min x y - max x y) ∧
      min x y - max x y ≤ 0 ∧
      (exactArith M).ge (XReal.fin (min x y - max x y))
        (LogMath.expLimit (exactArith M)) = false := by
  refine ⟨logAdd_exact_formula hM a b ha hb, rfl, ?_, ?_⟩
  · simp [XReal.log, logZero_exact]
  · intro x y hx hy
    subst hx
    subst hy
    have hd : min x y - max x y ≤ 0 := sub_nonpos.mpr (min_le_max)
    refine ⟨logAdd_arg_fin M x y, hd, ?_⟩
    rw [expLimit_exact hM]
    have hlog : 0 < Real.log M := Real.log_pos hM
    have : ¬ Real.log M ≤ min x y - max x y := by linarith
    simp [exactArith, XReal.ge, this]

/-- C11 at `a = b = 0` with `expMax = 2`. -/
theorem logAdd_eq_log_exp_add_witness :
    (1 : ℝ) < 2 ∧
    LogMath.logAdd (exactArith 2) (XReal.fin 0) (XReal.fin 0) =
      XReal.log (XReal.add (XReal.exp (XReal.fin 0)) (XReal.exp (XReal.fin 0))) :=
  ⟨by norm_num,
    (logAdd_eq_log_exp_add 2 (by norm_num) (XReal.fin 0) (XReal.fin 0) (Or.inr ⟨0, rfl⟩)
      (Or.inr ⟨0, rfl⟩)).1⟩

/-- C12: the sentinel laws of `LogMath` in exact arithmetic. For every `a`, `nan` and `+∞`
included, `logAdd a logZero = a` and `logMul a logZero = logZero`; for every
`a ≠ logZero`, `logDiv a logZero` is `logInfinity`; and `logDiv logZero b = logZero` for
every `b`, `logZero` included. -/
theorem sentinel_laws (M : ℝ) :
    (∀ a, LogMath.logAdd (exactArith M) a (LogMath.logZero (exactArith M)) = a) ∧
    (∀ a, LogMath.logMul (exactArith M) a (LogMath.logZero (exactArith M)) =
      LogMath.logZero (exactArith M)) ∧
    (∀ a, a ≠ LogMath.logZero (exactArith M) →
      LogMath.logDiv (exactArith M) a (LogMath.logZero (exactArith M)) =
        LogMath.logInfinity (exactArith M)) ∧
    (∀ b, LogMath.logDiv (exactArith M) (LogMath.logZero (exactArith M)) b =
      LogMath.logZero (exactArith M)) := by
  simp only [logZero_exact, logInfinity_exact]
  exact ⟨logAdd_ninf_right M, logMul_ninf_right M, logDiv_ninf_right M, logDiv_ninf_left M⟩

/-- C13, as stated, fails at `a = nan`, a value the log domain itself produces
(`logDiv +∞ +∞`): every comparison of `safeExp` fails there and the result is `nan`, which
is no finite value, is not `>= 0`, and is not `<= expMax`. -/
theorem safeExp_nan_counterexample :
    LogMath.logDiv (exactArith 2) XReal.pinf XReal.pinf = XReal.nan ∧
    LogMath.safeExp (exactArith 2) XReal.nan = XReal.nan ∧
    (∀ r : ℝ, LogMath.safeExp (exactArith 2) XReal.nan ≠ XReal.fin r) ∧
    (exactArith 2).ge (LogMath.safeExp (exactArith 2) XReal.nan) (exactArith 2).zero = false ∧
    (exactArith 2).ge (LogMath.expMax (exactArith 2))
      (LogMath.safeExp (exactArith 2) XReal.nan) = false := by
  have h := safeExp_nan 2
  refine ⟨?_, h, ?_, ?_, ?_⟩
  · unfold LogMath.logDiv
    rw [logZero_exact]
    simp [exactArith, XReal.eq, XReal.sub, XReal.neg, XReal.add]
  · intro r
    rw [h]
    simp
  · rw [h]
    rfl
  · rw [h]
    rfl

/-- C13, amended: with `expMax = M > 0`, for every `a`, `safeExp a` is `0` when
`a = logZero`, `expMax` when `a >= expLimit` where `expLimit = log expMax`, and `exp a`
otherwise. Hence, for every `a` other than `nan` (`-∞`, finite, `+∞`), `safeExp a` is the
finite value `min (exp a) expMax`, and it lies between `0` and `expMax`; at `nan` the
result is `nan`. -/
theorem safeExp_cases_and_bounds (M : ℝ) (hM : 0 < M) (a : XReal) :
    (a = LogMath.logZero (exactArith M) →
      LogMath.safeExp (exactArith M) a = (exactArith M).zero) ∧
    ((exactArith M).ge a (LogMath.expLimit (exactArith M)) = true →
      LogMath.safeExp (exactArith M) a = LogMath.expMax (exactArith M)) ∧
    (a ≠ LogMath.logZero (exactArith M) →
      (exactArith M).ge a (LogMath.expLimit (exactArith M)) = false →
      LogMath.safeExp (exactArith M) a = (exactArith M).exp a) ∧
    LogMath.expLimit (exactArith M) = XReal.fin (Real.log M) ∧
    LogMath.expMax (exactArith M) = XReal.fin M ∧
    (a ≠ XReal.nan →
      LogMath.safeExp (exactArith M) a = XReal.fin (minExp M a) ∧
      0 ≤ minExp M a ∧ minExp M a ≤ M) ∧
    (a = XReal.nan → LogMath.safeExp (exactArith M) a = XReal.nan) := by
  refine ⟨?_, safeExp_of_ge hM a, safeExp_of_not_ge M a, expLimit_exact_pos hM, rfl,
    safeExp_min hM a, ?_⟩
  · intro h
    rw [h, logZero_exact, safeExp_ninf]
    rfl
  · intro h
    rw [h, safeExp_nan]

/-- C13, amended, at `a = +∞` with `expMax = 2`: the result is `2`, not infinity. -/
theorem safeExp_cases_and_bounds_witness :
    (0 : ℝ) < 2 ∧ LogMath.safeExp (exactArith 2) XReal.pinf = XReal.fin 2 :=
  ⟨by norm_num,
    ((safeExp_cases_and_bounds 2 (by norm_num) XReal.pinf).2.2.2.2.2.1 (by simp)).1⟩

/-! ## Gradient entries that are zero by construction -/

/-- C14: with `forwardOnly = false`, for every sequence `i`, every timestep `t` and every
class `k` that is neither the blank `0` nor one of the `L` effective target labels,
`gradInput[i][t][k] = 0`, whatever the scores. -/
theorem grad_zero_off_target (M : ℝ) (input : Tensor3 XReal) (targets : Tensor2 Int)
    (gradInput : Tensor3 XReal) (i t k : Nat)
    (hi : i < input.size0) (ht : t < input.size1) (hk : k < input.size2)
    (hblank : (k : Int) ≠ blankLabel)
    (hlab : ∀ j < zeroPadArrayLength (targets.val i) targets.size1,
      targets.val i j ≠ (k : Int)) :
    (forwardBackward (exactArith M) input targets false gradInput).gradInput.val i t k =
      (exactArith M).zero := by
  rw [forwardBackward_grad_false, if_pos ⟨hi, ht, hk⟩]
  exact seqGrad_off_target M _ _ _ _ _ t k
    (fun e => hblank (by rw [e]; rfl)) hlab

/-- C14 at a three-class sequence with target `[1]`: the entry of class `2`. -/
theorem grad_zero_off_target_witness :
    (∀ j < zeroPadArrayLength (toyTargets.val 0) toyTargets.size1,
      toyTargets.val 0 j ≠ ((2 : Nat) : Int)) ∧
    (forwardBackward (exactArith 2) wideInput toyTargets false
      wideInput).gradInput.val 0 0 2 = XReal.fin 0 :=
  ⟨fun _ _ => by simp [toyTargets],
    grad_zero_off_target 2 wideInput toyTargets wideInput 0 0 2
      (by decide) (by decide) (by decide) (by decide) (fun _ _ => by simp [toyTargets])⟩

/-! ## Shapes -/

/-- C15, as stated, fails: the toy batch has one sequence and `surplusTargets` has two
rows, yet `forwardBackward` returns the loss of the sequence, `0`, writes its gradient,
`-1` at the label, and these are the outputs of the call with the one-row targets. -/
theorem shape_mismatch_counterexample :
    surplusTargets.size0 ≠ toyInput.size0 ∧
    (forwardBackward (exactArith 2) toyInput surplusTargets false toyInput).losses.size0 = 1 ∧
    (forwardBackward (exactArith 2) toyInput surplusTargets false toyInput).losses.val 0 =
      XReal.fin 0 ∧
    (forwardBackward (exactArith 2) toyInput surplusTargets false toyInput).gradInput.val
      0 0 1 = XReal.fin (-1) ∧
    forwardBackward (exactArith 2) toyInput surplusTargets false toyInput =
      forwardBackward (exactArith 2) toyInput toyTargets false toyInput := by
  obtain ⟨h1, _, h3⟩ := toy_exact 2 (by norm_num) toyInput surplusTargets toyInput 0 0 0
    (by decide) rfl rfl rfl rfl rfl rfl
  refine ⟨by decide, forwardBackward_losses_size _ _ _ _ _, ?_, h3, ?_⟩
  · rw [h1, neg_zero]
  · exact forwardBackward_targets_congr _ _ _ _ _ _ rfl (fun _ _ => rfl)

/-- C15, amended: `forwardBackward` does not compare the number of rows of `targets` with
the number `nFrame` of sequences. When `targets` holds a row for each of the `nFrame`
sequences, surplus rows are not rejected: the outputs are those of every other targets
tensor of the same width, with at least `nFrame` rows, that holds the same entries in the
rows `i < nFrame` within the width, whatever else the two tensors hold. There is one loss
for each of the `nFrame` sequences, computed from its scores and from row `i`. -/
theorem surplus_target_rows_ignored {α : Type} (A : Scalar α) (input : Tensor3 α)
    (targets targets' : Tensor2 Int) (forwardOnly : Bool) (gradInput : Tensor3 α)
    (hrows : input.size0 ≤ targets.size0) (hrows' : input.size0 ≤ targets'.size0)
    (hw : targets'.size1 = targets.size1)
    (hv : ∀ i < input.size0, ∀ j < targets.size1, targets'.val i j = targets.val i j) :
    forwardBackward A input targets' forwardOnly gradInput =
      forwardBackward A input targets forwardOnly gradInput ∧
    (forwardBackward A input targets' forwardOnly gradInput).losses.size0 = input.size0 ∧
    ∀ i < input.size0, i < targets.size0 ∧ i < targets'.size0 ∧
      (forwardBackward A input targets' forwardOnly gradInput).losses.val i =
        A.neg (seqLogProb A (input.val i) (targets.val i) input.size1 targets.size1) := by
  have e := forwardBackward_width_congr A input targets targets' forwardOnly gradInput hw hv
  refine ⟨e, forwardBackward_losses_size _ _ _ _ _, ?_⟩
  intro i hi
  refine ⟨lt_of_lt_of_le hi hrows, lt_of_lt_of_le hi hrows', ?_⟩
  rw [e, forwardBackward_losses, if_pos hi]

/-- C15, amended, at the toy batch: the two rows `[1]`, `[5]` against the one row `[1]`. -/
theorem surplus_target_rows_ignored_witness :
    raggedTargets.size0 ≠ toyInput.size0 ∧
    forwardBackward (exactArith 2) toyInput raggedTargets false toyInput =
      forwardBackward (exactArith 2) toyInput toyTargets false toyInput :=
  ⟨by decide,
    (surplus_target_rows_ignored (exactArith 2) toyInput toyTargets raggedTargets false
      toyInput (by decide) (by decide) rfl ragged_agree).1⟩

/-! ## Targets as long as the sequence: the claim -/

/-- C16: in exact arithmetic, for a sequence with finite scores `x` and valid labels whose
effective target length equals `inputLength ≥ 1`: when no two adjacent target labels are
equal the loss is `-(Σₜ x t (target t))`, the weight of the one alignment without a
blank; when two adjacent target labels are equal the loss is `+∞`. -/
theorem full_length_target (M : ℝ) (hM : 1 < M)
    (input : Tensor3 XReal) (targets : Tensor2 Int) (forwardOnly : Bool)
    (gradInput : Tensor3 XReal) (i : Nat) (x : Nat → Nat → ℝ)
    (hi : i < input.size0) (hT : 1 ≤ input.size1) (hK : 1 ≤ input.size2)
    (hx : ∀ t k, t < input.size1 → k < input.size2 → input.val i t k = XReal.fin (x t k))
    (hvalid : ∀ j < zeroPadArrayLength (targets.val i) targets.size1,
      1 ≤ targets.val i j ∧ targets.val i j < input.size2)
    (hL : zeroPadArrayLength (targets.val i) targets.size1 = input.size1) :
    ((∀ j, j + 1 < input.size1 → targets.val i j ≠ targets.val i (j + 1)) →
      (forwardBackward (exactArith M) input targets forwardOnly gradInput).losses.val i =
        XReal.fin (-(lsum (List.range input.size1)
          (fun t => x t (targets.val i t).toNat)))) ∧
    ((∃ j, j + 1 < input.size1 ∧ targets.val i j = targets.val i (j + 1)) →
      (forwardBackward (exactArith M) input targets forwardOnly gradInput).losses.val i =
        LogMath.logInfinity (exactArith M)) := by
  have hloss := loss_exact M hM input targets forwardOnly gradInput i x hi hT hK hx hvalid
  constructor
  · intro hadj
    have hs := lsum_alignments_full x (targets.val i) targets.size1 input.size2 hvalid
      (by rw [hL]; exact hadj)
    rw [hL] at hs
    have hne : alignments input.size2 input.size1 (targets.val i) targets.size1 ≠ [] := by
      intro h
      have h0 := (lsum_eq_zero_iff_alignments x _ _ _ _).mpr h
      rw [hs] at h0
      exact absurd h0 (Real.exp_pos _).ne.symm
    rw [hloss, if_neg hne, hs, Real.log_exp]
  · intro hadj
    have hnil := alignments_full_repeat (targets.val i) targets.size1 input.size2 hvalid
      (by rw [hL]; exact hadj)
    rw [hL] at hnil
    rw [hloss, if_pos hnil]
    rfl

/-- C16 at two timesteps over three classes, scores `0`, target `[1, 2]`. -/
theorem full_length_target_witness :
    zeroPadArrayLength (duoTargets.val 0) duoTargets.size1 = duoInput.size1 ∧
    (forwardBackward (exactArith 2) duoInput duoTargets false duoInput).losses.val 0 =
      XReal.fin (-(lsum (List.range duoInput.size1)
        (fun t => (fun _ _ => (0 : ℝ)) t (duoTargets.val 0 t).toNat))) :=
  ⟨by decide,
    (full_length_target 2 (by norm_num) duoInput duoTargets false duoInput 0 (fun _ _ => 0)
      (by decide) (by decide) (by decide) (fun _ _ _ _ => rfl) duo_valid (by decide)).1
      duo_distinct⟩

/-! ## Consistency of the two passes -/

/-- C17: in exact arithmetic, for a sequence with `inputLength ≥ 1`, finite scores, valid
labels and a finite loss, at every timestep `t` the log-sum over the segments `s` of
`logMul (fvars[t][s]) (bvars[t][s])` is the log-likelihood `logProb`, and the gradient
entries `gradInput[i][t][k]` of the timestep sum to `-1` over the classes. -/
theorem forward_backward_consistency (M : ℝ) (hM : 1 < M)
    (input : Tensor3 XReal) (targets : Tensor2 Int) (gradInput : Tensor3 XReal) (i : Nat)
    (x : Nat → Nat → ℝ) (hi : i < input.size0) (hT : 1 ≤ input.size1)
    (hK : 1 ≤ input.size2)
    (hx : ∀ t k, t < input.size1 → k < input.size2 → input.val i t k = XReal.fin (x t k))
    (hvalid : ∀ j < zeroPadArrayLength (targets.val i) targets.size1,
      1 ≤ targets.val i j ∧ targets.val i j < input.size2)
    (hfin : ∃ r, (forwardBackward (exactArith M) input targets false gradInput).losses.val i =
      XReal.fin r)
    (t : Nat) (ht : t < input.size1) :
    segmentLogSum (exactArith M)
      ((forwardVars (exactArith M) (input.val i) (targets.val i) input.size1
        (2 * zeroPadArrayLength (targets.val i) targets.size1 + 1)).val t)
      ((backwardVars (exactArith M) (input.val i) (targets.val i) input.size1
        (2 * zeroPadArrayLength (targets.val i) targets.size1 + 1)).val t)
      (2 * zeroPadArrayLength (targets.val i) targets.size1 + 1) =
      logLikelihood (exactArith M)
        (forwardVars (exactArith M) (input.val i) (targets.val i) input.size1
          (2 * zeroPadArrayLength (targets.val i) targets.size1 + 1))
        input.size1 (2 * zeroPadArrayLength (targets.val i) targets.size1 + 1) ∧
    sumClasses (exactArith M)
      ((forwardBackward (exactArith M) input targets false gradInput).gradInput.val i t)
      input.size2 = XReal.fin (-1) := by
  have hne : alignments input.size2 input.size1 (targets.val i) targets.size1 ≠ [] := by
    intro hnil
    obtain ⟨r, hr⟩ := hfin
    rw [loss_exact M hM input targets false gradInput i x hi hT hK hx hvalid,
      if_pos hnil] at hr
    exact absurd hr (by simp)
  have hZ := alignments_pos x (targets.val i) targets.size1 input.size2 input.size1 hne
  refine ⟨segmentLogSum_seq_exact M x (input.val i) (targets.val i) targets.size1
    input.size2 input.size1 hM hT hK hx hvalid t ht, ?_⟩
  rw [sumClasses_fin M _ _ input.size2
    (fun k hk => grad_exact M hM input targets gradInput i x hi hT hK hx hvalid t k ht hk),
    lsum_neg_share x (targets.val i) targets.size1 input.size2 input.size1 t ht hZ]

/-- C17 at the sample batch, time `0`. -/
theorem forward_backward_consistency_witness :
    (∃ r, (forwardBackward (exactArith 2) sampleInput sampleTargets false
      sampleInput).losses.val 0 = XReal.fin r) ∧
    sumClasses (exactArith 2)
      ((forwardBackward (exactArith 2) sampleInput sampleTargets false
        sampleInput).gradInput.val 0 0)
      sampleInput.size2 = XReal.fin (-1) :=
  have hfin : ∃ r, (forwardBackward (exactArith 2) sampleInput sampleTargets false
      sampleInput).losses.val 0 = XReal.fin r := by
    rw [loss_exact 2 (by norm_num) sampleInput sampleTargets false sampleInput 0
      (fun _ _ => 0) (by decide) (by decide) (by decide) (fun _ _ _ _ => rfl) sample_valid,
      sample_alignments, if_neg (by simp)]
    exact ⟨_, rfl⟩
  ⟨hfin,
    (forward_backward_consistency 2 (by norm_num) sampleInput sampleTargets sampleInput 0
      (fun _ _ => 0) (by decide) (by decide) (by decide) (fun _ _ _ _ => rfl) sample_valid
      hfin 0 (by decide)).2⟩

/-! ## Sequences without a valid alignment -/

/-- C18 fails on the code: with three timesteps and the target row `[1]` of width
`maxTargetLength = 1` (so `L = 1`), the backward pass reads position `1` of the row, at
`t = 1`, `s = 2`; the reads of the forward pass and of the gradient computation stay
inside the row. -/
theorem backward_read_outside_row :
    toyTargets.size1 = 1 ∧
    zeroPadArrayLength (toyTargets.val 0) toyTargets.size1 = 1 ∧
    backwardCell.reads (2 * 1 + 1) 2 = [1] ∧
    backwardVars.reads 3 (2 * 1 + 1) = [0, 0, 1, 0, 0] ∧
    ¬ (∀ p ∈ backwardVars.reads 3
        (2 * zeroPadArrayLength (toyTargets.val 0) toyTargets.size1 + 1),
      p < toyTargets.size1) ∧
    (∀ p ∈ forwardVars.reads 3
        (2 * zeroPadArrayLength (toyTargets.val 0) toyTargets.size1 + 1),
      p < toyTargets.size1) ∧
    (∀ p ∈ gradient.reads 3
        (2 * zeroPadArrayLength (toyTargets.val 0) toyTargets.size1 + 1),
      p < toyTargets.size1) := by
  decide

/-! ## Infeasible targets -/

/-- C19: for every sequence whose effective target length `L` exceeds `inputLength ≥ 1`,
whatever the scores: at every timestep the band `[sBegin, sEnd)` of the forward and of
the backward recurrence is empty, the loss is `+∞`, and with `forwardOnly = false` every
gradient entry of the sequence is `0`. -/
theorem infeasible_target (M : ℝ) (input : Tensor3 XReal) (targets : Tensor2 Int)
    (forwardOnly : Bool) (gradInput : Tensor3 XReal) (i : Nat)
    (hi : i < input.size0) (hT : 1 ≤ input.size1)
    (hL : input.size1 < zeroPadArrayLength (targets.val i) targets.size1) :
    (∀ t, t < input.size1 →
      List.range' (sBegin input.size1
          (2 * zeroPadArrayLength (targets.val i) targets.size1 + 1) t)
        (sEnd (2 * zeroPadArrayLength (targets.val i) targets.size1 + 1) t -
          sBegin input.size1
            (2 * zeroPadArrayLength (targets.val i) targets.size1 + 1) t) = []) ∧
    (forwardBackward (exactArith M) input targets forwardOnly gradInput).losses.val i =
      LogMath.logInfinity (exactArith M) ∧
    ∀ t k, t < input.size1 → k < input.size2 →
      (forwardBackward (exactArith M) input targets false gradInput).gradInput.val i t k =
        (exactArith M).zero := by
  refine ⟨?_, ?_, ?_⟩
  · intro t ht
    rw [Nat.sub_eq_zero_of_le (band_empty _ _ t hL ht)]
    rfl
  · rw [forwardBackward_losses, if_pos hi, seqLogProb_infeasible M _ _ _ _ hT hL]
    rfl
  · intro t k ht hk
    rw [forwardBackward_grad_false, if_pos ⟨hi, ht, hk⟩]
    exact seqGrad_infeasible M _ _ _ _ _ hT hL t k ht

/-- C19 at one timestep and the target `[1, 1]`. -/
theorem infeasible_target_witness :
    toyInput.size1 < zeroPadArrayLength (longTargets.val 0) longTargets.size1 ∧
    (forwardBackward (exactArith 2) toyInput longTargets false
      toyInput).losses.val 0 = XReal.pinf ∧
    (forwardBackward (exactArith 2) toyInput longTargets false
      toyInput).gradInput.val 0 0 1 = XReal.fin 0 :=
  ⟨by decide,
    (infeasible_target 2 toyInput longTargets false toyInput 0
      (by decide) (by decide) (by decide)).2.1,
    (infeasible_target 2 toyInput longTargets false toyInput 0
      (by decide) (by decide) (by decide)).2.2 0 1 (by decide) (by decide)⟩

/-! ## Decoder and segment axis -/

/-- C20: for every sequence `l_1..l_L` of non-zero labels (adjacent repeats allowed), the
row `naiveDecoding` produces from the expanded segment sequence `[0, l_1, 0, ..., l_L, 0]`
of length `2 L + 1` (class `0` at even `s`, `l` at position `s / 2` at odd `s`) is
`l_1..l_L` followed by `L + 1` zeros, and `zeroPadArrayLength` of that row is `L`. -/
theorem decode_expanded_roundtrip (l : Nat → Int) (L : Nat) (rawPred : Tensor2 Int) (i : Nat)
    (hl : ∀ j < L, l j ≠ 0) (hi : i < rawPred.size0) (hsize : rawPred.size1 = 2 * L + 1)
    (hrow : ∀ s < 2 * L + 1, rawPred.val i s = segLabel l s) :
    rowList ((naiveDecoding rawPred).1.val i) (2 * L + 1) =
      (List.range L).map l ++ List.replicate (L + 1) 0 ∧
    zeroPadArrayLength ((naiveDecoding rawPred).1.val i) (2 * L + 1) = L := by
  have hk : keptPredictions (rawPred.val i) rawPred.size1 = (List.range L).map l := by
    rw [hsize, keptPredictions_congr _ _ _ hrow, keptPredictions_segLabel l L hl]
  have hv : ∀ j, (naiveDecoding rawPred).1.val i j =
      if j < ((List.range L).map l).length then ((List.range L).map l).getD j 0 else 0 := by
    intro j
    rw [naiveDecoding_val rawPred i j hi, hk]
  constructor
  · rw [rowList_eq_append _ _ _ (by simp; omega) hv]
    congr 2
    simp
    omega
  · apply zeroPadArrayLength_eq _ _ _ (by omega)
    · intro j hj
      rw [hv j, if_pos (by simpa using hj)]
      simpa [List.getD_eq_getElem?_getD, hj] using hl j hj
    · right
      rw [hv L, if_neg (by simp)]

/-- C20 at the labels `[2, 2]`: the segment sequence `[0, 2, 0, 2, 0]`. -/
theorem decode_expanded_roundtrip_witness :
    rowList ((naiveDecoding
        { size0 := 1, size1 := 5, val := fun _ s => segLabel (fun _ => 2) s }).1.val 0) 5 =
      [2, 2, 0, 0, 0] ∧
    zeroPadArrayLength ((naiveDecoding
        { size0 := 1, size1 := 5, val := fun _ s => segLabel (fun _ => 2) s }).1.val 0) 5 = 2 :=
  decode_expanded_roundtrip (fun _ => 2) 2
    { size0 := 1, size1 := 5, val := fun _ s => segLabel (fun _ => 2) s } 0
    (fun _ _ => by simp) (by decide) rfl (fun _ _ => rfl)

end CTC
